import Mathlib

/-!
# A verification development for `main.go`

`main.go` is a command-line record manager: it loads a collection of user
records from a JSON file, applies one operation (`add`, `remove`, `list`,
`findById`) and saves the result.

The embedding is shallow.  Go values become Lean values:

* a Go `string` or `[]byte` is a list of bytes (`GoString`);
* a Go `map` is a finite map with unique keys (`AList`);
* a Go function returning `(value, error)` returns a pair whose second
  component is `Option Error` (`none` is Go's `nil` error);
* a method with a pointer receiver takes the pointee and returns its new value;
* the file system and the output sink are explicit state (`World`);
* the order in which `range` visits the keys of a map, which Go leaves
  unspecified, is an explicit input (the argument `order` of `Users.List`, the
  argument `rng` of `Perform`).

The standard-library functions the program calls (`encoding/json`,
`unicode/utf8`, `strconv`, `os`) are embedded next to the program's own
functions, restricted to the types the program uses them at.
-/

/-! ## Strings and errors -/

/-- A Go `string` (or `[]byte`): a finite sequence of bytes.  A byte is held as
a natural number; every byte of a string is below 256. -/
abbrev GoString := List Nat

/-- A Go slice `[]T`, as the list of its elements. -/
abbrev Slice (α : Type) := List α

namespace utf8

/-- The constant `utf8.RuneError`, U+FFFD. -/
def RuneError : Nat := 0xFFFD

/-- The constant `utf8.MaxRune`. -/
def MaxRune : Nat := 0x10FFFF

/-- The bytes `utf8.AppendRune(nil, r)` appends for a rune `r ≥ 0`: runes that
are surrogates or above `MaxRune` are written as `RuneError`.  The Go source
builds each byte with `|` from a tag and a shifted, masked part of `r`; the
two operands never share a bit, so `|` is `+` here. -/
def EncodeRune (r : Nat) : GoString :=
  if r ≤ 0x7F then [r]
  else if r ≤ 0x7FF then [0xC0 + r / 64, 0x80 + r % 64]
  else if MaxRune < r ∨ (0xD800 ≤ r ∧ r ≤ 0xDFFF) then [0xEF, 0xBF, 0xBD]
  else if r ≤ 0xFFFF then [0xE0 + r / 4096, 0x80 + r / 64 % 64, 0x80 + r % 64]
  else [0xF0 + r / 262144, 0x80 + r / 4096 % 64, 0x80 + r / 64 % 64, 0x80 + r % 64]

/-- The function `utf8.DecodeRune(p)`: the first rune of `p` and its width in
bytes; `(RuneError, 1)` when `p` does not start with a well-formed encoding and
`(RuneError, 0)` when `p` is empty.  `sz`, `lo` and `hi` are the entries of the
tables `first` and `acceptRanges` for the leading byte `p0`. -/
def DecodeRune (p : GoString) : Nat × Nat :=
  match p with
  | [] => (RuneError, 0)
  | p0 :: _ =>
    if p0 < 0x80 then (p0, 1)
    else if p0 < 0xC2 ∨ 0xF4 < p0 then (RuneError, 1)
    else
      let sz := if p0 < 0xE0 then 2 else if p0 < 0xF0 then 3 else 4
      let lo := if p0 = 0xE0 then 0xA0 else if p0 = 0xF0 then 0x90 else 0x80
      let hi := if p0 = 0xED then 0x9F else if p0 = 0xF4 then 0x8F else 0xBF
      if p.length < sz then (RuneError, 1)
      else
        let b1 := p.getD 1 0
        if b1 < lo ∨ hi < b1 then (RuneError, 1)
        else if sz ≤ 2 then (p0 % 32 * 64 + b1 % 64, 2)
        else
          let b2 := p.getD 2 0
          if b2 < 0x80 ∨ 0xBF < b2 then (RuneError, 1)
          else if sz ≤ 3 then (p0 % 16 * 4096 + b1 % 64 * 64 + b2 % 64, 3)
          else
            let b3 := p.getD 3 0
            if b3 < 0x80 ∨ 0xBF < b3 then (RuneError, 1)
            else (p0 % 8 * 262144 + b1 % 64 * 4096 + b2 % 64 * 64 + b3 % 64, 4)

/-- The loop of `utf8.Valid`, rune by rune: no position of the string decodes
to `(RuneError, 1)`.  `fuel` is at least the length of the string. -/
def validLoop : Nat → GoString → Bool
  | 0, s => decide (s = [])
  | _, [] => true
  | fuel + 1, c :: rest =>
    let d := DecodeRune (c :: rest)
    if d.1 = RuneError ∧ d.2 = 1 then false
    else validLoop fuel ((c :: rest).drop d.2)

/-- The function `utf8.Valid(p)`: `p` consists of well-formed UTF-8
encodings of runes. -/
def Valid (p : GoString) : Bool := validLoop p.length p

end utf8

/-- A string literal of the Go source, as the bytes of its UTF-8 encoding. -/
def lit (s : String) : GoString :=
  s.data.flatMap (fun c => utf8.EncodeRune c.toNat)

/-- A Go `error` value.  The program reads an error only through `Error()`
and only for the errors it builds itself, so the errors of the standard
library are kept by kind. -/
inductive Error where
  /-- An error of `errors.New` or `fmt.Errorf`: its message. -/
  | text (msg : GoString)
  /-- A `*json.SyntaxError`: the input is not one JSON value. -/
  | jsonSyntax
  /-- A `*json.UnmarshalTypeError`: a JSON value does not fit its Go target. -/
  | jsonType
  /-- An error of package `os` for which `errors.Is(err, os.ErrNotExist)` holds. -/
  | notExist
  /-- Any other error of package `os`, with its number. -/
  | os (code : Nat)
  deriving DecidableEq, Repr

/-- The method `Error()`.  The program calls it on the errors of `Add` and
`Remove` only, which `fmt.Errorf` builds; for an error of the standard library
a fixed text stands for its message. -/
def Error.message : Error → GoString
  | .text msg => msg
  | .jsonSyntax => lit "invalid character"
  | .jsonType => lit "json: cannot unmarshal"
  | .notExist => lit "no such file or directory"
  | .os _ => lit "os error"

/-! ## The data model -/

/-- The type `Arguments`: `map[string]string`. -/
abbrev Arguments := AList (fun _ : GoString => GoString)

/-- The struct `User`.  `Age` is a Go `int` (64 bits), held as an integer;
`isInt64` says that it is in range. -/
structure User where
  Id : GoString
  Email : GoString
  Age : Int
  deriving DecidableEq, Repr

/-- The range of a Go `int`. -/
def isInt64 (n : Int) : Prop := -(2 : Int) ^ 63 ≤ n ∧ n < (2 : Int) ^ 63

instance (n : Int) : Decidable (isInt64 n) := by
  unfold isInt64; exact inferInstance

/-- The zero value `User{}`. -/
def User.zero : User := { Id := [], Email := [], Age := 0 }

/-- The type `Users`: `map[string]User`, a non-nil map as `Users{}` makes it. -/
abbrev Users := AList (fun _ : GoString => User)

/-- The map index expression `m[key]` in its two-result form `v, ok := m[key]`,
for a map of strings. -/
def Arguments.index (args : Arguments) (key : GoString) : GoString × Bool :=
  match args.lookup key with
  | some v => (v, true)
  | none => ([], false)

/-- The map index expression `users[key]` in its two-result form. -/
def Users.index (users : Users) (key : GoString) : User × Bool :=
  match users.lookup key with
  | some v => (v, true)
  | none => (User.zero, false)

/-- The built-in `len(users)`. -/
def Users.len (users : Users) : Nat := users.entries.length

/-- The records held by a store, one per key. -/
def Users.values (users : Users) : Slice User := users.entries.map Sigma.snd

/-! ## The store: `Add`, `Remove`, `List`, `Find` -/

/-- The method `(users *Users) Add(user User) error`: the new value of
`*users` and the error. -/
def Users.Add (users : Users) (user : User) : Users × Option Error :=
  if (Users.index users user.Id).2 then
    (users, some (.text (lit "Item with id " ++ user.Id ++ lit " already exists")))
  else
    (users.insert user.Id user, none)

/-- The method `(users *Users) Remove(id string) error`. -/
def Users.Remove (users : Users) (id : GoString) : Users × Option Error :=
  if ¬ (Users.index users id).2 then
    (users, some (.text (lit "Item with id " ++ id ++ lit " not found")))
  else
    (users.erase id, none)

/-- One pass of the body of the loop of `List`: `result[i] = value; i++`. -/
def Users.listStep (users : Users) (st : Slice User × Nat) (key : GoString) : Slice User × Nat :=
  (st.1.set st.2 (Users.index users key).1, st.2 + 1)

/-- The method `(users Users) List() []User`.  `order` is the order in which
`range users` visits the keys, which the Go runtime chooses: a permutation of
the keys.  The result is the slice and the store after the call. -/
def Users.List (users : Users) (order : Slice GoString) : Slice User × Users :=
  let result := List.replicate (Users.len users) User.zero
  ((order.foldl (Users.listStep users) (result, 0)).1, users)

/-- The method `(users Users) Find(id string) User`. -/
def Users.Find (users : Users) (id : GoString) : User :=
  (Users.index users id).1

/-! ## `strconv`: decimal integers -/

namespace strconv

/-- The digit loop of `strconv.formatBits` in base 10: the digits of `u` are
written from the last one backwards, in front of `acc`.  `fuel` bounds the
number of digits as the 65-byte buffer of the source does. -/
def formatBits : Nat → Nat → GoString → GoString
  | 0, _, acc => acc
  | fuel + 1, u, acc =>
    if 10 ≤ u then formatBits fuel (u / 10) ((0x30 + u % 10) :: acc)
    else (0x30 + u) :: acc

/-- The function `strconv.AppendInt(nil, i, 10)`: a `-` for a negative number,
then the decimal digits of its absolute value. -/
def FormatInt (i : Int) : GoString :=
  if i < 0 then 0x2D :: formatBits 65 i.natAbs []
  else formatBits 65 i.natAbs []

/-- The digit loop of `strconv.ParseUint` in base 10, without the overflow
check (the caller checks the range): `none` at a byte that is no digit. -/
def parseDigits : GoString → Nat → Option Nat
  | [], n => some n
  | c :: rest, n =>
    if 0x30 ≤ c ∧ c ≤ 0x39 then parseDigits rest (n * 10 + (c - 0x30)) else none

/-- The function `strconv.ParseUint(s, 10, 64)` up to overflow: `none` for the
empty string and for a string with a byte that is no digit. -/
def ParseUint (s : GoString) : Option Nat :=
  if s = [] then none else parseDigits s 0

/-- The function `strconv.ParseInt(s, 10, 64)`: `none` when it returns an
error, which it does for a syntax error and for a value outside 64 bits. -/
def ParseInt (s : GoString) : Option Int :=
  match s with
  | [] => none
  | c :: rest =>
    let neg := decide (c = 0x2D)
    let digits := if c = 0x2B ∨ c = 0x2D then rest else s
    match ParseUint digits with
    | none => none
    | some un =>
      if ¬ neg ∧ 2 ^ 63 ≤ un then none
      else if neg ∧ 2 ^ 63 < un then none
      else some (if neg then -(un : Int) else (un : Int))

end strconv

/-! ## `encoding/json`: encoding -/

namespace json

/-- The table `htmlSafeSet`: the ASCII bytes that `json.Marshal` copies into a
string literal as they are. -/
def htmlSafeSet (b : Nat) : Bool :=
  decide (0x20 ≤ b ∧ b < 0x80 ∧ b ≠ 0x22 ∧ b ≠ 0x5C ∧ b ≠ 0x3C ∧ b ≠ 0x3E ∧ b ≠ 0x26)

/-- The table `hex`, `"0123456789abcdef"`, at index `n`. -/
def hex (n : Nat) : Nat := if n < 10 then 0x30 + n else 0x57 + n

/-- What `appendString` writes for an ASCII byte that is not in `htmlSafeSet`. -/
def escapeByte (b : Nat) : GoString :=
  if b = 0x5C ∨ b = 0x22 then [0x5C, b]
  else if b = 0x08 then [0x5C, 0x62]
  else if b = 0x0C then [0x5C, 0x66]
  else if b = 0x0A then [0x5C, 0x6E]
  else if b = 0x0D then [0x5C, 0x72]
  else if b = 0x09 then [0x5C, 0x74]
  else [0x5C, 0x75, 0x30, 0x30, hex (b / 16), hex (b % 16)]

/-- The loop of `appendString(dst, src, true)`: the text between the two
quotes.  The source copies the runs of bytes that need no escape in one piece;
here they are copied byte by byte.  `fuel` is at least the length of `src`. -/
def appendStringLoop : Nat → GoString → GoString
  | 0, _ => []
  | _, [] => []
  | fuel + 1, b :: rest =>
    if b < 0x80 then
      (if htmlSafeSet b then [b] else escapeByte b) ++ appendStringLoop fuel rest
    else
      let src := b :: rest
      let d := utf8.DecodeRune (src.take 4)
      if d.1 = utf8.RuneError ∧ d.2 = 1 then
        [0x5C, 0x75, 0x66, 0x66, 0x66, 0x64] ++ appendStringLoop fuel rest
      else if d.1 = 0x2028 ∨ d.1 = 0x2029 then
        [0x5C, 0x75, 0x32, 0x30, 0x32, hex (d.1 % 16)] ++ appendStringLoop fuel (src.drop d.2)
      else
        src.take d.2 ++ appendStringLoop fuel (src.drop d.2)

/-- The function `appendString(nil, src, true)`: `src` as a JSON string
literal, the way `json.Marshal` writes a Go string. -/
def appendString (src : GoString) : GoString :=
  [0x22] ++ appendStringLoop src.length src ++ [0x22]

/-- The function `json.Marshal` at a `User`: the object with the keys `id`,
`email` and `age` of the struct tags, in the order of the fields.  It cannot
fail at this type. -/
def MarshalUser (user : User) : GoString × Option Error :=
  (lit "\x7b\"id\":" ++ appendString user.Id ++ lit ",\"email\":" ++ appendString user.Email
    ++ lit ",\"age\":" ++ strconv.FormatInt user.Age ++ lit "\x7d", none)

/-- The elements of an array, each followed by a comma but the last. -/
def joinElems : List GoString → GoString
  | [] => []
  | [x] => x
  | x :: y :: rest => x ++ [0x2C] ++ joinElems (y :: rest)

/-- The function `json.Marshal` at a non-nil `[]User`: `[`, the elements
separated by commas, `]`. -/
def MarshalUsers (users : List User) : GoString × Option Error :=
  ([0x5B] ++ joinElems (users.map (fun u => (MarshalUser u).1)) ++ [0x5D], none)

end json

/-- The method `(user User) ToString() (string, error)`. -/
def User.ToString (user : User) : GoString × Option Error :=
  if user.Id = [] then ([], none)
  else
    match json.MarshalUser user with
    | (_, some err) => ([], some err)
    | (result, none) => (result, none)

/-- The method `(users Users) ToString() (string, error)`. -/
def Users.ToString (users : Users) (order : Slice GoString) : GoString × Option Error :=
  match json.MarshalUsers (Users.List users order).1 with
  | (_, some err) => ([], some err)
  | (result, none) => (result, none)

/-! ## `encoding/json`: decoding

`json.Unmarshal` first checks that its input is one JSON value (`checkValid`,
a scanner over the bytes) and then walks the input again to store what it
finds.  Here the first pass builds the value as a tree (`json.parse`) and the
second pass stores the tree (`json.valueIntoUser`, `json.valueIntoUsers`). -/

namespace utf16

/-- The function `utf16.DecodeRune(r1, r2)`, with `none` for a second argument
of `-1`: the code point of a surrogate pair, U+FFFD when it is no such pair. -/
def DecodeRune (r1 : Nat) (r2 : Option Nat) : Nat :=
  match r2 with
  | none => 0xFFFD
  | some r2 =>
    if 0xD800 ≤ r1 ∧ r1 < 0xDC00 ∧ 0xDC00 ≤ r2 ∧ r2 < 0xE000 then
      (r1 - 0xD800) * 1024 + (r2 - 0xDC00) + 0x10000
    else 0xFFFD

end utf16

namespace json

/-- A JSON value as the scanner delimits it.  A number keeps its text and a
string the text between its quotes, escapes included. -/
inductive Value where
  | null
  | bool (b : Bool)
  | number (text : GoString)
  | string (text : GoString)
  | array (elems : List Value)
  | object (members : List (GoString × Value))

/-- The function `isSpace`: space, tab, carriage return, line feed. -/
def isSpace (c : Nat) : Bool := decide (c = 0x20 ∨ c = 0x09 ∨ c = 0x0D ∨ c = 0x0A)

/-- The input after its leading white space. -/
def skipSpace : GoString → GoString
  | [] => []
  | c :: rest => if isSpace c then skipSpace rest else c :: rest

/-- A hexadecimal digit, as `stateInStringEscU` and `getu4` read it. -/
def hexVal (c : Nat) : Option Nat :=
  if 0x30 ≤ c ∧ c ≤ 0x39 then some (c - 0x30)
  else if 0x61 ≤ c ∧ c ≤ 0x66 then some (c - 0x61 + 10)
  else if 0x41 ≤ c ∧ c ≤ 0x46 then some (c - 0x41 + 10)
  else none

/-- The scanner states `stateInString`, `stateInStringEsc` and
`stateInStringEscU…`, entered after an opening quote: the text up to the closing
quote and the input after it; `none` at a control character, at an escape that
JSON does not have and at the end of the input. -/
def scanString : GoString → Option (GoString × GoString)
  | [] => none
  | c :: rest =>
    if c = 0x22 then some ([], rest)
    else if c = 0x5C then
      match rest with
      | [] => none
      | e :: rest1 =>
        if e = 0x75 then
          match rest1 with
          | h1 :: h2 :: h3 :: h4 :: rest2 =>
            if (hexVal h1).isSome ∧ (hexVal h2).isSome ∧ (hexVal h3).isSome ∧ (hexVal h4).isSome then
              (scanString rest2).map (fun r => (c :: e :: h1 :: h2 :: h3 :: h4 :: r.1, r.2))
            else none
          | _ => none
        else if e = 0x62 ∨ e = 0x66 ∨ e = 0x6E ∨ e = 0x72 ∨ e = 0x74 ∨ e = 0x5C ∨ e = 0x2F
            ∨ e = 0x22 then
          (scanString rest1).map (fun r => (c :: e :: r.1, r.2))
        else none
    else if c < 0x20 then none
    else (scanString rest).map (fun r => (c :: r.1, r.2))

/-- The leading decimal digits of the input, and the input after them. -/
def spanDigits : GoString → GoString × GoString
  | [] => ([], [])
  | c :: rest =>
    if 0x30 ≤ c ∧ c ≤ 0x39 then ((c :: (spanDigits rest).1), (spanDigits rest).2)
    else ([], c :: rest)

/-- The scanner states `stateE`, `stateESign` and `stateE0`, entered after an
`e` or `E`: an optional sign and at least one digit. -/
def scanExponent (s : GoString) : Option (GoString × GoString) :=
  let sign := match s with
    | 0x2B :: _ => [0x2B]
    | 0x2D :: _ => [0x2D]
    | _ => []
  let ds := spanDigits (s.drop sign.length)
  if ds.1 = [] then none else some (sign ++ ds.1, ds.2)

/-- The scanner states `state0`, `stateDot` and `stateDot0`, entered after the
integer part of a number: an optional fraction and an optional exponent. -/
def scanFraction (s : GoString) : Option (GoString × GoString) :=
  match s with
  | 0x2E :: rest =>
    let ds := spanDigits rest
    if ds.1 = [] then none
    else
      match ds.2 with
      | 0x65 :: r => (scanExponent r).map (fun x => (0x2E :: ds.1 ++ 0x65 :: x.1, x.2))
      | 0x45 :: r => (scanExponent r).map (fun x => (0x2E :: ds.1 ++ 0x45 :: x.1, x.2))
      | _ => some (0x2E :: ds.1, ds.2)
  | 0x65 :: r => (scanExponent r).map (fun x => (0x65 :: x.1, x.2))
  | 0x45 :: r => (scanExponent r).map (fun x => (0x45 :: x.1, x.2))
  | _ => some ([], s)

/-- The scanner states `stateNeg`, `state0` and `state1`: the integer part of
a number after its optional `-`, which is `0` or starts with a digit from 1 to
9, and what follows it. -/
def scanUnsigned (s : GoString) : Option (GoString × GoString) :=
  match s with
  | [] => none
  | c :: rest =>
    if c = 0x30 then (scanFraction rest).map (fun x => (0x30 :: x.1, x.2))
    else if 0x31 ≤ c ∧ c ≤ 0x39 then
      let ds := spanDigits rest
      (scanFraction ds.2).map (fun x => (c :: ds.1 ++ x.1, x.2))
    else none

/-- A number: its text and the input after it. -/
def scanNumber (s : GoString) : Option (GoString × GoString) :=
  match s with
  | 0x2D :: rest => (scanUnsigned rest).map (fun x => (0x2D :: x.1, x.2))
  | _ => scanUnsigned s

/-- The input after `word`, when it starts with `word`. -/
def stripWord (word : GoString) (s : GoString) : Option GoString :=
  if word.isPrefixOf s then some (s.drop word.length) else none

/-- The elements of an array after the first `[`, one pass of the loop for each
element: a value, then `,` or `]`.  `pv` reads a value; `fuel` bounds the
number of elements and is the length of the input. -/
def parseElems (pv : GoString → Option (Value × GoString)) :
    Nat → GoString → Option (List Value × GoString)
  | 0, _ => none
  | fuel + 1, s =>
    match pv s with
    | none => none
    | some (v, r) =>
      match skipSpace r with
      | 0x2C :: r1 => (parseElems pv fuel r1).map (fun x => (v :: x.1, x.2))
      | 0x5D :: r1 => some ([v], r1)
      | _ => none

/-- The members of an object after the first `{`, one pass of the loop for each
member: a key, `:`, a value, then `,` or `}`. -/
def parseMembers (pv : GoString → Option (Value × GoString)) :
    Nat → GoString → Option (List (GoString × Value) × GoString)
  | 0, _ => none
  | fuel + 1, s =>
    match skipSpace s with
    | 0x22 :: r =>
      match scanString r with
      | none => none
      | some (key, r1) =>
        match skipSpace r1 with
        | 0x3A :: r2 =>
          match pv r2 with
          | none => none
          | some (v, r3) =>
            match skipSpace r3 with
            | 0x2C :: r4 => (parseMembers pv fuel r4).map (fun x => ((key, v) :: x.1, x.2))
            | 0x7D :: r4 => some ([(key, v)], r4)
            | _ => none
        | _ => none
    | _ => none

/-- The constant `maxNestingDepth` of the scanner. -/
def maxNestingDepth : Nat := 10000

/-- One JSON value at the start of the input, after white space, and the input
after it.  `depth` is the number of arrays and objects that may still be opened
around a value: the scanner fails with "exceeded max depth" beyond
`maxNestingDepth`. -/
def parseValue : Nat → GoString → Option (Value × GoString)
  | depth, s =>
    match skipSpace s with
    | [] => none
    | c :: rest =>
      if c = 0x22 then (scanString rest).map (fun x => (Value.string x.1, x.2))
      else if c = 0x2D ∨ (0x30 ≤ c ∧ c ≤ 0x39) then
        (scanNumber (c :: rest)).map (fun x => (Value.number x.1, x.2))
      else if c = 0x74 then (stripWord [0x72, 0x75, 0x65] rest).map (fun r => (Value.bool true, r))
      else if c = 0x66 then
        (stripWord [0x61, 0x6C, 0x73, 0x65] rest).map (fun r => (Value.bool false, r))
      else if c = 0x6E then (stripWord [0x75, 0x6C, 0x6C] rest).map (fun r => (Value.null, r))
      else if c = 0x5B then
        match depth with
        | 0 => none
        | depth + 1 =>
          match skipSpace rest with
          | 0x5D :: r => some (Value.array [], r)
          | _ => (parseElems (parseValue depth) rest.length rest).map
                  (fun x => (Value.array x.1, x.2))
      else if c = 0x7B then
        match depth with
        | 0 => none
        | depth + 1 =>
          match skipSpace rest with
          | 0x7D :: r => some (Value.object [], r)
          | _ => (parseMembers (parseValue depth) rest.length rest).map
                  (fun x => (Value.object x.1, x.2))
      else none

/-- The function `checkValid` together with the tree of the value: the input
is one JSON value with white space around it. -/
def parse (data : GoString) : Option Value :=
  match parseValue maxNestingDepth data with
  | none => none
  | some (v, rest) => if skipSpace rest = [] then some v else none

end json

namespace json

/-- The function `getu4`: the number of a `\uXXXX` escape at the start of the
input; `none` where the source returns `-1`. -/
def getu4 (s : GoString) : Option Nat :=
  match s with
  | 0x5C :: 0x75 :: a :: b :: c :: d :: _ =>
    match hexVal a, hexVal b, hexVal c, hexVal d with
    | some x, some y, some z, some w => some (((x * 16 + y) * 16 + z) * 16 + w)
    | _, _, _, _ => none
  | _ => none

/-- The loop of `unquoteBytes` over the text between the quotes: escapes are
replaced by what they stand for and bytes that are not well-formed UTF-8 by
U+FFFD; `none` where the source returns `ok = false`.  `fuel` is at least the
length of the input. -/
def unquoteLoop : Nat → GoString → Option GoString
  | 0, _ => some []
  | _ + 1, [] => some []
  | fuel + 1, c :: rest =>
    if c = 0x5C then
      match rest with
      | [] => none
      | e :: rest1 =>
        if e = 0x22 ∨ e = 0x5C ∨ e = 0x2F ∨ e = 0x27 then (unquoteLoop fuel rest1).map (e :: ·)
        else if e = 0x62 then (unquoteLoop fuel rest1).map (0x08 :: ·)
        else if e = 0x66 then (unquoteLoop fuel rest1).map (0x0C :: ·)
        else if e = 0x6E then (unquoteLoop fuel rest1).map (0x0A :: ·)
        else if e = 0x72 then (unquoteLoop fuel rest1).map (0x0D :: ·)
        else if e = 0x74 then (unquoteLoop fuel rest1).map (0x09 :: ·)
        else if e = 0x75 then
          match getu4 (c :: rest) with
          | none => none
          | some rr =>
            let next := rest.drop 5
            if 0xD800 ≤ rr ∧ rr < 0xE000 then
              let dec := utf16.DecodeRune rr (getu4 next)
              if dec ≠ 0xFFFD then
                (unquoteLoop fuel (next.drop 6)).map (utf8.EncodeRune dec ++ ·)
              else (unquoteLoop fuel next).map (utf8.EncodeRune 0xFFFD ++ ·)
            else (unquoteLoop fuel next).map (utf8.EncodeRune rr ++ ·)
        else none
    else if c = 0x22 ∨ c < 0x20 then none
    else if c < 0x80 then (unquoteLoop fuel rest).map (c :: ·)
    else
      let d := utf8.DecodeRune (c :: rest)
      (unquoteLoop fuel ((c :: rest).drop d.2)).map (utf8.EncodeRune d.1 ++ ·)

/-- The function `unquoteBytes` applied to a string literal, given by the text
between its quotes. -/
def unquote (text : GoString) : Option GoString := unquoteLoop text.length text

/-- The string a literal stands for.  `unquoteBytes` cannot fail on a literal
that the scanner has accepted (the decoder panics if it does). -/
def unquoteText (text : GoString) : GoString := (unquote text).getD []

/-- The function `foldName` on ASCII: lower-case letters become upper-case.
Bytes outside ASCII are kept, where the source folds runes; the result is
compared with `ID`, `EMAIL` and `AGE` only, which no folded rune outside ASCII
can produce a letter of. -/
def foldName (key : GoString) : GoString :=
  key.map (fun c => if 0x61 ≤ c ∧ c ≤ 0x7A then c - 0x20 else c)

/-- The method `saveError`: the first error is kept. -/
def saveError (saved : Option Error) (err : Error) : Option Error :=
  match saved with
  | none => some err
  | some e => some e

/-- The method `literalStore` and its siblings at a field of type `string`: a
JSON string is stored, `null` leaves the field as it is, every other value is
an `UnmarshalTypeError` and leaves the field as it is. -/
def storeString (v : Value) (old : GoString) (saved : Option Error) : GoString × Option Error :=
  match v with
  | .string text => (unquoteText text, saved)
  | .null => (old, saved)
  | _ => (old, saveError saved .jsonType)

/-- The same at a field of type `int`: a JSON number is stored when
`strconv.ParseInt` accepts its text. -/
def storeInt (v : Value) (old : Int) (saved : Option Error) : Int × Option Error :=
  match v with
  | .number text =>
    match strconv.ParseInt text with
    | some n => (n, saved)
    | none => (old, saveError saved .jsonType)
  | .null => (old, saved)
  | _ => (old, saveError saved .jsonType)

/-- One pass of the loop of the method `object` at a `User`: the member is
stored in the field whose name matches its key, exactly or under `foldName`;
a member with another key is skipped. -/
def storeMember (st : User × Option Error) (member : GoString × Value) : User × Option Error :=
  let name := foldName (unquoteText member.1)
  if name = lit "ID" then
    let r := storeString member.2 st.1.Id st.2
    ({ st.1 with Id := r.1 }, r.2)
  else if name = lit "EMAIL" then
    let r := storeString member.2 st.1.Email st.2
    ({ st.1 with Email := r.1 }, r.2)
  else if name = lit "AGE" then
    let r := storeInt member.2 st.1.Age st.2
    ({ st.1 with Age := r.1 }, r.2)
  else st

/-- The method `value` at a `User`: an object is stored member by member,
`null` leaves the struct as it is, every other value is an
`UnmarshalTypeError`. -/
def valueIntoUser (v : Value) (st : User × Option Error) : User × Option Error :=
  match v with
  | .object members => members.foldl storeMember st
  | .null => st
  | _ => (st.1, saveError st.2 .jsonType)

/-- The method `array` at a nil `[]User`: every element of the array is stored
in a new `User`, in order. -/
def elemsIntoUsers : List Value → Option Error → Slice User × Option Error
  | [], saved => ([], saved)
  | v :: rest, saved =>
    let r := valueIntoUser v (User.zero, saved)
    let rs := elemsIntoUsers rest r.2
    (r.1 :: rs.1, rs.2)

/-- The method `value` at a nil `[]User`: an array is stored element by
element, `null` leaves the slice nil, every other value is an
`UnmarshalTypeError` and leaves it nil. -/
def valueIntoUsers (v : Value) : Slice User × Option Error :=
  match v with
  | .array elems => elemsIntoUsers elems none
  | .null => ([], none)
  | _ => ([], some .jsonType)

/-- The function `json.Unmarshal(data, &user)` for `var user User`: the value
of `user` afterwards and the error. -/
def UnmarshalUser (data : GoString) : User × Option Error :=
  match parse data with
  | none => (User.zero, some .jsonSyntax)
  | some v => valueIntoUser v (User.zero, none)

/-- The function `json.Unmarshal(data, &usersSlice)` for
`var usersSlice []User`. -/
def UnmarshalUsers (data : GoString) : Slice User × Option Error :=
  match parse data with
  | none => ([], some .jsonSyntax)
  | some v => valueIntoUsers v

end json

/-! ## The file system and the output sink -/

/-- What there is at a path. -/
inductive File where
  /-- No file: `os.ReadFile` fails with an error that is `os.ErrNotExist`. -/
  | absent
  /-- A regular file that can be read, with this content. -/
  | data (content : GoString)
  /-- Something `os.ReadFile` fails on with another error (no permission, a
  directory, ...). -/
  | unreadable (code : Nat)
  /-- A device that reads as empty and keeps nothing of what is written to it,
  as `/dev/null`. -/
  | sink
  deriving DecidableEq, Repr

/-- What there is at a path after `os.WriteFile` has opened it (with
`O_WRONLY|O_CREATE|O_TRUNC`) and written `data`: a file that is created and a
regular file hold `data`; an existing file keeps its permissions, so that what
could not be read still cannot; a device keeps nothing. -/
def File.written (old : File) (data : GoString) : File :=
  match old with
  | .absent => .data data
  | .data _ => .data data
  | .unreadable code => .unreadable code
  | .sink => .sink

/-- How a call of `os.WriteFile` fails, with the number of the error. -/
inductive WriteFault where
  /-- The file cannot be opened for writing (no permission, a directory, ...):
  nothing is changed. -/
  | atOpen (code : Nat)
  /-- The file has been opened, which truncates it, and the write or the close
  fails (a full disk, ...) when `kept` bytes have been written. -/
  | afterOpen (code : Nat) (kept : Nat)
  deriving DecidableEq, Repr

/-- A call of the program into its environment. -/
inductive Event where
  | readFile (name : GoString)
  | writeFile (name : GoString) (data : GoString)
  | write (p : GoString)
  deriving DecidableEq, Repr

/-- The environment of the program: the files, the paths at which
`os.WriteFile` fails (and how), what has been passed to `writer.Write` so far,
oldest first, and the calls made so far, oldest first.  Two different paths
name two different files. -/
structure World where
  files : GoString → File
  writeFails : GoString → Option WriteFault
  out : Slice GoString
  trace : Slice Event

namespace os

/-- The function `os.ReadFile(name)`. -/
def ReadFile (w : World) (name : GoString) : (GoString × Option Error) × World :=
  let w1 := { w with trace := w.trace ++ [Event.readFile name] }
  match w.files name with
  | .absent => (([], some .notExist), w1)
  | .data content => ((content, none), w1)
  | .unreadable code => (([], some (.os code)), w1)
  | .sink => (([], none), w1)

/-- The function `os.WriteFile(name, data, 0644)`.  Where the open fails the
files are as before; where the write fails after the open, the file has been
truncated and holds the bytes written so far; where the call succeeds a
regular file at `name` holds `data` afterwards. -/
def WriteFile (w : World) (name : GoString) (data : GoString) : Option Error × World :=
  let w1 := { w with trace := w.trace ++ [Event.writeFile name data] }
  match w.writeFails name with
  | some (.atOpen code) => (some (.os code), w1)
  | some (.afterOpen code kept) =>
    (some (.os code), { w1 with files := fun p =>
      if p = name then File.written (w.files name) (data.take kept) else w.files p })
  | none =>
    (none, { w1 with files := fun p =>
      if p = name then File.written (w.files name) data else w.files p })

end os

/-- The call `writer.Write(p)`, whose results the program ignores. -/
def World.Write (w : World) (p : GoString) : World :=
  { w with out := w.out ++ [p], trace := w.trace ++ [Event.write p] }

/-- The call `errors.Is(err, os.ErrNotExist)`. -/
def Error.isNotExist (err : Error) : Bool :=
  match err with
  | .notExist => true
  | _ => false

/-! ## The program: `LoadDB`, `SaveDB`, `ParseUser`, `Perform`, `parseArgs`, `main` -/

/-- The loop of `LoadDB`: `users[user.Id] = user` for every element of the
slice, in order. -/
def LoadDB.fill (usersSlice : Slice User) (users : Users) : Users :=
  usersSlice.foldl (fun users user => users.insert user.Id user) users

/-- The function `LoadDB(filename string) (Users, error)`. -/
def LoadDB (w : World) (filename : GoString) : (Users × Option Error) × World :=
  match os.ReadFile w filename with
  | ((_, some err), w1) =>
    if err.isNotExist then ((∅, none), w1) else ((∅, some err), w1)
  | ((content, none), w1) =>
    let usersSlice := (json.UnmarshalUsers content).1
    ((LoadDB.fill usersSlice ∅, none), w1)

/-- The function `SaveDB(filename string, users Users) error`.  `order` is the
order in which the `range` of `users.List()` visits the keys. -/
def SaveDB (w : World) (filename : GoString) (users : Users) (order : Slice GoString) :
    Option Error × World :=
  match json.MarshalUsers (Users.List users order).1 with
  | (_, some err) => (some err, w)
  | (bytes, none) =>
    match os.WriteFile w filename bytes with
    | (some err, w1) => (some err, w1)
    | (none, w1) => (none, w1)

/-- The function `ParseUser(args Arguments) (User, error)`. -/
def ParseUser (args : Arguments) : User × Option Error :=
  let item := Arguments.index args (lit "item")
  if ¬ item.2 ∨ item.1.length < 1 then
    (User.zero, some (.text (lit "-item flag has to be specified")))
  else
    match json.UnmarshalUser item.1 with
    | (_, some err) => (User.zero, some err)
    | (user, none) => (user, none)

/-- The function `Perform(args Arguments, writer io.Writer) error`.  `rng`
gives, for a store, the order in which a `range` over it visits its keys; the
output sink `writer` is part of the world. -/
def Perform (args : Arguments) (rng : Users → Slice GoString) (w : World) : Option Error × World :=
  let filename := Arguments.index args (lit "fileName")
  if ¬ filename.2 ∨ filename.1.length < 1 then
    (some (.text (lit "-fileName flag has to be specified")), w)
  else
    let operation := Arguments.index args (lit "operation")
    if ¬ operation.2 ∨ operation.1.length < 1 then
      (some (.text (lit "-operation flag has to be specified")), w)
    else
      match LoadDB w filename.1 with
      | ((_, some err), w1) => (some err, w1)
      | ((users, none), w1) =>
        if operation.1 = lit "add" then
          match ParseUser args with
          | (_, some err) => (some err, w1)
          | (userToAdd, none) =>
            let added := Users.Add users userToAdd
            let w2 := match added.2 with
              | some err => w1.Write err.message
              | none => w1
            (none, (SaveDB w2 filename.1 added.1 (rng added.1)).2)
        else if operation.1 = lit "remove" then
          let userToRemove := Arguments.index args (lit "id")
          if ¬ userToRemove.2 ∨ userToRemove.1.length < 1 then
            (some (.text (lit "-id flag has to be specified")), w1)
          else
            let removed := Users.Remove users userToRemove.1
            let w2 := match removed.2 with
              | some err => w1.Write err.message
              | none => w1
            (none, (SaveDB w2 filename.1 removed.1 (rng removed.1)).2)
        else if operation.1 = lit "list" then
          match Users.ToString users (rng users) with
          | (_, some err) => (some err, w1)
          | (jsonString, none) => (none, w1.Write jsonString)
        else if operation.1 = lit "findById" then
          let userToFind := Arguments.index args (lit "id")
          if ¬ userToFind.2 ∨ userToFind.1.length < 1 then
            (some (.text (lit "-id flag has to be specified")), w1)
          else
            let user := Users.Find users userToFind.1
            match user.ToString with
            | (_, some err) => (some err, w1)
            | (jsonString, none) => (none, w1.Write jsonString)
        else
          (some (.text (lit "Operation " ++ operation.1 ++ lit " not allowed!")), w1)

/-- The loop of `parseArgs` over `os.Args[1:]` from index `i` on, two tokens
at a time: `none` is the run-time panic of `args[i+1]` out of range. -/
def parseArgs.loop : Slice GoString → Arguments → Option Arguments
  | [], result => some result
  | [_], _ => none
  | cmd :: value :: rest, result =>
    parseArgs.loop rest (if value.length > 0 then result.insert cmd value else result)

/-- The function `parseArgs() Arguments`, with `os.Args[1:]` as its argument. -/
def parseArgs (args : Slice GoString) : Option Arguments :=
  parseArgs.loop args ∅

/-- The arguments that `main` passes to `Perform`. -/
def mainArguments : Arguments :=
  (((∅ : Arguments).insert (lit "id") []).insert (lit "operation") (lit "remove")
    |>.insert (lit "item") []).insert (lit "fileName") (lit "test.json")

/-- The function `main()`: the error it panics with, if any, and the world
afterwards. -/
def Program.main (rng : Users → Slice GoString) (w : World) : Option Error × World :=
  Perform mainArguments rng w

/-! ## Sample values -/

/-- A record: `{"id":"1","email":"a@b.com","age":30}`. -/
def sampleUser : User := { Id := lit "1", Email := lit "a@b.com", Age := 30 }

/-- Another record, with another id. -/
def otherUser : User := { Id := lit "2", Email := lit "c@d.org", Age := 41 }

/-- The store that holds `sampleUser` under its id. -/
def sampleStore : Users := (∅ : Users).insert sampleUser.Id sampleUser

/-- The store that holds `sampleUser` and `otherUser` under their ids. -/
def twoStore : Users := sampleStore.insert otherUser.Id otherUser


/-! ## Auxiliary definitions for the proofs -/

/-- A well-formed encoding of two, three or four bytes at the start of a string. -/
inductive utf8Shape (p : GoString) (r size : Nat) : Prop where
  | two (b0 b1 : Nat) (t : GoString) (hp : p = b0 :: b1 :: t) (h0 : 0xC2 ≤ b0 ∧ b0 < 0xE0)
      (h1 : 0x80 ≤ b1 ∧ b1 ≤ 0xBF) (hr : r = b0 % 32 * 64 + b1 % 64) (hs : size = 2)
  | three (b0 b1 b2 : Nat) (t : GoString) (hp : p = b0 :: b1 :: b2 :: t)
      (h0 : 0xE0 ≤ b0 ∧ b0 < 0xF0) (h1 : 0x80 ≤ b1 ∧ b1 ≤ 0xBF)
      (hlo : b0 = 0xE0 → 0xA0 ≤ b1) (hhi : b0 = 0xED → b1 ≤ 0x9F)
      (h2 : 0x80 ≤ b2 ∧ b2 ≤ 0xBF)
      (hr : r = b0 % 16 * 4096 + b1 % 64 * 64 + b2 % 64) (hs : size = 3)
  | four (b0 b1 b2 b3 : Nat) (t : GoString) (hp : p = b0 :: b1 :: b2 :: b3 :: t)
      (h0 : 0xF0 ≤ b0 ∧ b0 ≤ 0xF4) (h1 : 0x80 ≤ b1 ∧ b1 ≤ 0xBF)
      (hlo : b0 = 0xF0 → 0x90 ≤ b1) (hhi : b0 = 0xF4 → b1 ≤ 0x8F)
      (h2 : 0x80 ≤ b2 ∧ b2 ≤ 0xBF) (h3 : 0x80 ≤ b3 ∧ b3 ≤ 0xBF)
      (hr : r = b0 % 8 * 262144 + b1 % 64 * 4096 + b2 % 64 * 64 + b3 % 64) (hs : size = 4)

/-- The tree of the object that `json.MarshalUser` writes for a record. -/
def json.valueOfUser (user : User) : json.Value :=
  .object [([0x69, 0x64], .string (json.appendStringLoop user.Id.length user.Id)),
    ([0x65, 0x6D, 0x61, 0x69, 0x6C],
      .string (json.appendStringLoop user.Email.length user.Email)),
    ([0x61, 0x67, 0x65], .number (strconv.FormatInt user.Age))]

/-- A record whose id is not well-formed UTF-8: the single byte `0xFF`. -/
def badUser : User := { Id := [0xFF], Email := [], Age := 0 }

/-- A world with no file, in which every write succeeds and nothing has
happened yet. -/
def emptyWorld : World :=
  { files := fun _ => File.absent, writeFails := fun _ => none, out := [], trace := [] }

/-- An order of `range`: the keys as the store lists them. -/
def keysOrder : Users → Slice GoString := fun users => users.keys

/-- Arguments with a file name and no operation. -/
def argsNoOperation : Arguments := (∅ : Arguments).insert (lit "fileName") (lit "t.json")

/-- A record as the program can hold it: the id and the email are well-formed
UTF-8 and the age is a Go `int`. -/
def User.wellFormed (user : User) : Prop :=
  utf8.Valid user.Id = true ∧ utf8.Valid user.Email = true ∧ isInt64 user.Age

instance (user : User) : Decidable user.wellFormed := by
  unfold User.wellFormed; exact inferInstance

/-- A store with two keys whose records have the same id. -/
def sameIdStore : Users :=
  ((∅ : Users).insert (lit "a") { Id := lit "x", Email := [], Age := 1 }).insert (lit "b")
    { Id := lit "x", Email := [], Age := 2 }

/-- The store that holds `badUser` under its id. -/
def badStore : Users := (∅ : Users).insert badUser.Id badUser

/-- The `item` argument of the scenario of the specification, which decodes to
`sampleUser`. -/
def sampleItem : GoString := lit "\x7b\"id\":\"1\",\"email\":\"a@b.com\",\"age\":30\x7d"

/-- The arguments of the scenario: operation `add` on the file `t.json` with
the item `sampleItem`. -/
def addArgs : Arguments :=
  (((∅ : Arguments).insert (lit "fileName") (lit "t.json")).insert (lit "operation")
    (lit "add")).insert (lit "item") sampleItem

/-- The same arguments with the empty string as the file name. -/
def addArgsEmptyPath : Arguments :=
  (((∅ : Arguments).insert (lit "fileName") []).insert (lit "operation")
    (lit "add")).insert (lit "item") sampleItem

/-- A world with no file in which every write fails (a read-only or missing
directory). -/
def readOnlyWorld : World :=
  { files := fun _ => File.absent, writeFails := fun _ => some (.atOpen 13), out := [],
    trace := [] }

/-- Every key of the store is the id of the record stored under it. -/
def Users.keyedById (users : Users) : Prop := ∀ e ∈ users.entries, e.1 = e.2.Id

instance (users : Users) : Decidable (Users.keyedById users) := by
  unfold Users.keyedById; exact inferInstance

/-- The last record of a slice with a given id, if there is one. -/
def lastWithId (slice : Slice User) (id : GoString) : Option User :=
  (slice.filter (fun u => decide (u.Id = id))).getLast?
/-- Arguments with an operation that the program does not have. -/
def unknownArgs : Arguments :=
  ((∅ : Arguments).insert (lit "fileName") (lit "t.json")).insert (lit "operation")
    (lit "update")

/-- Arguments of the operation `list` on the file `t.json`. -/
def listArgs : Arguments :=
  ((∅ : Arguments).insert (lit "fileName") (lit "t.json")).insert (lit "operation")
    (lit "list")

/-- Arguments of the operation `findById` on the file `t.json` without an id. -/
def findNoIdArgs : Arguments :=
  ((∅ : Arguments).insert (lit "fileName") (lit "t.json")).insert (lit "operation")
    (lit "findById")

/-- The content of a store file with the one record `sampleUser`. -/
def sampleFile : GoString := lit "[\x7b\"id\":\"1\",\"email\":\"a@b.com\",\"age\":30\x7d]"

/-- A world in which `t.json` holds `sampleFile` and every write succeeds. -/
def fileWorld : World :=
  { files := fun p => if p = lit "t.json" then File.data sampleFile else File.absent,
    writeFails := fun _ => none, out := [], trace := [] }

/-- A world in which `t.json` holds `sampleFile` and every write fails (the
file is read-only). -/
def lockedFileWorld : World :=
  { files := fun p => if p = lit "t.json" then File.data sampleFile else File.absent,
    writeFails := fun _ => some (.atOpen 13), out := [], trace := [] }

/-- Arguments of the operation `remove` of the id `1` on the file `t.json`. -/
def removeArgs : Arguments :=
  (((∅ : Arguments).insert (lit "fileName") (lit "t.json")).insert (lit "operation")
    (lit "remove")).insert (lit "id") (lit "1")
/-- Arguments of the operation `remove` of the id `2`, which `sampleFile` does
not hold, on the file `t.json`. -/
def removeMissingArgs : Arguments :=
  (((∅ : Arguments).insert (lit "fileName") (lit "t.json")).insert (lit "operation")
    (lit "remove")).insert (lit "id") (lit "2")

/-- The pairs (name, value) of a token list as the specification reads it: the
tokens at the even positions are flag names, and each is followed by its
value. -/
def specFlagPairs : Slice GoString → List (GoString × GoString)
  | name :: value :: rest => (name, value) :: specFlagPairs rest
  | _ => []

/-- The value of a flag as the specification gives it: the value of the last
pair with that name and a non-empty value, if there is one. -/
def specFlagValue (tokens : Slice GoString) (name : GoString) : Option GoString :=
  (((specFlagPairs tokens).filter (fun p => decide (p.1 = name ∧ p.2 ≠ []))).map
    Prod.snd).getLast?

/-- Tokens in which the flag `id` is given twice and the flag `item` has an
empty value. -/
def sampleTokens : Slice GoString :=
  [lit "id", lit "1", lit "item", lit "", lit "id", lit "2"]

/-- Tokens of odd length: the flag `operation` has no value. -/
def trailingFlagTokens : Slice GoString :=
  [lit "fileName", lit "t.json", lit "operation"]
/-- Arguments of the operation `add` on the file `t.json` whose item is the
empty JSON object. -/
def emptyObjectArgs : Arguments :=
  (((∅ : Arguments).insert (lit "fileName") (lit "t.json")).insert (lit "operation")
    (lit "add")).insert (lit "item") (lit "\x7b\x7d")

/-- The content of a file: a JSON array whose one element has a number where
the field `email` takes a string. -/
def typeErrorFile : GoString := lit "[\x7b\"id\":\"1\",\"email\":5\x7d]"

/-- A world whose file `t.json` holds `typeErrorFile`. -/
def typeErrorWorld : World :=
  { files := fun p => if p = lit "t.json" then File.data typeErrorFile else File.absent,
    writeFails := fun _ => none, out := [], trace := [] }

/-- A world whose file `t.json` holds a text that is not JSON. -/
def notJsonWorld : World :=
  { files := fun p => if p = lit "t.json" then File.data (lit "not json") else File.absent,
    writeFails := fun _ => none, out := [], trace := [] }

/-- A world in which `t.json` is a file that can be written and not read (a
read fails with `EACCES`), and every write succeeds. -/
def writeOnlyWorld : World :=
  { files := fun p => if p = lit "t.json" then File.unreadable 13 else File.absent,
    writeFails := fun _ => none, out := [], trace := [] }

/-- A world in which `/dev/null` is the device of that name, and every write
succeeds. -/
def devNullWorld : World :=
  { files := fun p => if p = lit "/dev/null" then File.sink else File.absent,
    writeFails := fun _ => none, out := [], trace := [] }

/-- A world in which `t.json` holds `sampleFile` and every write fails after
the file has been opened and before a byte is written (the disk is full,
`ENOSPC`). -/
def tornWriteWorld : World :=
  { files := fun p => if p = lit "t.json" then File.data sampleFile else File.absent,
    writeFails := fun _ => some (.afterOpen 28 0), out := [], trace := [] }

/-- Arguments of the operation `remove` on the file `t.json` with the empty
id, as `main` gives it. -/
def removeEmptyIdArgs : Arguments :=
  (((∅ : Arguments).insert (lit "fileName") (lit "t.json")).insert (lit "operation")
    (lit "remove")).insert (lit "id") (lit "")

/-! # Theorems -/

/-! ## The store -/

theorem index_of_mem {users : Users} {key : GoString} (h : key ∈ users) :
    (Users.index users key).2 = true := by
  unfold Users.index
  cases hl : AList.lookup key users with
  | none => exact absurd h (AList.lookup_eq_none.mp hl)
  | some v => rfl

theorem index_of_not_mem {users : Users} {key : GoString} (h : key ∉ users) :
    Users.index users key = (User.zero, false) := by
  unfold Users.index
  rw [AList.lookup_eq_none.mpr h]

theorem index_congr {u v : Users} {key : GoString}
    (h : AList.lookup key u = AList.lookup key v) : Users.index u key = Users.index v key := by
  unfold Users.index
  rw [h]

/-- The loop of `List`, started at the end of `pre` with `post` still to be
written, writes the values of the keys it visits over the start of `post`. -/
theorem listStep_foldl (users : Users) (order : Slice GoString) :
    ∀ (pre post : Slice User), order.length ≤ post.length →
      (order.foldl (Users.listStep users) (pre ++ post, pre.length)).1
        = pre ++ order.map (fun key => (Users.index users key).1) ++ post.drop order.length := by
  induction order with
  | nil => intro pre post _; simp
  | cons key rest ih =>
    intro pre post h
    cases post with
    | nil => simp at h
    | cons p post1 =>
      simp only [List.length_cons, Nat.add_le_add_iff_right] at h
      have hset : (pre ++ p :: post1).set pre.length (Users.index users key).1
          = (pre ++ [(Users.index users key).1]) ++ post1 := by
        rw [List.set_append_right _ _ (Nat.le_refl _)]
        simp
      simp only [List.foldl_cons, Users.listStep, hset]
      have hlen : pre.length + 1 = (pre ++ [(Users.index users key).1]).length := by simp
      rw [hlen, ih _ _ h]
      simp

/-- The value under a key of a store is the second component of its entry. -/
theorem map_index_keys (users : Users) :
    users.keys.map (fun key => (Users.index users key).1) = Users.values users := by
  unfold Users.values AList.keys List.keys
  rw [List.map_map]
  apply List.map_congr_left
  intro e he
  have : AList.lookup e.1 users = some e.2 := by
    have := (List.mem_dlookup_iff users.nodupKeys).mpr (show (⟨e.1, e.2⟩ : Sigma _) ∈ users.entries from he)
    simpa [AList.lookup] using this
  simp [Users.index, this]

/-- Erasing a key that is present shortens the list of entries by one. -/
theorem alist_length_erase {α : Type} {β : α → Type} [DecidableEq α] (s : AList β) (a : α)
    (h : a ∈ s) : (AList.erase a s).entries.length + 1 = s.entries.length := by
  have hk : a ∈ s.keys := AList.mem_keys.mp h
  have hpos : 0 < s.keys.length := List.length_pos_of_mem hk
  have h1 : (AList.erase a s).keys.length + 1 = s.keys.length := by
    rw [AList.keys_erase, List.length_erase_of_mem hk]
    omega
  simpa [AList.keys, List.keys] using h1

/-- Claim C1.  When the id of the record is already a key of the store, `Add`
returns the error with the message "Item with id <id> already exists" and the
store it leaves is the store it was given: same keys, same record under
every key. -/
theorem add_existing_id_fails (users : Users) (user : User) (h : user.Id ∈ users) :
    (Users.Add users user).2
        = some (Error.text (lit "Item with id " ++ user.Id ++ lit " already exists"))
      ∧ (Users.Add users user).1 = users
      ∧ (Users.Add users user).1.keys = users.keys
      ∧ ∀ id, Users.index (Users.Add users user).1 id = Users.index users id := by
  have hx := index_of_mem h
  simp [Users.Add, hx]

theorem add_existing_id_fails_witness :
    sampleUser.Id ∈ sampleStore
      ∧ ((Users.Add sampleStore sampleUser).2
          = some (Error.text (lit "Item with id " ++ sampleUser.Id ++ lit " already exists"))
        ∧ (Users.Add sampleStore sampleUser).1 = sampleStore
        ∧ (Users.Add sampleStore sampleUser).1.keys = sampleStore.keys
        ∧ ∀ id, Users.index (Users.Add sampleStore sampleUser).1 id = Users.index sampleStore id) :=
  ⟨by decide, add_existing_id_fails sampleStore sampleUser (by decide)⟩

/-- Claim C2.  When the id is not a key of the store, `Remove` returns the
error with the message "Item with id <id> not found" and the store it leaves
is the store it was given. -/
theorem remove_missing_id_fails (users : Users) (id : GoString) (h : id ∉ users) :
    (Users.Remove users id).2
        = some (Error.text (lit "Item with id " ++ id ++ lit " not found"))
      ∧ (Users.Remove users id).1 = users
      ∧ (Users.Remove users id).1.keys = users.keys
      ∧ ∀ key, Users.index (Users.Remove users id).1 key = Users.index users key := by
  have hx := index_of_not_mem h
  simp [Users.Remove, hx]

theorem remove_missing_id_fails_witness :
    otherUser.Id ∉ sampleStore
      ∧ ((Users.Remove sampleStore otherUser.Id).2
          = some (Error.text (lit "Item with id " ++ otherUser.Id ++ lit " not found"))
        ∧ (Users.Remove sampleStore otherUser.Id).1 = sampleStore
        ∧ (Users.Remove sampleStore otherUser.Id).1.keys = sampleStore.keys
        ∧ ∀ key, Users.index (Users.Remove sampleStore otherUser.Id).1 key
            = Users.index sampleStore key) :=
  ⟨by decide, remove_missing_id_fails sampleStore otherUser.Id (by decide)⟩

/-- Claim C3.  When the id of the record is not a key of the store, `Add`
returns no error; afterwards `Find` at that id returns exactly the record,
every other id maps to what it mapped to before (present or absent alike), and
the store holds exactly one record more. -/
theorem add_new_id_inserts (users : Users) (user : User) (h : user.Id ∉ users) :
    (Users.Add users user).2 = none
      ∧ Users.Find (Users.Add users user).1 user.Id = user
      ∧ (∀ id, id ≠ user.Id →
          Users.index (Users.Add users user).1 id = Users.index users id)
      ∧ Users.len (Users.Add users user).1 = Users.len users + 1 := by
  have hx := index_of_not_mem h
  have hadd : Users.Add users user = (AList.insert user.Id user users, none) := by
    simp [Users.Add, hx]
  rw [hadd]
  refine ⟨rfl, ?_, ?_, ?_⟩
  · simp [Users.Find, Users.index, AList.lookup_insert]
  · intro id hid
    exact index_congr (AList.lookup_insert_ne hid)
  · simp only [Users.len]
    rw [AList.insert_entries_of_neg h, List.length_cons]

theorem add_new_id_inserts_witness :
    otherUser.Id ∉ sampleStore
      ∧ ((Users.Add sampleStore otherUser).2 = none
        ∧ Users.Find (Users.Add sampleStore otherUser).1 otherUser.Id = otherUser
        ∧ (∀ id, id ≠ otherUser.Id →
            Users.index (Users.Add sampleStore otherUser).1 id = Users.index sampleStore id)
        ∧ Users.len (Users.Add sampleStore otherUser).1 = Users.len sampleStore + 1) :=
  ⟨by decide, add_new_id_inserts sampleStore otherUser (by decide)⟩

/-- Claim C4.  When the id is a key of the store, `Remove` returns no error;
afterwards the id is no longer a key, every other id maps to what it mapped to
before, and the store holds exactly one record less. -/
theorem remove_present_id_deletes (users : Users) (id : GoString) (h : id ∈ users) :
    (Users.Remove users id).2 = none
      ∧ id ∉ (Users.Remove users id).1
      ∧ (∀ key, key ≠ id →
          Users.index (Users.Remove users id).1 key = Users.index users key)
      ∧ Users.len (Users.Remove users id).1 + 1 = Users.len users := by
  have hx := index_of_mem h
  have hrem : Users.Remove users id = (AList.erase id users, none) := by
    simp [Users.Remove, hx]
  rw [hrem]
  refine ⟨rfl, ?_, ?_, ?_⟩
  · simp [AList.mem_erase]
  · intro key hkey
    exact index_congr (AList.lookup_erase_ne hkey)
  · exact alist_length_erase users id h

theorem remove_present_id_deletes_witness :
    sampleUser.Id ∈ twoStore
      ∧ ((Users.Remove twoStore sampleUser.Id).2 = none
        ∧ sampleUser.Id ∉ (Users.Remove twoStore sampleUser.Id).1
        ∧ (∀ key, key ≠ sampleUser.Id →
            Users.index (Users.Remove twoStore sampleUser.Id).1 key = Users.index twoStore key)
        ∧ Users.len (Users.Remove twoStore sampleUser.Id).1 + 1 = Users.len twoStore) :=
  ⟨by decide, remove_present_id_deletes twoStore sampleUser.Id (by decide)⟩

/-- Claim C5.  When the id is not a key of the store, `Find` returns the record
with empty id, empty email and age 0, and `ToString` of that record returns the
empty string and no error; this is so for the empty store and every id. -/
theorem find_missing_id_is_zero (users : Users) (id : GoString) (h : id ∉ users) :
    Users.Find users id = { Id := [], Email := [], Age := 0 }
      ∧ User.ToString (Users.Find users id) = ([], none)
      ∧ (∀ key, Users.Find (∅ : Users) key = { Id := [], Email := [], Age := 0 }
          ∧ User.ToString (Users.Find (∅ : Users) key) = ([], none)) := by
  have hfind : ∀ (u : Users) (key : GoString), key ∉ u → Users.Find u key = User.zero := by
    intro u key hk
    simp [Users.Find, index_of_not_mem hk]
  have hstr : User.ToString User.zero = ([], none) := by
    simp [User.ToString, User.zero]
  refine ⟨?_, ?_, ?_⟩
  · rw [hfind users id h]; rfl
  · rw [hfind users id h, hstr]
  · intro key
    have hk : key ∉ (∅ : Users) := AList.not_mem_empty key
    rw [hfind ∅ key hk]
    exact ⟨rfl, hstr⟩

theorem find_missing_id_is_zero_witness :
    otherUser.Id ∉ sampleStore
      ∧ (Users.Find sampleStore otherUser.Id = { Id := [], Email := [], Age := 0 }
        ∧ User.ToString (Users.Find sampleStore otherUser.Id) = ([], none)
        ∧ (∀ key, Users.Find (∅ : Users) key = { Id := [], Email := [], Age := 0 }
            ∧ User.ToString (Users.Find (∅ : Users) key) = ([], none))) :=
  ⟨by decide, find_missing_id_is_zero sampleStore otherUser.Id (by decide)⟩

/-- With the keys visited in an order that is a permutation of the keys, `List`
returns the records under the keys in that order. -/
theorem list_eq_map (users : Users) (order : Slice GoString) (h : order.Perm users.keys) :
    (Users.List users order).1 = order.map (fun key => (Users.index users key).1) := by
  have hlen : order.length = (List.replicate (Users.len users) User.zero).length := by
    rw [h.length_eq, List.length_replicate]
    simp [Users.len, AList.keys, List.keys]
  have hloop := listStep_foldl users order []
    (List.replicate (Users.len users) User.zero) (Nat.le_of_eq hlen)
  simp only [Users.List]
  simp only [List.nil_append, List.length_nil] at hloop
  rw [hloop, hlen, List.drop_length, List.append_nil]

theorem list_perm_values (users : Users) (order : Slice GoString) (h : order.Perm users.keys) :
    (Users.List users order).1.Perm (Users.values users) := by
  rw [list_eq_map users order h, ← map_index_keys]
  exact h.map _

/-- Claim C6.  Whatever the order in which `range` visits the keys of the
store, `List` returns a slice whose length is the number of keys and that is a
permutation of the records of the store, one for each key; the store is left
as it was. -/
theorem list_is_permutation_of_values (users : Users) (order : Slice GoString)
    (h : order.Perm users.keys) :
    (Users.List users order).1.length = users.keys.length
      ∧ (Users.List users order).1.Perm (Users.values users)
      ∧ (Users.List users order).2 = users := by
  refine ⟨?_, list_perm_values users order h, rfl⟩
  rw [list_eq_map users order h, List.length_map, h.length_eq]

theorem list_is_permutation_of_values_witness :
    (twoStore.keys.reverse).Perm twoStore.keys
      ∧ ((Users.List twoStore twoStore.keys.reverse).1.length = twoStore.keys.length
        ∧ (Users.List twoStore twoStore.keys.reverse).1.Perm (Users.values twoStore)
        ∧ (Users.List twoStore twoStore.keys.reverse).2 = twoStore) :=
  ⟨List.reverse_perm _, list_is_permutation_of_values twoStore twoStore.keys.reverse
    (List.reverse_perm _)⟩

/-! ## UTF-8 -/

theorem decodeRune_ascii (b0 : Nat) (t : GoString) (h0 : b0 < 0x80) :
    utf8.DecodeRune (b0 :: t) = (b0, 1) := by
  simp [utf8.DecodeRune, h0]

theorem decodeRune_bad_lead (b0 : Nat) (t : GoString) (h0 : 0x80 ≤ b0)
    (h1 : b0 < 0xC2 ∨ 0xF4 < b0) : utf8.DecodeRune (b0 :: t) = (utf8.RuneError, 1) := by
  have hn : ¬ b0 < 0x80 := by omega
  simp [utf8.DecodeRune, hn, h1]

theorem decodeRune_two (b0 b1 : Nat) (t : GoString) (h0 : 0xC2 ≤ b0 ∧ b0 < 0xE0) :
    utf8.DecodeRune (b0 :: b1 :: t)
      = if b1 < 0x80 ∨ 0xBF < b1 then (utf8.RuneError, 1) else (b0 % 32 * 64 + b1 % 64, 2) := by
  have e1 : ¬ b0 < 0x80 := by omega
  have e2 : ¬ (b0 < 0xC2 ∨ 0xF4 < b0) := by omega
  have e3 : b0 < 0xE0 := h0.2
  have e4 : ¬ b0 = 0xE0 := by omega
  have e5 : ¬ b0 = 0xF0 := by omega
  have e6 : ¬ b0 = 0xED := by omega
  have e7 : ¬ b0 = 0xF4 := by omega
  simp [utf8.DecodeRune, e1, e2, e3, e4, e5, e6, e7]

theorem decodeRune_three (b0 b1 b2 : Nat) (t : GoString) (h0 : 0xE0 ≤ b0 ∧ b0 < 0xF0) :
    utf8.DecodeRune (b0 :: b1 :: b2 :: t)
      = if b1 < (if b0 = 0xE0 then 0xA0 else 0x80) ∨ (if b0 = 0xED then 0x9F else 0xBF) < b1
          then (utf8.RuneError, 1)
        else if b2 < 0x80 ∨ 0xBF < b2 then (utf8.RuneError, 1)
        else (b0 % 16 * 4096 + b1 % 64 * 64 + b2 % 64, 3) := by
  have e1 : ¬ b0 < 0x80 := by omega
  have e2 : ¬ (b0 < 0xC2 ∨ 0xF4 < b0) := by omega
  have e3 : ¬ b0 < 0xE0 := by omega
  have e4 : b0 < 0xF0 := h0.2
  have e5 : ¬ b0 = 0xF0 := by omega
  have e7 : ¬ b0 = 0xF4 := by omega
  simp [utf8.DecodeRune, e1, e2, e3, e4, e5, e7]

theorem decodeRune_four (b0 b1 b2 b3 : Nat) (t : GoString) (h0 : 0xF0 ≤ b0 ∧ b0 ≤ 0xF4) :
    utf8.DecodeRune (b0 :: b1 :: b2 :: b3 :: t)
      = if b1 < (if b0 = 0xF0 then 0x90 else 0x80) ∨ (if b0 = 0xF4 then 0x8F else 0xBF) < b1
          then (utf8.RuneError, 1)
        else if b2 < 0x80 ∨ 0xBF < b2 then (utf8.RuneError, 1)
        else if b3 < 0x80 ∨ 0xBF < b3 then (utf8.RuneError, 1)
        else (b0 % 8 * 262144 + b1 % 64 * 4096 + b2 % 64 * 64 + b3 % 64, 4) := by
  have e1 : ¬ b0 < 0x80 := by omega
  have e2 : ¬ (b0 < 0xC2 ∨ 0xF4 < b0) := by omega
  have e3 : ¬ b0 < 0xE0 := by omega
  have e4 : ¬ b0 < 0xF0 := by omega
  have e5 : ¬ b0 = 0xE0 := by omega
  have e7 : ¬ b0 = 0xED := by omega
  simp [utf8.DecodeRune, e1, e2, e3, e4, e5, e7]

/-- A string too short for its leading byte decodes to `(RuneError, 1)`. -/
theorem decodeRune_short (b0 : Nat) (p : GoString) (h0 : 0x80 ≤ b0)
    (hlen : (b0 :: p).length < (if b0 < 0xE0 then 2 else if b0 < 0xF0 then 3 else 4)) :
    utf8.DecodeRune (b0 :: p) = (utf8.RuneError, 1) := by
  have e1 : ¬ b0 < 0x80 := by omega
  by_cases e2 : b0 < 0xC2 ∨ 0xF4 < b0
  · exact decodeRune_bad_lead b0 p h0 e2
  · simp only [utf8.DecodeRune, e1, e2, if_false]
    simp only [hlen, if_true]

/-- Where `DecodeRune` does not fail at a byte outside ASCII, the string starts
with a well-formed encoding of two, three or four bytes. -/
theorem decodeRune_shape (p0 : Nat) (rest : GoString) (h0 : 0x80 ≤ p0)
    (hok : ¬ ((utf8.DecodeRune (p0 :: rest)).1 = utf8.RuneError
      ∧ (utf8.DecodeRune (p0 :: rest)).2 = 1)) :
    utf8Shape (p0 :: rest) (utf8.DecodeRune (p0 :: rest)).1 (utf8.DecodeRune (p0 :: rest)).2 := by
  by_cases hbad : p0 < 0xC2 ∨ 0xF4 < p0
  · rw [decodeRune_bad_lead p0 rest h0 hbad] at hok
    exact absurd ⟨rfl, rfl⟩ hok
  by_cases h2 : p0 < 0xE0
  · rcases rest with _ | ⟨b1, t⟩
    · rw [decodeRune_short p0 [] h0 (by simp [h2])] at hok
      exact absurd ⟨rfl, rfl⟩ hok
    · have hd := decodeRune_two p0 b1 t ⟨by omega, h2⟩
      by_cases hb : b1 < 0x80 ∨ 0xBF < b1
      · rw [hd, if_pos hb] at hok
        exact absurd ⟨rfl, rfl⟩ hok
      · rw [hd, if_neg hb]
        exact .two p0 b1 t rfl ⟨by omega, h2⟩ (by omega) rfl rfl
  by_cases h3 : p0 < 0xF0
  · rcases rest with _ | ⟨b1, _ | ⟨b2, t⟩⟩
    · rw [decodeRune_short p0 [] h0 (by simp [h2, h3])] at hok
      exact absurd ⟨rfl, rfl⟩ hok
    · rw [decodeRune_short p0 [b1] h0 (by simp [h2, h3])] at hok
      exact absurd ⟨rfl, rfl⟩ hok
    · have hd := decodeRune_three p0 b1 b2 t ⟨by omega, h3⟩
      by_cases hb : b1 < (if p0 = 0xE0 then 0xA0 else 0x80) ∨ (if p0 = 0xED then 0x9F else 0xBF) < b1
      · rw [hd, if_pos hb] at hok
        exact absurd ⟨rfl, rfl⟩ hok
      by_cases hc : b2 < 0x80 ∨ 0xBF < b2
      · rw [hd, if_neg hb, if_pos hc] at hok
        exact absurd ⟨rfl, rfl⟩ hok
      rw [hd, if_neg hb, if_neg hc]
      refine .three p0 b1 b2 t rfl ⟨by omega, h3⟩ ?_ ?_ ?_ (by omega) rfl rfl
      · split_ifs at hb <;> omega
      · intro he; rw [if_pos he] at hb; omega
      · intro he; split_ifs at hb <;> omega
  · rcases rest with _ | ⟨b1, _ | ⟨b2, _ | ⟨b3, t⟩⟩⟩
    · rw [decodeRune_short p0 [] h0 (by simp [h2, h3])] at hok
      exact absurd ⟨rfl, rfl⟩ hok
    · rw [decodeRune_short p0 [b1] h0 (by simp [h2, h3])] at hok
      exact absurd ⟨rfl, rfl⟩ hok
    · rw [decodeRune_short p0 [b1, b2] h0 (by simp [h2, h3])] at hok
      exact absurd ⟨rfl, rfl⟩ hok
    · have hd := decodeRune_four p0 b1 b2 b3 t ⟨by omega, by omega⟩
      by_cases hb : b1 < (if p0 = 0xF0 then 0x90 else 0x80) ∨ (if p0 = 0xF4 then 0x8F else 0xBF) < b1
      · rw [hd, if_pos hb] at hok
        exact absurd ⟨rfl, rfl⟩ hok
      by_cases hc : b2 < 0x80 ∨ 0xBF < b2
      · rw [hd, if_neg hb, if_pos hc] at hok
        exact absurd ⟨rfl, rfl⟩ hok
      by_cases hd3 : b3 < 0x80 ∨ 0xBF < b3
      · rw [hd, if_neg hb, if_neg hc, if_pos hd3] at hok
        exact absurd ⟨rfl, rfl⟩ hok
      rw [hd, if_neg hb, if_neg hc, if_neg hd3]
      refine .four p0 b1 b2 b3 t rfl ⟨by omega, by omega⟩ ?_ ?_ ?_ (by omega) (by omega) rfl rfl
      · split_ifs at hb <;> omega
      · intro he; rw [if_pos he] at hb; omega
      · intro he; split_ifs at hb <;> omega

theorem utf8Shape.size_le {p : GoString} {r n : Nat} (h : utf8Shape p r n) :
    2 ≤ n ∧ n ≤ 4 ∧ n ≤ p.length := by
  cases h with
  | two b0 b1 t hp h0 h1 hr hs => subst hp hs; simp
  | three b0 b1 b2 t hp h0 h1 hlo hhi h2 hr hs => subst hp hs; simp
  | four b0 b1 b2 b3 t hp h0 h1 hlo hhi h2 h3 hr hs => subst hp hs; simp

theorem utf8Shape.bytes_ge {p : GoString} {r n : Nat} (h : utf8Shape p r n) :
    ∀ b ∈ p.take n, 0x80 ≤ b := by
  cases h with
  | two b0 b1 t hp h0 h1 hr hs =>
    subst hp hs; intro b hb; simp at hb; rcases hb with rfl | rfl <;> omega
  | three b0 b1 b2 t hp h0 h1 hlo hhi h2 hr hs =>
    subst hp hs; intro b hb; simp at hb; rcases hb with rfl | rfl | rfl <;> omega
  | four b0 b1 b2 b3 t hp h0 h1 hlo hhi h2 h3 hr hs =>
    subst hp hs; intro b hb; simp at hb; rcases hb with rfl | rfl | rfl | rfl <;> omega

/-- Decoding looks at the bytes of the first encoding only. -/
theorem utf8Shape.decode_take_append {p : GoString} {r n : Nat} (h : utf8Shape p r n)
    (t : GoString) : utf8.DecodeRune (p.take n ++ t) = (r, n) := by
  cases h with
  | two b0 b1 t0 hp h0 h1 hr hs =>
    subst hp hs hr
    simp only [List.take_succ_cons, List.take_zero, List.cons_append, List.nil_append]
    rw [decodeRune_two b0 b1 t h0, if_neg (by omega)]
  | three b0 b1 b2 t0 hp h0 h1 hlo hhi h2 hr hs =>
    subst hp hs hr
    simp only [List.take_succ_cons, List.take_zero, List.cons_append, List.nil_append]
    rw [decodeRune_three b0 b1 b2 t h0, if_neg (by split_ifs <;> omega), if_neg (by omega)]
  | four b0 b1 b2 b3 t0 hp h0 h1 hlo hhi h2 h3 hr hs =>
    subst hp hs hr
    simp only [List.take_succ_cons, List.take_zero, List.cons_append, List.nil_append]
    rw [decodeRune_four b0 b1 b2 b3 t h0, if_neg (by split_ifs <;> omega), if_neg (by omega),
      if_neg (by omega)]

/-- Encoding the decoded rune gives back the bytes it was decoded from. -/
theorem utf8Shape.encode_eq {p : GoString} {r n : Nat} (h : utf8Shape p r n) :
    utf8.EncodeRune r = p.take n := by
  cases h with
  | two b0 b1 t0 hp h0 h1 hr hs =>
    subst hp hs
    have e1 : ¬ r ≤ 0x7F := by omega
    have e2 : r ≤ 0x7FF := by omega
    simp only [utf8.EncodeRune, e1, e2, if_true, if_false, List.take_succ_cons, List.take_zero]
    congr 1
    · omega
    · congr 1; omega
  | three b0 b1 b2 t0 hp h0 h1 hlo hhi h2 hr hs =>
    subst hp hs
    have e1 : ¬ r ≤ 0x7F := by omega
    have e2 : ¬ r ≤ 0x7FF := by
      by_cases he : b0 = 0xE0
      · have := hlo he; omega
      · omega
    have e3 : ¬ (utf8.MaxRune < r ∨ (0xD800 ≤ r ∧ r ≤ 0xDFFF)) := by
      unfold utf8.MaxRune
      by_cases he : b0 = 0xED
      · have := hhi he; omega
      · omega
    have e4 : r ≤ 0xFFFF := by omega
    simp only [utf8.EncodeRune, e1, e2, e3, e4, if_true, if_false, List.take_succ_cons,
      List.take_zero]
    congr 1
    · omega
    · congr 1
      · omega
      · congr 1; omega
  | four b0 b1 b2 b3 t0 hp h0 h1 hlo hhi h2 h3 hr hs =>
    subst hp hs
    have e1 : ¬ r ≤ 0x7F := by omega
    have e2 : ¬ r ≤ 0x7FF := by omega
    have e4 : ¬ r ≤ 0xFFFF := by
      by_cases he : b0 = 0xF0
      · have := hlo he; omega
      · omega
    have e3 : ¬ (utf8.MaxRune < r ∨ (0xD800 ≤ r ∧ r ≤ 0xDFFF)) := by
      unfold utf8.MaxRune
      by_cases he : b0 = 0xF4
      · have := hhi he; omega
      · omega
    simp only [utf8.EncodeRune, e1, e2, e3, e4, if_true, if_false, List.take_succ_cons,
      List.take_zero]
    congr 1
    · omega
    · congr 1
      · omega
      · congr 1
        · omega
        · congr 1; omega

theorem utf8Shape.rune_ge {p : GoString} {r n : Nat} (h : utf8Shape p r n) : 0x80 ≤ r := by
  cases h with
  | two b0 b1 t0 hp h0 h1 hr hs => omega
  | three b0 b1 b2 t0 hp h0 h1 hlo hhi h2 hr hs =>
    by_cases he : b0 = 0xE0
    · have := hlo he; omega
    · omega
  | four b0 b1 b2 b3 t0 hp h0 h1 hlo hhi h2 h3 hr hs =>
    by_cases he : b0 = 0xF0
    · have := hlo he; omega
    · omega

/-- The three outcomes of `DecodeRune` on a non-empty string. -/
theorem decodeRune_cases (p0 : Nat) (rest : GoString) :
    (p0 < 0x80 ∧ utf8.DecodeRune (p0 :: rest) = (p0, 1))
      ∨ (0x80 ≤ p0 ∧ utf8.DecodeRune (p0 :: rest) = (utf8.RuneError, 1))
      ∨ (0x80 ≤ p0 ∧ utf8Shape (p0 :: rest) (utf8.DecodeRune (p0 :: rest)).1
          (utf8.DecodeRune (p0 :: rest)).2) := by
  by_cases h0 : p0 < 0x80
  · exact Or.inl ⟨h0, decodeRune_ascii p0 rest h0⟩
  · have h1 : 0x80 ≤ p0 := by omega
    by_cases hok : (utf8.DecodeRune (p0 :: rest)).1 = utf8.RuneError
        ∧ (utf8.DecodeRune (p0 :: rest)).2 = 1
    · exact Or.inr (Or.inl ⟨h1, Prod.ext hok.1 hok.2⟩)
    · exact Or.inr (Or.inr ⟨h1, decodeRune_shape p0 rest h1 hok⟩)

theorem decodeRune_size (p0 : Nat) (rest : GoString) :
    1 ≤ (utf8.DecodeRune (p0 :: rest)).2
      ∧ (utf8.DecodeRune (p0 :: rest)).2 ≤ (p0 :: rest).length := by
  rcases decodeRune_cases p0 rest with ⟨_, h⟩ | ⟨_, h⟩ | ⟨_, h⟩
  · rw [h]; simp
  · rw [h]; simp
  · have := h.size_le; omega

/-- With enough fuel the loop of `Valid` does not depend on the fuel. -/
theorem validLoop_fuel : ∀ (f1 f2 : Nat) (s : GoString), s.length ≤ f1 → s.length ≤ f2 →
    utf8.validLoop f1 s = utf8.validLoop f2 s := by
  intro f1
  induction f1 with
  | zero =>
    intro f2 s h1 _
    have hs : s = [] := List.length_eq_zero.mp (Nat.le_zero.mp h1)
    subst hs
    cases f2 <;> simp [utf8.validLoop]
  | succ f1 ih =>
    intro f2 s h1 h2
    cases s with
    | nil => cases f2 <;> simp [utf8.validLoop]
    | cons c rest =>
      cases f2 with
      | zero => simp at h2
      | succ f2 =>
        have hsz := decodeRune_size c rest
        simp only [utf8.validLoop]
        split_ifs with hbad
        · rfl
        · apply ih
          · simp only [List.length_drop, List.length_cons] at h1 ⊢; omega
          · simp only [List.length_drop, List.length_cons] at h2 ⊢; omega

theorem valid_nil : utf8.Valid [] = true := by simp [utf8.Valid, utf8.validLoop]

theorem valid_cons_ascii (b : Nat) (t : GoString) (hb : b < 0x80) :
    utf8.Valid (b :: t) = utf8.Valid t := by
  simp only [utf8.Valid, List.length_cons, utf8.validLoop]
  rw [decodeRune_ascii b t hb]
  have hne : ¬ (b = utf8.RuneError ∧ 1 = 1) := by
    unfold utf8.RuneError; omega
  rw [if_neg hne]
  rfl

theorem valid_cons_bad (b : Nat) (t : GoString)
    (h : utf8.DecodeRune (b :: t) = (utf8.RuneError, 1)) : utf8.Valid (b :: t) = false := by
  simp [utf8.Valid, utf8.validLoop, h]

theorem valid_cons_shape (b : Nat) (t : GoString)
    (h : utf8Shape (b :: t) (utf8.DecodeRune (b :: t)).1 (utf8.DecodeRune (b :: t)).2) :
    utf8.Valid (b :: t) = utf8.Valid ((b :: t).drop (utf8.DecodeRune (b :: t)).2) := by
  have hsz := h.size_le
  simp only [utf8.Valid, List.length_cons, utf8.validLoop]
  rw [if_neg (by omega)]
  apply validLoop_fuel
  · simp only [List.length_drop, List.length_cons]; omega
  · exact Nat.le_refl _

/-! ## String literals: scanning what `appendString` writes -/

theorem hexVal_hex (n : Nat) (h : n < 16) : json.hexVal (json.hex n) = some n := by
  unfold json.hex json.hexVal
  split_ifs <;> first | omega | (congr 1; omega)

theorem scanString_plain (c : Nat) (y : GoString) (h1 : c ≠ 0x22) (h2 : c ≠ 0x5C)
    (h3 : ¬ c < 0x20) :
    json.scanString (c :: y) = (json.scanString y).map (fun r => (c :: r.1, r.2)) := by
  rw [json.scanString.eq_def]
  simp [h1, h2, h3]

theorem scanString_high : ∀ (l y : GoString), (∀ b ∈ l, 0x80 ≤ b) →
    json.scanString (l ++ y) = (json.scanString y).map (fun r => (l ++ r.1, r.2)) := by
  intro l
  induction l with
  | nil => intro y _; simp
  | cons c l ih =>
    intro y h
    have hc : 0x80 ≤ c := h c (List.mem_cons_self _ _)
    rw [List.cons_append, scanString_plain c _ (by omega) (by omega) (by omega),
      ih y (fun b hb => h b (List.mem_cons_of_mem _ hb))]
    cases json.scanString y <;> simp

theorem scanString_escU (h1 h2 h3 h4 : Nat) (y : GoString)
    (e1 : (json.hexVal h1).isSome) (e2 : (json.hexVal h2).isSome)
    (e3 : (json.hexVal h3).isSome) (e4 : (json.hexVal h4).isSome) :
    json.scanString (0x5C :: 0x75 :: h1 :: h2 :: h3 :: h4 :: y)
      = (json.scanString y).map (fun r => (0x5C :: 0x75 :: h1 :: h2 :: h3 :: h4 :: r.1, r.2)) := by
  rw [json.scanString.eq_def]
  simp [e1, e2, e3, e4]

theorem scanString_esc (e : Nat) (y : GoString)
    (he : e = 0x62 ∨ e = 0x66 ∨ e = 0x6E ∨ e = 0x72 ∨ e = 0x74 ∨ e = 0x5C ∨ e = 0x2F ∨ e = 0x22) :
    json.scanString (0x5C :: e :: y)
      = (json.scanString y).map (fun r => (0x5C :: e :: r.1, r.2)) := by
  have hu : e ≠ 0x75 := by omega
  rw [json.scanString.eq_def]
  simp [hu, he]

/-- The ASCII bytes that `appendString` escapes. -/
theorem not_htmlSafe (b : Nat) (hb : b < 0x80) (h : json.htmlSafeSet b = false) :
    b < 0x20 ∨ b = 0x22 ∨ b = 0x5C ∨ b = 0x3C ∨ b = 0x3E ∨ b = 0x26 := by
  simp only [json.htmlSafeSet, decide_eq_false_iff_not] at h
  omega

theorem htmlSafe_plain (b : Nat) (h : json.htmlSafeSet b = true) :
    0x20 ≤ b ∧ b < 0x80 ∧ b ≠ 0x22 ∧ b ≠ 0x5C := by
  simp only [json.htmlSafeSet, decide_eq_true_eq] at h
  omega

theorem scanString_escapeByte (b : Nat) (y : GoString) (hb : b < 0x80) :
    json.scanString (json.escapeByte b ++ y)
      = (json.scanString y).map (fun r => (json.escapeByte b ++ r.1, r.2)) := by
  unfold json.escapeByte
  split_ifs with c1 c2 c3 c4 c5 c6
  · exact scanString_esc b y (by omega)
  · exact scanString_esc _ y (by omega)
  · exact scanString_esc _ y (by omega)
  · exact scanString_esc _ y (by omega)
  · exact scanString_esc _ y (by omega)
  · exact scanString_esc _ y (by omega)
  · have hx := hexVal_hex (b / 16) (by omega)
    have hy := hexVal_hex (b % 16) (by omega)
    exact scanString_escU _ _ _ _ y (by decide) (by decide) (by simp [hx]) (by simp [hy])

/-- `DecodeRune` looks at the first four bytes only. -/
theorem decodeRune_take4 (s : GoString) : utf8.DecodeRune (s.take 4) = utf8.DecodeRune s := by
  cases s with
  | nil => rfl
  | cons b t =>
    rcases decodeRune_cases b t with ⟨hb, h⟩ | ⟨hb, h⟩ | ⟨hb, h⟩
    · rw [h]; exact decodeRune_ascii b _ hb
    · rw [h]
      by_contra hne
      have hok : ¬ ((utf8.DecodeRune (b :: t.take 3)).1 = utf8.RuneError
          ∧ (utf8.DecodeRune (b :: t.take 3)).2 = 1) := by
        intro hc
        exact hne (Prod.ext hc.1 hc.2)
      have hsh := decodeRune_shape b (t.take 3) hb hok
      have hsz := hsh.size_le
      have happ := hsh.decode_take_append ((b :: t).drop (utf8.DecodeRune (b :: t.take 3)).2)
      generalize (utf8.DecodeRune (b :: t.take 3)).2 = n at hsz happ
      have htake : (b :: t.take 3).take n = (b :: t).take n := by
        have h4 : (b :: t.take 3).take n = ((b :: t).take 4).take n := rfl
        rw [h4, List.take_take, Nat.min_eq_left hsz.2.1]
      rw [htake, List.take_append_drop, h] at happ
      have hn : 1 = n := congrArg Prod.snd happ
      omega
    · have hsz := h.size_le
      have happ := h.decode_take_append (((b :: t).drop (utf8.DecodeRune (b :: t)).2).take
        (4 - (utf8.DecodeRune (b :: t)).2))
      have h4 : (b :: t).take 4 = (b :: t).take (utf8.DecodeRune (b :: t)).2
          ++ ((b :: t).drop (utf8.DecodeRune (b :: t)).2).take
            (4 - (utf8.DecodeRune (b :: t)).2) := by
        rw [← List.take_add]
        congr 1
        omega
      rw [h4, happ]

/-- The scanner accepts what `appendString` writes between the quotes, up to
the closing quote. -/
theorem scanString_appendStringLoop : ∀ (f : Nat) (s rest : GoString), s.length ≤ f →
    json.scanString (json.appendStringLoop f s ++ 0x22 :: rest)
      = some (json.appendStringLoop f s, rest) := by
  intro f
  induction f with
  | zero =>
    intro s rest _
    rw [json.scanString.eq_def]
    simp [json.appendStringLoop]
  | succ f ih =>
    intro s rest hlen
    cases s with
    | nil =>
      rw [json.scanString.eq_def]
      simp [json.appendStringLoop]
    | cons b t =>
      have ht : t.length ≤ f := by simpa using hlen
      simp only [json.appendStringLoop]
      by_cases hb : b < 0x80
      · rw [if_pos hb]
        by_cases hs : json.htmlSafeSet b = true
        · have hp := htmlSafe_plain b hs
          rw [if_pos hs, List.append_assoc, List.singleton_append,
            scanString_plain b _ hp.2.2.1 hp.2.2.2 (by omega), ih t rest ht]
          rfl
        · rw [if_neg hs, List.append_assoc, scanString_escapeByte b _ hb, ih t rest ht]
          rfl
      · rw [if_neg hb, decodeRune_take4]
        have hb1 : 0x80 ≤ b := by omega
        have hsz := decodeRune_size b t
        have hdrop : ((b :: t).drop (utf8.DecodeRune (b :: t)).2).length ≤ f := by
          simp only [List.length_drop, List.length_cons] at hlen ⊢; omega
        by_cases hbad : (utf8.DecodeRune (b :: t)).1 = utf8.RuneError
            ∧ (utf8.DecodeRune (b :: t)).2 = 1
        · rw [if_pos hbad]
          simp only [List.cons_append, List.nil_append]
          rw [scanString_escU _ _ _ _ _ (by decide) (by decide) (by decide) (by decide),
            ih t rest ht]
          rfl
        · rw [if_neg hbad]
          have hsh := decodeRune_shape b t hb1 hbad
          by_cases hls : (utf8.DecodeRune (b :: t)).1 = 0x2028
              ∨ (utf8.DecodeRune (b :: t)).1 = 0x2029
          · rw [if_pos hls]
            simp only [List.cons_append, List.nil_append]
            have hx := hexVal_hex ((utf8.DecodeRune (b :: t)).1 % 16) (by omega)
            rw [scanString_escU _ _ _ _ _ (by decide) (by decide) (by decide) (by simp [hx]),
              ih _ rest hdrop]
            rfl
          · rw [if_neg hls, List.append_assoc, scanString_high _ _ hsh.bytes_ge,
              ih _ rest hdrop]
            rfl

/-! ## String literals: unquoting what `appendString` writes -/

theorem unquoteLoop_plain (g c : Nat) (x : GoString) (h1 : c ≠ 0x22) (h2 : c ≠ 0x5C)
    (h3 : ¬ c < 0x20) (h4 : c < 0x80) :
    json.unquoteLoop (g + 1) (c :: x) = (json.unquoteLoop g x).map (c :: ·) := by
  rw [json.unquoteLoop.eq_def]
  simp [h1, h2, h3, h4]

theorem unquoteLoop_esc (g e v : Nat) (x : GoString)
    (he : (e = 0x22 ∧ v = 0x22) ∨ (e = 0x5C ∧ v = 0x5C) ∨ (e = 0x62 ∧ v = 0x08)
      ∨ (e = 0x66 ∧ v = 0x0C) ∨ (e = 0x6E ∧ v = 0x0A) ∨ (e = 0x72 ∧ v = 0x0D)
      ∨ (e = 0x74 ∧ v = 0x09)) :
    json.unquoteLoop (g + 1) (0x5C :: e :: x) = (json.unquoteLoop g x).map (v :: ·) := by
  rw [json.unquoteLoop.eq_def]
  rcases he with ⟨rfl, rfl⟩ | ⟨rfl, rfl⟩ | ⟨rfl, rfl⟩ | ⟨rfl, rfl⟩ | ⟨rfl, rfl⟩ | ⟨rfl, rfl⟩
    | ⟨rfl, rfl⟩ <;> simp

theorem getu4_eq (h1 h2 h3 h4 a b c d : Nat) (x : GoString)
    (e1 : json.hexVal h1 = some a) (e2 : json.hexVal h2 = some b)
    (e3 : json.hexVal h3 = some c) (e4 : json.hexVal h4 = some d) :
    json.getu4 (0x5C :: 0x75 :: h1 :: h2 :: h3 :: h4 :: x)
      = some (((a * 16 + b) * 16 + c) * 16 + d) := by
  simp [json.getu4, e1, e2, e3, e4]

theorem unquoteLoop_escU (g h1 h2 h3 h4 rr : Nat) (x : GoString)
    (hu : json.getu4 (0x5C :: 0x75 :: h1 :: h2 :: h3 :: h4 :: x) = some rr)
    (hs : ¬ (0xD800 ≤ rr ∧ rr < 0xE000)) :
    json.unquoteLoop (g + 1) (0x5C :: 0x75 :: h1 :: h2 :: h3 :: h4 :: x)
      = (json.unquoteLoop g x).map (utf8.EncodeRune rr ++ ·) := by
  rw [json.unquoteLoop.eq_def]
  simp [hu, hs]

theorem unquoteLoop_escapeByte (g b : Nat) (x : GoString) (hb : b < 0x80) :
    json.unquoteLoop (g + 1) (json.escapeByte b ++ x) = (json.unquoteLoop g x).map (b :: ·) := by
  unfold json.escapeByte
  split_ifs with c1 c2 c3 c4 c5 c6
  · exact unquoteLoop_esc g b b x (by omega)
  · exact unquoteLoop_esc g _ b x (by omega)
  · exact unquoteLoop_esc g _ b x (by omega)
  · exact unquoteLoop_esc g _ b x (by omega)
  · exact unquoteLoop_esc g _ b x (by omega)
  · exact unquoteLoop_esc g _ b x (by omega)
  · have hx := hexVal_hex (b / 16) (by omega)
    have hy := hexVal_hex (b % 16) (by omega)
    have h0 : json.hexVal 0x30 = some 0 := by decide
    have hu := getu4_eq 0x30 0x30 (json.hex (b / 16)) (json.hex (b % 16)) 0 0 _ _ x h0 h0 hx hy
    have hval : ((0 * 16 + 0) * 16 + b / 16) * 16 + b % 16 = b := by omega
    rw [hval] at hu
    have he : utf8.EncodeRune b = [b] := by
      simp [utf8.EncodeRune, show b ≤ 0x7F by omega]
    have := unquoteLoop_escU g _ _ _ _ b x hu (by omega)
    simpa [he] using this

theorem unquoteLoop_shape (g : Nat) (p x : GoString) (r n : Nat) (h : utf8Shape p r n) :
    json.unquoteLoop (g + 1) (p.take n ++ x) = (json.unquoteLoop g x).map (p.take n ++ ·) := by
  have hd := h.decode_take_append x
  have henc := h.encode_eq
  have hge := h.bytes_ge
  have hsz := h.size_le
  have hlen : (p.take n).length = n := by
    rw [List.length_take]; omega
  cases hp : p.take n with
  | nil => rw [hp] at hlen; simp at hlen; omega
  | cons c q =>
    have hc : 0x80 ≤ c := hge c (by rw [hp]; exact List.mem_cons_self _ _)
    rw [hp] at hd henc hlen
    rw [List.cons_append, json.unquoteLoop.eq_def]
    simp only
    rw [if_neg (by omega), if_neg (by omega), if_neg (by omega)]
    rw [← List.cons_append, hd]
    simp only
    rw [henc]
    have hdrop : (c :: q ++ x).drop n = x := by
      rw [← hlen]; exact List.drop_left _ _
    rw [hdrop]

theorem unquoteLoop_nil (g : Nat) : json.unquoteLoop g [] = some [] := by
  cases g <;> rfl

theorem escapeByte_length_pos (b : Nat) : 1 ≤ (json.escapeByte b).length := by
  unfold json.escapeByte
  split_ifs <;> simp

/-- Unquoting what `appendString` writes between the quotes for a string of
well-formed UTF-8 gives the string back. -/
theorem unquoteLoop_appendStringLoop : ∀ (f : Nat) (s : GoString), s.length ≤ f →
    utf8.Valid s = true → ∀ g, (json.appendStringLoop f s).length ≤ g →
      json.unquoteLoop g (json.appendStringLoop f s) = some s := by
  intro f
  induction f with
  | zero =>
    intro s hlen _ g _
    have hs : s = [] := List.length_eq_zero.mp (Nat.le_zero.mp hlen)
    subst hs
    simp [json.appendStringLoop, unquoteLoop_nil]
  | succ f ih =>
    intro s hlen hv g hg
    cases s with
    | nil => simp [json.appendStringLoop, unquoteLoop_nil]
    | cons b t =>
      have ht : t.length ≤ f := by simpa using hlen
      simp only [json.appendStringLoop] at hg ⊢
      by_cases hb : b < 0x80
      · rw [if_pos hb] at hg ⊢
        rw [valid_cons_ascii b t hb] at hv
        by_cases hs : json.htmlSafeSet b = true
        · have hp := htmlSafe_plain b hs
          rw [if_pos hs] at hg ⊢
          simp only [List.singleton_append, List.length_cons] at hg ⊢
          obtain ⟨g1, rfl⟩ : ∃ g1, g = g1 + 1 := ⟨g - 1, by omega⟩
          rw [unquoteLoop_plain g1 b _ hp.2.2.1 hp.2.2.2 (by omega) hb,
            ih t ht hv g1 (by omega)]
          rfl
        · rw [if_neg hs] at hg ⊢
          have hpos := escapeByte_length_pos b
          rw [List.length_append] at hg
          obtain ⟨g1, rfl⟩ : ∃ g1, g = g1 + 1 := ⟨g - 1, by omega⟩
          rw [unquoteLoop_escapeByte g1 b _ hb, ih t ht hv g1 (by omega)]
          rfl
      · rw [if_neg hb, decodeRune_take4] at hg ⊢
        have hb1 : 0x80 ≤ b := by omega
        have hsz := decodeRune_size b t
        have hdrop : ((b :: t).drop (utf8.DecodeRune (b :: t)).2).length ≤ f := by
          simp only [List.length_drop, List.length_cons] at hlen ⊢; omega
        by_cases hbad : (utf8.DecodeRune (b :: t)).1 = utf8.RuneError
            ∧ (utf8.DecodeRune (b :: t)).2 = 1
        · rw [valid_cons_bad b t (Prod.ext hbad.1 hbad.2)] at hv
          exact absurd hv (by decide)
        · rw [if_neg hbad] at hg ⊢
          have hsh := decodeRune_shape b t hb1 hbad
          rw [valid_cons_shape b t hsh] at hv
          have hjoin : (b :: t).take (utf8.DecodeRune (b :: t)).2
              ++ (b :: t).drop (utf8.DecodeRune (b :: t)).2 = b :: t := List.take_append_drop _ _
          by_cases hls : (utf8.DecodeRune (b :: t)).1 = 0x2028
              ∨ (utf8.DecodeRune (b :: t)).1 = 0x2029
          · rw [if_pos hls] at hg ⊢
            simp only [List.cons_append, List.nil_append, List.length_cons] at hg ⊢
            obtain ⟨g1, rfl⟩ : ∃ g1, g = g1 + 1 := ⟨g - 1, by omega⟩
            have hx := hexVal_hex ((utf8.DecodeRune (b :: t)).1 % 16) (by omega)
            have hu := getu4_eq 0x32 0x30 0x32 (json.hex ((utf8.DecodeRune (b :: t)).1 % 16))
              2 0 2 _ (json.appendStringLoop f ((b :: t).drop (utf8.DecodeRune (b :: t)).2))
              (by decide) (by decide) (by decide) hx
            have hval : ((2 * 16 + 0) * 16 + 2) * 16 + (utf8.DecodeRune (b :: t)).1 % 16
                = (utf8.DecodeRune (b :: t)).1 := by omega
            rw [hval] at hu
            rw [unquoteLoop_escU g1 _ _ _ _ _ _ hu (by omega), ih _ hdrop hv g1 (by omega),
              hsh.encode_eq]
            simp only [Option.map_some']
            rw [hjoin]
          · rw [if_neg hls] at hg ⊢
            have hsl := hsh.size_le
            rw [List.length_append, List.length_take] at hg
            obtain ⟨g1, rfl⟩ : ∃ g1, g = g1 + 1 := ⟨g - 1, by omega⟩
            rw [unquoteLoop_shape g1 _ _ _ _ hsh, ih _ hdrop hv g1 (by omega)]
            simp only [Option.map_some']
            rw [hjoin]

/-- Claim C7, strings: `unquote` gives back a string of well-formed UTF-8 from
the text that `appendString` writes for it between the quotes. -/
theorem unquoteText_appendStringLoop (s : GoString) (hv : utf8.Valid s = true) :
    json.unquoteText (json.appendStringLoop s.length s) = s := by
  unfold json.unquoteText json.unquote
  rw [unquoteLoop_appendStringLoop s.length s (Nat.le_refl _) hv _ (Nat.le_refl _)]
  rfl

/-! ## Numbers: what `strconv.AppendInt` writes -/

/-- The digits `formatBits` writes for a positive number: a first digit from 1
to 9 and then digits. -/
theorem formatBits_shape : ∀ (fuel u : Nat) (acc : GoString), 0 < u → u < 10 ^ fuel →
    ∃ c ds, strconv.formatBits fuel u acc = c :: (ds ++ acc) ∧ 0x31 ≤ c ∧ c ≤ 0x39
      ∧ ∀ d ∈ ds, 0x30 ≤ d ∧ d ≤ 0x39 := by
  intro fuel
  induction fuel with
  | zero => intro u acc h0 h1; simp at h1; omega
  | succ fuel ih =>
    intro u acc h0 h1
    simp only [strconv.formatBits]
    by_cases h10 : 10 ≤ u
    · rw [if_pos h10]
      have hdiv : u / 10 < 10 ^ fuel := by
        rw [Nat.div_lt_iff_lt_mul (by decide)]
        rw [Nat.pow_succ] at h1
        exact h1
      obtain ⟨c, ds, heq, hc1, hc2, hds⟩ := ih (u / 10) ((0x30 + u % 10) :: acc) (by omega) hdiv
      refine ⟨c, ds ++ [0x30 + u % 10], ?_, hc1, hc2, ?_⟩
      · rw [heq]; simp
      · intro d hd
        rcases List.mem_append.mp hd with h | h
        · exact hds d h
        · simp at h; omega
    · rw [if_neg h10]
      exact ⟨0x30 + u, [], by simp, by omega, by omega, by simp⟩

theorem formatBits_zero (fuel : Nat) (acc : GoString) :
    strconv.formatBits (fuel + 1) 0 acc = 0x30 :: acc := by
  simp [strconv.formatBits]

/-- Reading back the digits that `formatBits` writes. -/
theorem parseDigits_formatBits : ∀ (fuel u : Nat) (acc : GoString), u < 10 ^ fuel →
    strconv.parseDigits (strconv.formatBits fuel u acc) 0 = strconv.parseDigits acc u := by
  intro fuel
  induction fuel with
  | zero =>
    intro u acc h
    have hu : u = 0 := by simp at h; omega
    subst hu
    rfl
  | succ fuel ih =>
    intro u acc h1
    simp only [strconv.formatBits]
    by_cases h10 : 10 ≤ u
    · rw [if_pos h10]
      have hdiv : u / 10 < 10 ^ fuel := by
        rw [Nat.div_lt_iff_lt_mul (by decide)]
        rw [Nat.pow_succ] at h1
        exact h1
      rw [ih (u / 10) _ hdiv]
      simp only [strconv.parseDigits]
      rw [if_pos (by omega)]
      congr 1
      omega
    · rw [if_neg h10]
      simp only [strconv.parseDigits]
      rw [if_pos (by omega)]
      congr 1
      omega

/-- The digits `formatBits` writes for a number that fits its buffer: `0`
alone, or a first digit from 1 to 9 and then digits. -/
theorem formatBits65_shape (u : Nat) (hu : u < 10 ^ 65) :
    ∃ c ds, strconv.formatBits 65 u [] = c :: ds ∧ 0x30 ≤ c ∧ c ≤ 0x39
      ∧ (c = 0x30 → ds = []) ∧ ∀ d ∈ ds, 0x30 ≤ d ∧ d ≤ 0x39 := by
  by_cases h0 : u = 0
  · subst h0
    exact ⟨0x30, [], formatBits_zero 64 [], by omega, by omega, fun _ => rfl, by simp⟩
  · obtain ⟨c, ds, heq, hc1, hc2, hds⟩ := formatBits_shape 65 u [] (by omega) hu
    rw [List.append_nil] at heq
    exact ⟨c, ds, heq, by omega, hc2, fun h => by omega, hds⟩

theorem parseUint_formatBits (u : Nat) (hu : u < 10 ^ 65) :
    strconv.ParseUint (strconv.formatBits 65 u []) = some u := by
  obtain ⟨c, ds, heq, -⟩ := formatBits65_shape u hu
  unfold strconv.ParseUint
  rw [if_neg (by rw [heq]; exact List.cons_ne_nil _ _), parseDigits_formatBits 65 u [] hu]
  rfl

theorem isInt64_natAbs {n : Int} (h : isInt64 n) : n.natAbs ≤ 2 ^ 63 ∧ n.natAbs < 10 ^ 65 := by
  unfold isInt64 at h
  have h1 : n.natAbs ≤ 2 ^ 63 := by omega
  exact ⟨h1, Nat.lt_of_le_of_lt h1 (by norm_num)⟩

/-- `strconv.ParseInt` reads back what `strconv.AppendInt` writes for a Go
`int`. -/
theorem parseInt_formatInt (n : Int) (h : isInt64 n) :
    strconv.ParseInt (strconv.FormatInt n) = some n := by
  have hb := isInt64_natAbs h
  have hu := parseUint_formatBits n.natAbs hb.2
  unfold isInt64 at h
  unfold strconv.FormatInt
  by_cases hneg : n < 0
  · rw [if_pos hneg]
    simp only [strconv.ParseInt, hu, decide_True, true_and, not_true_eq_false, false_and,
      if_false, or_true, if_true]
    rw [if_neg (by omega)]
    congr 1
    omega
  · rw [if_neg hneg]
    obtain ⟨c, ds, heq, hc1, hc2, -⟩ := formatBits65_shape n.natAbs hb.2
    rw [heq] at hu ⊢
    have e1 : ¬ c = 0x2D := by omega
    have e2 : ¬ c = 0x2B := by omega
    simp only [strconv.ParseInt, e1, e2, or_self, if_false, hu, decide_False, Bool.false_eq_true,
      not_false_eq_true, true_and, false_and]
    rw [if_neg (by omega)]
    congr 1
    omega

theorem spanDigits_append (y : GoString) : ∀ (ds : GoString),
    (∀ d ∈ ds, 0x30 ≤ d ∧ d ≤ 0x39) →
    json.spanDigits (ds ++ 0x7D :: y) = (ds, 0x7D :: y) := by
  intro ds
  induction ds with
  | nil => intro _; simp [json.spanDigits]
  | cons d ds ih =>
    intro h
    have hd := h d (List.mem_cons_self _ _)
    have ih1 := ih (fun x hx => h x (List.mem_cons_of_mem _ hx))
    rw [List.cons_append, json.spanDigits, if_pos hd, ih1]

theorem scanFraction_brace (y : GoString) :
    json.scanFraction (0x7D :: y) = some ([], 0x7D :: y) := by
  simp [json.scanFraction]

theorem scanUnsigned_formatBits (u : Nat) (hu : u < 10 ^ 65) (y : GoString) :
    json.scanUnsigned (strconv.formatBits 65 u [] ++ 0x7D :: y)
      = some (strconv.formatBits 65 u [], 0x7D :: y) := by
  obtain ⟨c, ds, heq, hc1, hc2, hz, hds⟩ := formatBits65_shape u hu
  rw [heq]
  simp only [List.cons_append, json.scanUnsigned]
  by_cases h0 : c = 0x30
  · rw [if_pos h0, hz h0]
    simp [scanFraction_brace, h0]
  · rw [if_neg h0, if_pos (by omega), spanDigits_append y ds hds]
    simp [scanFraction_brace]

/-- The scanner reads the number that `strconv.AppendInt` writes, up to a
closing brace. -/
theorem scanNumber_formatInt (n : Int) (h : isInt64 n) (y : GoString) :
    json.scanNumber (strconv.FormatInt n ++ 0x7D :: y)
      = some (strconv.FormatInt n, 0x7D :: y) := by
  have hb := isInt64_natAbs h
  have hs := scanUnsigned_formatBits n.natAbs hb.2 y
  unfold strconv.FormatInt
  by_cases hneg : n < 0
  · rw [if_pos hneg]
    simp [json.scanNumber, hs]
  · rw [if_neg hneg]
    obtain ⟨c, ds, heq, hc1, hc2, -⟩ := formatBits65_shape n.natAbs hb.2
    rw [heq] at hs ⊢
    have e1 : ¬ c = 0x2D := by omega
    rw [json.scanNumber.eq_def]
    simp only [List.cons_append] at hs ⊢
    split
    · next rest heq2 =>
      exact absurd (List.cons.inj heq2).1 e1
    · exact hs

/-! ## Objects: parsing what `json.Marshal` writes for a record -/

theorem skipSpace_cons (c : Nat) (y : GoString) (h : json.isSpace c = false) :
    json.skipSpace (c :: y) = c :: y := by
  simp [json.skipSpace, h]

theorem scanString_quote (y : GoString) : json.scanString (0x22 :: y) = some ([], y) := by
  rw [json.scanString.eq_def]
  simp

theorem parseValue_string (depth : Nat) (s y : GoString) :
    json.parseValue depth (json.appendString s ++ y)
      = some (json.Value.string (json.appendStringLoop s.length s), y) := by
  unfold json.appendString
  simp only [List.cons_append, List.nil_append, List.append_assoc, List.singleton_append]
  rw [json.parseValue.eq_def]
  simp only [skipSpace_cons 0x22 _ (by decide)]
  rw [if_pos trivial, scanString_appendStringLoop _ _ _ (Nat.le_refl _)]
  rfl

theorem parseValue_number (depth : Nat) (n : Int) (h : isInt64 n) (y : GoString) :
    json.parseValue depth (strconv.FormatInt n ++ 0x7D :: y)
      = some (json.Value.number (strconv.FormatInt n), 0x7D :: y) := by
  have hscan := scanNumber_formatInt n h y
  have hhead : ∃ c t, strconv.FormatInt n = c :: t ∧ (c = 0x2D ∨ (0x30 ≤ c ∧ c ≤ 0x39)) := by
    unfold strconv.FormatInt
    by_cases hneg : n < 0
    · rw [if_pos hneg]; exact ⟨_, _, rfl, Or.inl rfl⟩
    · rw [if_neg hneg]
      obtain ⟨c, ds, heq, hc1, hc2, -⟩ := formatBits65_shape n.natAbs (isInt64_natAbs h).2
      exact ⟨c, ds, heq, Or.inr ⟨hc1, hc2⟩⟩
  obtain ⟨c, t, heq, hc⟩ := hhead
  rw [heq] at hscan ⊢
  have hsp : json.isSpace c = false := by
    simp only [json.isSpace, decide_eq_false_iff_not]; omega
  rw [json.parseValue.eq_def]
  simp only [List.cons_append, skipSpace_cons c _ hsp]
  rw [if_neg (by omega), if_pos hc]
  simp only [List.cons_append] at hscan
  rw [hscan]
  rfl

theorem parseMembers_more (pv : GoString → Option (json.Value × GoString)) (fuel : Nat)
    (keyText key r2 r4 : GoString) (v : json.Value)
    (hkey : json.scanString keyText = some (key, 0x3A :: r2))
    (hv : pv r2 = some (v, 0x2C :: r4)) :
    json.parseMembers pv (fuel + 1) (0x22 :: keyText)
      = (json.parseMembers pv fuel r4).map (fun x => ((key, v) :: x.1, x.2)) := by
  simp only [json.parseMembers, skipSpace_cons 0x22 _ (by decide), hkey,
    skipSpace_cons 0x3A _ (by decide), hv, skipSpace_cons 0x2C _ (by decide)]

theorem parseMembers_last (pv : GoString → Option (json.Value × GoString)) (fuel : Nat)
    (keyText key r2 r4 : GoString) (v : json.Value)
    (hkey : json.scanString keyText = some (key, 0x3A :: r2))
    (hv : pv r2 = some (v, 0x7D :: r4)) :
    json.parseMembers pv (fuel + 1) (0x22 :: keyText) = some ([(key, v)], r4) := by
  simp only [json.parseMembers, skipSpace_cons 0x22 _ (by decide), hkey,
    skipSpace_cons 0x3A _ (by decide), hv, skipSpace_cons 0x7D _ (by decide)]

theorem lit_user_open : lit "\x7b\"id\":" = [0x7B, 0x22, 0x69, 0x64, 0x22, 0x3A] := by decide

theorem lit_user_email :
    lit ",\"email\":" = [0x2C, 0x22, 0x65, 0x6D, 0x61, 0x69, 0x6C, 0x22, 0x3A] := by decide

theorem lit_user_age : lit ",\"age\":" = [0x2C, 0x22, 0x61, 0x67, 0x65, 0x22, 0x3A] := by decide

theorem lit_user_close : lit "\x7d" = [0x7D] := by decide

theorem parseValue_object (depth : Nat) (x : GoString) :
    json.parseValue (depth + 1) (0x7B :: 0x22 :: x)
      = (json.parseMembers (json.parseValue depth) (0x22 :: x).length (0x22 :: x)).map
          (fun r => (json.Value.object r.1, r.2)) := by
  rw [json.parseValue.eq_def]
  simp only [skipSpace_cons 0x7B _ (by decide), skipSpace_cons 0x22 _ (by decide)]
  rw [if_neg (by decide), if_neg (by decide), if_neg (by decide), if_neg (by decide),
    if_neg (by decide), if_neg (by decide), if_pos trivial]

/-- The parser reads the object that `json.Marshal` writes for a record. -/
theorem parseValue_marshalUser (depth : Nat) (user : User) (hage : isInt64 user.Age)
    (rest : GoString) :
    json.parseValue (depth + 1) ((json.MarshalUser user).1 ++ rest)
      = some (json.valueOfUser user, rest) := by
  have hid : ∀ y, json.scanString (0x69 :: 0x64 :: 0x22 :: y) = some ([0x69, 0x64], y) := by
    intro y
    rw [scanString_plain _ _ (by decide) (by decide) (by decide),
      scanString_plain _ _ (by decide) (by decide) (by decide), scanString_quote]
    rfl
  have hemail : ∀ y, json.scanString (0x65 :: 0x6D :: 0x61 :: 0x69 :: 0x6C :: 0x22 :: y)
      = some ([0x65, 0x6D, 0x61, 0x69, 0x6C], y) := by
    intro y
    rw [scanString_plain _ _ (by decide) (by decide) (by decide),
      scanString_plain _ _ (by decide) (by decide) (by decide),
      scanString_plain _ _ (by decide) (by decide) (by decide),
      scanString_plain _ _ (by decide) (by decide) (by decide),
      scanString_plain _ _ (by decide) (by decide) (by decide), scanString_quote]
    rfl
  have hagekey : ∀ y, json.scanString (0x61 :: 0x67 :: 0x65 :: 0x22 :: y)
      = some ([0x61, 0x67, 0x65], y) := by
    intro y
    rw [scanString_plain _ _ (by decide) (by decide) (by decide),
      scanString_plain _ _ (by decide) (by decide) (by decide),
      scanString_plain _ _ (by decide) (by decide) (by decide), scanString_quote]
    rfl
  simp only [json.MarshalUser, lit_user_open, lit_user_email, lit_user_age, lit_user_close,
    List.cons_append, List.nil_append, List.append_assoc]
  rw [parseValue_object]
  simp only [List.length_cons, List.length_append]
  rw [parseMembers_more _ _ _ _ _ _ _ (hid _) (parseValue_string depth user.Id _)]
  rw [parseMembers_more _ _ _ _ _ _ _ (hemail _) (parseValue_string depth user.Email _)]
  rw [parseMembers_last _ _ _ _ _ _ _ (hagekey _) (parseValue_number depth user.Age hage _)]
  rfl

/-- Storing the tree of a record gives the record back, when its strings are
well-formed UTF-8 and its age is a Go `int`. -/
theorem valueIntoUser_valueOfUser (user : User) (saved : Option Error)
    (hid : utf8.Valid user.Id = true) (hemail : utf8.Valid user.Email = true)
    (hage : isInt64 user.Age) :
    json.valueIntoUser (json.valueOfUser user) (User.zero, saved) = (user, saved) := by
  have k1 : json.foldName (json.unquoteText [0x69, 0x64]) = lit "ID" := by decide
  have k2 : json.foldName (json.unquoteText [0x65, 0x6D, 0x61, 0x69, 0x6C]) = lit "EMAIL" := by
    decide
  have k3 : json.foldName (json.unquoteText [0x61, 0x67, 0x65]) = lit "AGE" := by decide
  have n1 : lit "EMAIL" ≠ lit "ID" := by decide
  have n2 : lit "AGE" ≠ lit "ID" := by decide
  have n3 : lit "AGE" ≠ lit "EMAIL" := by decide
  simp only [json.valueIntoUser, json.valueOfUser, List.foldl_cons, List.foldl_nil,
    json.storeMember, k1, k2, k3, n1, n2, n3, if_true, if_false, json.storeString,
    json.storeInt, unquoteText_appendStringLoop user.Id hid,
    unquoteText_appendStringLoop user.Email hemail, parseInt_formatInt user.Age hage]

/-- Decoding what `json.Marshal` writes for a record gives the record back and
no error, when its strings are well-formed UTF-8 and its age is a Go `int`. -/
theorem unmarshalUser_marshalUser (user : User) (hid : utf8.Valid user.Id = true)
    (hemail : utf8.Valid user.Email = true) (hage : isInt64 user.Age) :
    json.UnmarshalUser (json.MarshalUser user).1 = (user, none) := by
  have hp := parseValue_marshalUser 9999 user hage []
  rw [List.append_nil] at hp
  have hparse : json.parse (json.MarshalUser user).1 = some (json.valueOfUser user) := by
    unfold json.parse json.maxNestingDepth
    rw [hp]
    rfl
  unfold json.UnmarshalUser
  rw [hparse]
  exact valueIntoUser_valueOfUser user none hid hemail hage

/-! ## The round trip of a record -/

theorem marshalUser_ne_nil (user : User) : (json.MarshalUser user).1 ≠ [] := by
  simp [json.MarshalUser, lit_user_open]

/-- Claim C7, as amended.  For every record with a non-empty id whose id and
email are well-formed UTF-8 (and whose age is a Go `int`), `ToString`
succeeds, and decoding its output as a JSON record, as `ParseUser` does for the
`item` argument, gives a record equal to the one encoded. -/
theorem toString_round_trip (user : User) (hne : user.Id ≠ [])
    (hid : utf8.Valid user.Id = true) (hemail : utf8.Valid user.Email = true)
    (hage : isInt64 user.Age) :
    (User.ToString user).2 = none
      ∧ json.UnmarshalUser (User.ToString user).1 = (user, none)
      ∧ ∀ args : Arguments, args.lookup (lit "item") = some (User.ToString user).1 →
          ParseUser args = (user, none) := by
  have hts : User.ToString user = ((json.MarshalUser user).1, none) := by
    unfold User.ToString
    rw [if_neg hne]
    rfl
  have hrt := unmarshalUser_marshalUser user hid hemail hage
  refine ⟨by rw [hts], by rw [hts]; exact hrt, ?_⟩
  intro args hitem
  rw [hts] at hitem
  have hlen : ¬ (json.MarshalUser user).1.length < 1 := by
    have := List.length_pos.mpr (marshalUser_ne_nil user)
    omega
  unfold ParseUser
  simp only [Arguments.index, hitem, not_true_eq_false, false_or, hlen, if_false, hrt]

theorem toString_round_trip_witness :
    sampleUser.Id ≠ [] ∧ utf8.Valid sampleUser.Id = true ∧ utf8.Valid sampleUser.Email = true
      ∧ isInt64 sampleUser.Age
      ∧ ((User.ToString sampleUser).2 = none
        ∧ json.UnmarshalUser (User.ToString sampleUser).1 = (sampleUser, none)
        ∧ ∀ args : Arguments, args.lookup (lit "item") = some (User.ToString sampleUser).1 →
            ParseUser args = (sampleUser, none)) :=
  ⟨by decide, by decide, by decide, by decide,
    toString_round_trip sampleUser (by decide) (by decide) (by decide) (by decide)⟩

/-- Claim C7, as stated, fails: the record with id `0xFF` (a byte that is not
UTF-8) has a non-empty id, `ToString` succeeds on it and writes the id as
`\ufffd`, and decoding that output gives the id U+FFFD, another record. -/
theorem toString_round_trip_fails_on_invalid_utf8 :
    badUser.Id ≠ [] ∧ isInt64 badUser.Age
      ∧ (User.ToString badUser).2 = none
      ∧ (User.ToString badUser).1
          = lit "\x7b\"id\":\"\\ufffd\",\"email\":\"\",\"age\":0\x7d"
      ∧ json.UnmarshalUser (User.ToString badUser).1
          = ({ Id := [0xEF, 0xBF, 0xBD], Email := [], Age := 0 }, none)
      ∧ json.UnmarshalUser (User.ToString badUser).1 ≠ (badUser, none) := by
  decide

/-! ## `Perform`: the required flags -/

theorem arguments_index_missing (args : Arguments) (key : GoString)
    (h : args.lookup key = none ∨ args.lookup key = some []) :
    ¬ (Arguments.index args key).2 = true ∨ (Arguments.index args key).1.length < 1 := by
  rcases h with h | h
  · left; simp [Arguments.index, h]
  · right; simp [Arguments.index, h]

theorem arguments_index_given (args : Arguments) (key : GoString)
    (h : ¬ (args.lookup key = none ∨ args.lookup key = some [])) :
    ¬ (¬ (Arguments.index args key).2 = true ∨ (Arguments.index args key).1.length < 1) := by
  unfold Arguments.index
  cases hl : args.lookup key with
  | none => exact absurd (Or.inl hl) h
  | some v =>
    cases v with
    | nil => exact absurd (Or.inr hl) h
    | cons c t => simp

/-- Claim C10.  When `fileName` is absent or empty, `Perform` returns the
error "-fileName flag has to be specified"; when `fileName` is given and
`operation` is absent or empty, it returns the error "-operation flag has to be
specified".  In both cases the world is left as it was: no file is read or
written (no call is made) and nothing is written to the output sink. -/
theorem perform_requires_fileName_and_operation (args : Arguments)
    (rng : Users → Slice GoString) (w : World)
    (h : (args.lookup (lit "fileName") = none ∨ args.lookup (lit "fileName") = some [])
      ∨ (args.lookup (lit "operation") = none ∨ args.lookup (lit "operation") = some [])) :
    (Perform args rng w).2 = w
      ∧ ((args.lookup (lit "fileName") = none ∨ args.lookup (lit "fileName") = some []) →
          (Perform args rng w).1
            = some (Error.text (lit "-fileName flag has to be specified")))
      ∧ (¬ (args.lookup (lit "fileName") = none ∨ args.lookup (lit "fileName") = some []) →
          (Perform args rng w).1
            = some (Error.text (lit "-operation flag has to be specified"))) := by
  by_cases hf : args.lookup (lit "fileName") = none ∨ args.lookup (lit "fileName") = some []
  · have hfile := arguments_index_missing args _ hf
    have hp : Perform args rng w
        = (some (Error.text (lit "-fileName flag has to be specified")), w) := by
      unfold Perform
      simp only [hfile, if_true]
    exact ⟨by rw [hp], fun _ => by rw [hp], fun hn => absurd hf hn⟩
  · have ho : args.lookup (lit "operation") = none
        ∨ args.lookup (lit "operation") = some [] := by
      rcases h with h | h
      · exact absurd h hf
      · exact h
    have hfile := arguments_index_given args _ hf
    have hop := arguments_index_missing args _ ho
    have hp : Perform args rng w
        = (some (Error.text (lit "-operation flag has to be specified")), w) := by
      unfold Perform
      simp only [hfile, hop, if_true, if_false]
    exact ⟨by rw [hp], fun hy => absurd hy hf, fun _ => by rw [hp]⟩

theorem perform_requires_fileName_and_operation_witness :
    ((argsNoOperation.lookup (lit "fileName") = none
        ∨ argsNoOperation.lookup (lit "fileName") = some [])
      ∨ (argsNoOperation.lookup (lit "operation") = none
        ∨ argsNoOperation.lookup (lit "operation") = some []))
    ∧ ((Perform argsNoOperation keysOrder emptyWorld).2 = emptyWorld
      ∧ ((argsNoOperation.lookup (lit "fileName") = none
            ∨ argsNoOperation.lookup (lit "fileName") = some []) →
          (Perform argsNoOperation keysOrder emptyWorld).1
            = some (Error.text (lit "-fileName flag has to be specified")))
      ∧ (¬ (argsNoOperation.lookup (lit "fileName") = none
            ∨ argsNoOperation.lookup (lit "fileName") = some []) →
          (Perform argsNoOperation keysOrder emptyWorld).1
            = some (Error.text (lit "-operation flag has to be specified")))) :=
  ⟨by decide, perform_requires_fileName_and_operation argsNoOperation keysOrder emptyWorld
    (by decide)⟩

/-! ## Arrays: parsing what `json.Marshal` writes for a slice of records -/

theorem marshalUser_head (user : User) :
    ∃ t, (json.MarshalUser user).1 = 0x7B :: t := by
  simp [json.MarshalUser, lit_user_open]

theorem joinElems_cons_cons (x y : GoString) (rest : List GoString) :
    json.joinElems (x :: y :: rest) = x ++ [0x2C] ++ json.joinElems (y :: rest) := by
  rw [json.joinElems]

/-- The parser reads the elements that `json.Marshal` writes for a non-empty
slice of records, up to the closing bracket. -/
theorem parseElems_marshal (depth : Nat) : ∀ (users : Slice User) (fuel : Nat) (rest : GoString),
    users ≠ [] → users.length ≤ fuel → (∀ u ∈ users, isInt64 u.Age) →
    json.parseElems (json.parseValue (depth + 1)) fuel
        (json.joinElems (users.map (fun u => (json.MarshalUser u).1)) ++ 0x5D :: rest)
      = some (users.map json.valueOfUser, rest) := by
  intro users
  induction users with
  | nil => intro fuel rest h; exact absurd rfl h
  | cons u us ih =>
    intro fuel rest _ hfuel hage
    have hu := hage u (List.mem_cons_self _ _)
    obtain ⟨f1, rfl⟩ : ∃ f1, fuel = f1 + 1 := ⟨fuel - 1, by simp at hfuel; omega⟩
    cases us with
    | nil =>
      simp only [List.map_cons, List.map_nil, json.joinElems, json.parseElems]
      rw [parseValue_marshalUser depth u hu]
      simp only [skipSpace_cons 0x5D _ (by decide)]
    | cons u2 us2 =>
      have ih1 := ih f1 rest (List.cons_ne_nil _ _) (by simpa using hfuel)
        (fun x hx => hage x (List.mem_cons_of_mem _ hx))
      simp only [List.map_cons] at ih1 ⊢
      rw [joinElems_cons_cons]
      simp only [json.parseElems, List.append_assoc, List.singleton_append]
      rw [parseValue_marshalUser depth u hu]
      simp only [List.cons_append, skipSpace_cons 0x2C _ (by decide)]
      rw [ih1]
      rfl

theorem joinElems_length : ∀ (xs : List GoString), (∀ x ∈ xs, x ≠ []) →
    xs.length ≤ (json.joinElems xs).length := by
  intro xs
  induction xs with
  | nil => intro _; simp [json.joinElems]
  | cons x xs ih =>
    intro h
    have hx : 1 ≤ x.length := List.length_pos.mpr (h x (List.mem_cons_self _ _))
    cases xs with
    | nil => simpa [json.joinElems] using hx
    | cons y ys =>
      have := ih (fun z hz => h z (List.mem_cons_of_mem _ hz))
      rw [joinElems_cons_cons]
      simp only [List.length_append, List.length_cons, List.length_nil] at this ⊢
      omega

theorem parseValue_array (depth : Nat) (x : GoString) :
    json.parseValue (depth + 1) (0x5B :: 0x7B :: x)
      = (json.parseElems (json.parseValue depth) (0x7B :: x).length (0x7B :: x)).map
          (fun r => (json.Value.array r.1, r.2)) := by
  rw [json.parseValue.eq_def]
  simp only [skipSpace_cons 0x5B _ (by decide), skipSpace_cons 0x7B _ (by decide)]
  rw [if_neg (by decide), if_neg (by decide), if_neg (by decide), if_neg (by decide),
    if_neg (by decide), if_pos trivial]

/-- The parser reads the array that `json.Marshal` writes for a slice of
records. -/
theorem parse_marshalUsers (users : Slice User) (hage : ∀ u ∈ users, isInt64 u.Age) :
    json.parse (json.MarshalUsers users).1
      = some (json.Value.array (users.map json.valueOfUser)) := by
  unfold json.parse json.maxNestingDepth json.MarshalUsers
  cases users with
  | nil => rfl
  | cons u us =>
    obtain ⟨t, ht⟩ := marshalUser_head u
    have hjoin : ∃ t2, json.joinElems ((u :: us).map (fun u => (json.MarshalUser u).1))
        = 0x7B :: t2 := by
      cases us with
      | nil => exact ⟨t, by simp [json.joinElems, ht]⟩
      | cons u2 us2 =>
        refine ⟨t ++ [0x2C]
          ++ json.joinElems ((u2 :: us2).map (fun u => (json.MarshalUser u).1)), ?_⟩
        simp only [List.map_cons]
        rw [joinElems_cons_cons, ht]
        simp
    obtain ⟨t2, ht2⟩ := hjoin
    have hlen := joinElems_length ((u :: us).map (fun u => (json.MarshalUser u).1))
      (by intro x hx; obtain ⟨v, _, rfl⟩ := List.mem_map.mp hx; exact marshalUser_ne_nil v)
    have hel := parseElems_marshal 9998 (u :: us)
      (json.joinElems ((u :: us).map (fun u => (json.MarshalUser u).1)) ++ [0x5D]).length []
      (List.cons_ne_nil _ _) (by
        rw [List.length_append]
        simp only [List.length_map] at hlen
        omega) hage
    rw [ht2] at hel ⊢
    have hel1 : json.parseElems (json.parseValue 9999) (0x7B :: (t2 ++ [0x5D])).length
        (0x7B :: (t2 ++ [0x5D])) = some ((u :: us).map json.valueOfUser, []) := hel
    have hval : json.parseValue (9999 + 1) (0x5B :: 0x7B :: (t2 ++ [0x5D]))
        = some (json.Value.array ((u :: us).map json.valueOfUser), []) := by
      rw [parseValue_array, hel1]
      rfl
    have hval1 : json.parseValue 10000 (([0x5B] ++ 0x7B :: t2 ++ [0x5D], (none : Option Error)).1)
        = some (json.Value.array ((u :: us).map json.valueOfUser), []) := hval
    rw [hval1]
    rfl

theorem elemsIntoUsers_valueOfUser : ∀ (users : Slice User) (saved : Option Error),
    (∀ u ∈ users, u.wellFormed) →
    json.elemsIntoUsers (users.map json.valueOfUser) saved = (users, saved) := by
  intro users
  induction users with
  | nil => intro saved _; rfl
  | cons u us ih =>
    intro saved h
    have hu := h u (List.mem_cons_self _ _)
    simp only [List.map_cons, json.elemsIntoUsers,
      valueIntoUser_valueOfUser u saved hu.1 hu.2.1 hu.2.2,
      ih saved (fun x hx => h x (List.mem_cons_of_mem _ hx))]

/-- Decoding what `json.Marshal` writes for a slice of records gives the slice
back and no error, when the records are well formed. -/
theorem unmarshalUsers_marshalUsers (users : Slice User) (h : ∀ u ∈ users, u.wellFormed) :
    json.UnmarshalUsers (json.MarshalUsers users).1 = (users, none) := by
  unfold json.UnmarshalUsers
  rw [parse_marshalUsers users (fun u hu => (h u hu).2.2)]
  exact elemsIntoUsers_valueOfUser users none h

/-! ## The loop of `LoadDB` -/

/-- Filling a store from records with pairwise distinct ids, none of which is a
key yet, puts each record in front of the entries, under its id. -/
theorem fill_entries : ∀ (slice : Slice User) (users : Users),
    (slice.map User.Id).Nodup → (∀ u ∈ slice, u.Id ∉ users) →
    (LoadDB.fill slice users).entries
      = slice.reverse.map (fun u => (⟨u.Id, u⟩ : Sigma (fun _ : GoString => User)))
          ++ users.entries := by
  intro slice
  induction slice with
  | nil => intro users _ _; rfl
  | cons u us ih =>
    intro users hnd hnew
    have hu : u.Id ∉ users := hnew u (List.mem_cons_self _ _)
    simp only [List.map_cons, List.nodup_cons] at hnd
    have hstep : LoadDB.fill (u :: us) users = LoadDB.fill us (users.insert u.Id u) := rfl
    rw [hstep, ih (users.insert u.Id u) hnd.2 ?_, AList.insert_entries_of_neg hu]
    · simp
    · intro v hv hmem
      rw [AList.mem_insert] at hmem
      rcases hmem with h | h
      · exact hnd.1 (h ▸ List.mem_map_of_mem User.Id hv)
      · exact hnew v (List.mem_cons_of_mem _ hv) h

theorem fill_values (slice : Slice User) (h : (slice.map User.Id).Nodup) :
    Users.values (LoadDB.fill slice ∅) = slice.reverse := by
  unfold Users.values
  rw [fill_entries slice ∅ h (fun u _ => AList.not_mem_empty _)]
  simp [Function.comp_def]

/-! ## `SaveDB` and `LoadDB` -/

theorem written_of_regular (old : File) (data : GoString)
    (hreg : old = File.absent ∨ ∃ content, old = File.data content) :
    File.written old data = File.data data := by
  rcases hreg with h | ⟨content, h⟩ <;> rw [h] <;> rfl

theorem saveDB_of_write_ok (w : World) (path : GoString) (users : Users)
    (order : Slice GoString) (hwrite : w.writeFails path = none)
    (hreg : w.files path = File.absent ∨ ∃ content, w.files path = File.data content) :
    (SaveDB w path users order).1 = none
      ∧ (SaveDB w path users order).2.files path
          = File.data (json.MarshalUsers (Users.List users order).1).1
      ∧ (∀ p, p ≠ path → (SaveDB w path users order).2.files p = w.files p)
      ∧ (SaveDB w path users order).2.out = w.out
      ∧ (SaveDB w path users order).2.writeFails = w.writeFails := by
  simp only [SaveDB, json.MarshalUsers, os.WriteFile, hwrite, if_true, true_and, and_true,
    written_of_regular _ _ hreg]
  intro p hp
  rw [if_neg hp]

theorem loadDB_of_data (w : World) (path content : GoString)
    (h : w.files path = File.data content) :
    (LoadDB w path).1 = (LoadDB.fill (json.UnmarshalUsers content).1 ∅, none) := by
  simp only [LoadDB, os.ReadFile, h]

/-- Claim C8, as amended.  For every store whose records are well formed
(strings of well-formed UTF-8) and have pairwise distinct ids, and every path
that names no file or a regular file that can be read, and at which the write
succeeds, `SaveDB` followed by `LoadDB` at that path returns no error and a
store that holds the same records, whatever the order in which they were
written. -/
theorem save_then_load_same_records (w : World) (path : GoString) (users : Users)
    (order : Slice GoString)
    (hfile : w.files path = File.absent ∨ ∃ content, w.files path = File.data content)
    (hwrite : w.writeFails path = none)
    (horder : order.Perm users.keys)
    (hwf : ∀ u ∈ Users.values users, u.wellFormed)
    (hids : ((Users.values users).map User.Id).Nodup) :
    (SaveDB w path users order).1 = none
      ∧ (LoadDB (SaveDB w path users order).2 path).1.2 = none
      ∧ (Users.values (LoadDB (SaveDB w path users order).2 path).1.1).Perm
          (Users.values users) := by
  have hsave := saveDB_of_write_ok w path users order hwrite hfile
  have hperm := list_perm_values users order horder
  have hwf1 : ∀ u ∈ (Users.List users order).1, u.wellFormed :=
    fun u hu => hwf u (hperm.mem_iff.mp hu)
  have hids1 : (((Users.List users order).1).map User.Id).Nodup :=
    (hperm.map User.Id).nodup_iff.mpr hids
  have hload := loadDB_of_data _ path _ hsave.2.1
  rw [unmarshalUsers_marshalUsers _ hwf1] at hload
  refine ⟨hsave.1, by rw [hload], ?_⟩
  rw [hload]
  simp only
  rw [fill_values _ hids1]
  exact (List.reverse_perm _).trans hperm

theorem save_then_load_same_records_witness :
    (emptyWorld.files (lit "t.json") = File.absent
        ∨ ∃ content, emptyWorld.files (lit "t.json") = File.data content)
      ∧ emptyWorld.writeFails (lit "t.json") = none
      ∧ (keysOrder twoStore).Perm twoStore.keys
      ∧ (∀ u ∈ Users.values twoStore, u.wellFormed)
      ∧ ((Users.values twoStore).map User.Id).Nodup
      ∧ ((SaveDB emptyWorld (lit "t.json") twoStore (keysOrder twoStore)).1 = none
        ∧ (LoadDB (SaveDB emptyWorld (lit "t.json") twoStore (keysOrder twoStore)).2
            (lit "t.json")).1.2 = none
        ∧ (Users.values (LoadDB (SaveDB emptyWorld (lit "t.json") twoStore
            (keysOrder twoStore)).2 (lit "t.json")).1.1).Perm (Users.values twoStore)) :=
  ⟨Or.inl rfl, rfl, List.Perm.refl _, by decide, by decide,
    save_then_load_same_records emptyWorld (lit "t.json") twoStore (keysOrder twoStore)
      (Or.inl rfl) rfl (List.Perm.refl _) (by decide) (by decide)⟩

/-- Claim C8, as stated, fails, in each of four ways, the write succeeding and
`SaveDB` returning no error in all of them.  A value of type `Users` may hold
two records with the same id under two keys: after `SaveDB` and `LoadDB`, in
either order of the two keys, one record is left.  A store may hold a record
whose id is not UTF-8: after `SaveDB` and `LoadDB` the store does not hold it.
The path may name a file that can be written and not read: `LoadDB` returns
the error of the read.  The path may name a device that keeps nothing:
`LoadDB` returns the empty store. -/
theorem save_then_load_loses_records :
    (emptyWorld.writeFails (lit "t.json") = none
      ∧ Users.len sameIdStore = 2
      ∧ (SaveDB emptyWorld (lit "t.json") sameIdStore [lit "a", lit "b"]).1 = none
      ∧ (LoadDB (SaveDB emptyWorld (lit "t.json") sameIdStore [lit "a", lit "b"]).2
          (lit "t.json")).1.2 = none
      ∧ Users.len (LoadDB (SaveDB emptyWorld (lit "t.json") sameIdStore
          [lit "a", lit "b"]).2 (lit "t.json")).1.1 = 1
      ∧ (SaveDB emptyWorld (lit "t.json") sameIdStore [lit "b", lit "a"]).1 = none
      ∧ (LoadDB (SaveDB emptyWorld (lit "t.json") sameIdStore [lit "b", lit "a"]).2
          (lit "t.json")).1.2 = none
      ∧ Users.len (LoadDB (SaveDB emptyWorld (lit "t.json") sameIdStore
          [lit "b", lit "a"]).2 (lit "t.json")).1.1 = 1)
    ∧ ((keysOrder badStore).Perm badStore.keys
      ∧ (SaveDB emptyWorld (lit "t.json") badStore (keysOrder badStore)).1 = none
      ∧ (LoadDB (SaveDB emptyWorld (lit "t.json") badStore (keysOrder badStore)).2
          (lit "t.json")).1.2 = none
      ∧ badUser ∈ Users.values badStore
      ∧ badUser ∉ Users.values
          (LoadDB (SaveDB emptyWorld (lit "t.json") badStore (keysOrder badStore)).2
            (lit "t.json")).1.1)
    ∧ (writeOnlyWorld.writeFails (lit "t.json") = none
      ∧ (SaveDB writeOnlyWorld (lit "t.json") sampleStore (keysOrder sampleStore)).1 = none
      ∧ (LoadDB (SaveDB writeOnlyWorld (lit "t.json") sampleStore (keysOrder sampleStore)).2
          (lit "t.json")).1.2 = some (Error.os 13))
    ∧ (devNullWorld.writeFails (lit "/dev/null") = none
      ∧ (SaveDB devNullWorld (lit "/dev/null") sampleStore (keysOrder sampleStore)).1 = none
      ∧ (LoadDB (SaveDB devNullWorld (lit "/dev/null") sampleStore
          (keysOrder sampleStore)).2 (lit "/dev/null")).1.2 = none
      ∧ Users.values sampleStore = [sampleUser]
      ∧ Users.values (LoadDB (SaveDB devNullWorld (lit "/dev/null") sampleStore
          (keysOrder sampleStore)).2 (lit "/dev/null")).1.1 = []) := by
  refine ⟨⟨rfl, by decide, by decide, by decide, by decide, by decide, by decide, by decide⟩,
    ⟨List.Perm.refl _, by decide, by decide, by decide, by decide⟩,
    ⟨rfl, by decide, by decide⟩,
    ⟨rfl, by decide, by decide, by decide, by decide⟩⟩

/-! ## What the decoder stores is well formed -/

theorem valid_shape_append {p : GoString} {r n : Nat} (h : utf8Shape p r n) (t : GoString) :
    utf8.Valid (p.take n ++ t) = utf8.Valid t := by
  have hd := h.decode_take_append t
  have hsz := h.size_le
  have hlen : (p.take n).length = n := by
    rw [List.length_take]; omega
  cases hp : p.take n with
  | nil => rw [hp] at hlen; simp at hlen; omega
  | cons c q =>
    rw [hp] at hd hlen
    have hdrop : (c :: q ++ t).drop n = t := by
      rw [← hlen]; exact List.drop_left _ _
    rw [List.cons_append] at hd hdrop ⊢
    simp only [utf8.Valid, List.length_cons, utf8.validLoop]
    rw [hd]
    simp only
    rw [if_neg (by omega), hdrop]
    apply validLoop_fuel
    · simp only [List.length_cons] at hlen
      simp only [List.length_append]; omega
    · exact Nat.le_refl _

/-- What `EncodeRune` writes for a rune outside ASCII is a well-formed encoding. -/
theorem encodeRune_shape (r : Nat) (h : 0x7F < r) :
    ∃ r1, utf8Shape (utf8.EncodeRune r) r1 (utf8.EncodeRune r).length := by
  unfold utf8.EncodeRune utf8.MaxRune
  rw [if_neg (by omega)]
  split_ifs with h2 h3 h4
  · exact ⟨_, .two _ _ [] rfl (by omega) (by omega) rfl rfl⟩
  · exact ⟨_, .three 0xEF 0xBF 0xBD [] rfl (by omega) (by omega) (by omega) (by omega)
      (by omega) rfl rfl⟩
  · exact ⟨_, .three _ _ _ [] rfl (by omega) (by omega) (by omega) (by omega) (by omega)
      rfl rfl⟩
  · exact ⟨_, .four _ _ _ _ [] rfl (by omega) (by omega) (by omega) (by omega) (by omega)
      (by omega) rfl rfl⟩

theorem valid_encodeRune_append (r : Nat) (t : GoString) :
    utf8.Valid (utf8.EncodeRune r ++ t) = utf8.Valid t := by
  by_cases h : r ≤ 0x7F
  · have he : utf8.EncodeRune r = [r] := by simp [utf8.EncodeRune, h]
    rw [he, List.singleton_append]
    exact valid_cons_ascii r t (by omega)
  · obtain ⟨r1, hs⟩ := encodeRune_shape r (by omega)
    have := valid_shape_append hs t
    rwa [List.take_length] at this

theorem unquoteLoop_backslash_end (g : Nat) : json.unquoteLoop (g + 1) [0x5C] = none := by
  rw [json.unquoteLoop.eq_def]
  simp

theorem unquoteLoop_slash (g e : Nat) (x : GoString) (he : e = 0x2F ∨ e = 0x27) :
    json.unquoteLoop (g + 1) (0x5C :: e :: x) = (json.unquoteLoop g x).map (e :: ·) := by
  rw [json.unquoteLoop.eq_def]
  rcases he with rfl | rfl <;> simp

theorem unquoteLoop_bad_escape (g e : Nat) (x : GoString)
    (he : ¬ (e = 0x22 ∨ e = 0x5C ∨ e = 0x2F ∨ e = 0x27 ∨ e = 0x62 ∨ e = 0x66 ∨ e = 0x6E
      ∨ e = 0x72 ∨ e = 0x74 ∨ e = 0x75)) :
    json.unquoteLoop (g + 1) (0x5C :: e :: x) = none := by
  rw [json.unquoteLoop.eq_def]
  have h1 : ¬ (e = 0x22 ∨ e = 0x5C ∨ e = 0x2F ∨ e = 0x27) := by omega
  have h2 : ¬ e = 0x62 := by omega
  have h3 : ¬ e = 0x66 := by omega
  have h4 : ¬ e = 0x6E := by omega
  have h5 : ¬ e = 0x72 := by omega
  have h6 : ¬ e = 0x74 := by omega
  have h7 : ¬ e = 0x75 := by omega
  simp [h1, h2, h3, h4, h5, h6, h7]

theorem unquoteLoop_u (g : Nat) (x : GoString) :
    json.unquoteLoop (g + 1) (0x5C :: 0x75 :: x) = none
      ∨ ∃ r y, json.unquoteLoop (g + 1) (0x5C :: 0x75 :: x)
          = (json.unquoteLoop g y).map (utf8.EncodeRune r ++ ·) := by
  rw [json.unquoteLoop.eq_def]
  cases hu : json.getu4 (0x5C :: 0x75 :: x) with
  | none => left; simp [hu]
  | some rr =>
    right
    by_cases hs : 0xD800 ≤ rr ∧ rr < 0xE000
    · by_cases hd : utf16.DecodeRune rr (json.getu4 (List.drop 4 x)) = 0xFFFD
      · exact ⟨0xFFFD, List.drop 4 x, by simp [hu, hs, hd]⟩
      · exact ⟨utf16.DecodeRune rr (json.getu4 (List.drop 4 x)), List.drop 10 x,
          by simp [hu, hs, hd]⟩
    · exact ⟨rr, List.drop 4 x, by simp [hu, hs]⟩

theorem unquoteLoop_bad_char (g c : Nat) (x : GoString) (h1 : c ≠ 0x5C)
    (h2 : c = 0x22 ∨ c < 0x20) : json.unquoteLoop (g + 1) (c :: x) = none := by
  rw [json.unquoteLoop.eq_def]
  simp [h1, h2]

theorem unquoteLoop_high (g c : Nat) (x : GoString) (h : 0x80 ≤ c) :
    json.unquoteLoop (g + 1) (c :: x)
      = (json.unquoteLoop g ((c :: x).drop (utf8.DecodeRune (c :: x)).2)).map
          (utf8.EncodeRune (utf8.DecodeRune (c :: x)).1 ++ ·) := by
  rw [json.unquoteLoop.eq_def]
  have h1 : ¬ c = 0x5C := by omega
  have h2 : ¬ (c = 0x22 ∨ c < 0x20) := by omega
  have h3 : ¬ c < 0x80 := by omega
  simp [h1, h2, h3]

/-- One pass of the loop of `unquoteBytes` fails, or puts an ASCII byte or the
encoding of a rune in front of what the rest of the loop returns. -/
theorem unquoteLoop_form (g c : Nat) (rest : GoString) :
    json.unquoteLoop (g + 1) (c :: rest) = none
      ∨ (∃ b x, b < 0x80
          ∧ json.unquoteLoop (g + 1) (c :: rest) = (json.unquoteLoop g x).map (b :: ·))
      ∨ (∃ r x, json.unquoteLoop (g + 1) (c :: rest)
          = (json.unquoteLoop g x).map (utf8.EncodeRune r ++ ·)) := by
  by_cases h1 : c = 0x5C
  · subst h1
    cases rest with
    | nil => exact Or.inl (unquoteLoop_backslash_end g)
    | cons e x =>
      by_cases he : (e = 0x22 ∧ e = 0x22) ∨ (e = 0x5C ∧ e = 0x5C) ∨ (e = 0x62 ∧ 0x08 = 0x08)
          ∨ (e = 0x66 ∧ 0x0C = 0x0C) ∨ (e = 0x6E ∧ 0x0A = 0x0A) ∨ (e = 0x72 ∧ 0x0D = 0x0D)
          ∨ (e = 0x74 ∧ 0x09 = 0x09)
      · right; left
        rcases he with h | h | h | h | h | h | h
        · exact ⟨0x22, x, by omega, unquoteLoop_esc g e 0x22 x (by omega)⟩
        · exact ⟨0x5C, x, by omega, unquoteLoop_esc g e 0x5C x (by omega)⟩
        · exact ⟨0x08, x, by omega, unquoteLoop_esc g e 0x08 x (by omega)⟩
        · exact ⟨0x0C, x, by omega, unquoteLoop_esc g e 0x0C x (by omega)⟩
        · exact ⟨0x0A, x, by omega, unquoteLoop_esc g e 0x0A x (by omega)⟩
        · exact ⟨0x0D, x, by omega, unquoteLoop_esc g e 0x0D x (by omega)⟩
        · exact ⟨0x09, x, by omega, unquoteLoop_esc g e 0x09 x (by omega)⟩
      · by_cases hs : e = 0x2F ∨ e = 0x27
        · exact Or.inr (Or.inl ⟨e, x, by omega, unquoteLoop_slash g e x hs⟩)
        · by_cases hu : e = 0x75
          · subst hu
            rcases unquoteLoop_u g x with h | h
            · exact Or.inl h
            · exact Or.inr (Or.inr h)
          · exact Or.inl (unquoteLoop_bad_escape g e x (by omega))
  · by_cases h2 : c = 0x22 ∨ c < 0x20
    · exact Or.inl (unquoteLoop_bad_char g c rest h1 h2)
    · by_cases h3 : c < 0x80
      · exact Or.inr (Or.inl ⟨c, rest, h3,
          unquoteLoop_plain g c rest (by omega) h1 (by omega) h3⟩)
      · exact Or.inr (Or.inr ⟨_, _, unquoteLoop_high g c rest (by omega)⟩)

/-- Whatever `unquoteBytes` returns is well-formed UTF-8. -/
theorem valid_unquoteLoop : ∀ (g : Nat) (s out : GoString),
    json.unquoteLoop g s = some out → utf8.Valid out = true := by
  intro g
  induction g with
  | zero =>
    intro s out h
    rw [json.unquoteLoop] at h
    cases h
    exact valid_nil
  | succ g ih =>
    intro s out h
    cases s with
    | nil =>
      rw [unquoteLoop_nil] at h
      cases h
      exact valid_nil
    | cons c rest =>
      rcases unquoteLoop_form g c rest with hf | ⟨b, x, hb, hf⟩ | ⟨r, x, hf⟩
      · rw [hf] at h; cases h
      · rw [hf] at h
        cases hx : json.unquoteLoop g x with
        | none => rw [hx] at h; cases h
        | some o =>
          rw [hx] at h
          cases h
          rw [valid_cons_ascii b o hb]
          exact ih x o hx
      · rw [hf] at h
        cases hx : json.unquoteLoop g x with
        | none => rw [hx] at h; cases h
        | some o =>
          rw [hx] at h
          cases h
          rw [valid_encodeRune_append r o]
          exact ih x o hx

theorem valid_unquoteText (text : GoString) : utf8.Valid (json.unquoteText text) = true := by
  unfold json.unquoteText json.unquote
  cases h : json.unquoteLoop text.length text with
  | none => exact valid_nil
  | some out => exact valid_unquoteLoop _ _ _ h

theorem parseInt_isInt64 (s : GoString) (n : Int) (h : strconv.ParseInt s = some n) :
    isInt64 n := by
  unfold strconv.ParseInt at h
  cases s with
  | nil => cases h
  | cons c rest =>
    simp only at h
    cases hu : strconv.ParseUint (if c = 0x2B ∨ c = 0x2D then rest else c :: rest) with
    | none => rw [hu] at h; cases h
    | some un =>
      rw [hu] at h
      simp only at h
      unfold isInt64
      by_cases hneg : c = 0x2D
      · simp only [hneg, decide_True, not_true_eq_false, false_and, if_false, true_and,
          if_true] at h
        split_ifs at h with h2
        simp only [Option.some.injEq] at h
        omega
      · simp only [hneg, decide_False, Bool.false_eq_true, not_false_eq_true, true_and,
          false_and, if_false] at h
        split_ifs at h with h1
        simp only [Option.some.injEq] at h
        omega

theorem zero_wellFormed : User.zero.wellFormed := by decide

theorem storeString_valid (v : json.Value) (old : GoString) (saved : Option Error)
    (h : utf8.Valid old = true) : utf8.Valid (json.storeString v old saved).1 = true := by
  cases v <;> simp only [json.storeString, h, valid_unquoteText]

theorem storeInt_isInt64 (v : json.Value) (old : Int) (saved : Option Error)
    (h : isInt64 old) : isInt64 (json.storeInt v old saved).1 := by
  cases v with
  | number text =>
    simp only [json.storeInt]
    cases hp : strconv.ParseInt text with
    | none => exact h
    | some n => exact parseInt_isInt64 text n hp
  | _ => exact h

theorem storeMember_wellFormed (st : User × Option Error) (member : GoString × json.Value)
    (h : st.1.wellFormed) : (json.storeMember st member).1.wellFormed := by
  unfold json.storeMember
  simp only
  split_ifs
  · exact ⟨storeString_valid _ _ _ h.1, h.2.1, h.2.2⟩
  · exact ⟨h.1, storeString_valid _ _ _ h.2.1, h.2.2⟩
  · exact ⟨h.1, h.2.1, storeInt_isInt64 _ _ _ h.2.2⟩
  · exact h

theorem foldl_storeMember_wellFormed : ∀ (members : List (GoString × json.Value))
    (st : User × Option Error), st.1.wellFormed →
    (members.foldl json.storeMember st).1.wellFormed := by
  intro members
  induction members with
  | nil => intro st h; exact h
  | cons m ms ih => intro st h; exact ih _ (storeMember_wellFormed st m h)

theorem valueIntoUser_wellFormed (v : json.Value) (st : User × Option Error)
    (h : st.1.wellFormed) : (json.valueIntoUser v st).1.wellFormed := by
  cases v with
  | object members => exact foldl_storeMember_wellFormed members st h
  | _ => exact h

/-- Every record that `json.Unmarshal` stores is well formed: its strings are
well-formed UTF-8 and its age is a Go `int`. -/
theorem unmarshalUser_wellFormed (data : GoString) :
    (json.UnmarshalUser data).1.wellFormed := by
  unfold json.UnmarshalUser
  cases json.parse data with
  | none => exact zero_wellFormed
  | some v => exact valueIntoUser_wellFormed v _ zero_wellFormed

theorem elemsIntoUsers_wellFormed : ∀ (elems : List json.Value) (saved : Option Error),
    ∀ u ∈ (json.elemsIntoUsers elems saved).1, u.wellFormed := by
  intro elems
  induction elems with
  | nil => intro saved u hu; simp [json.elemsIntoUsers] at hu
  | cons v vs ih =>
    intro saved u hu
    simp only [json.elemsIntoUsers, List.mem_cons] at hu
    rcases hu with rfl | hu
    · exact valueIntoUser_wellFormed v _ zero_wellFormed
    · exact ih _ u hu

theorem unmarshalUsers_wellFormed (data : GoString) :
    ∀ u ∈ (json.UnmarshalUsers data).1, u.wellFormed := by
  unfold json.UnmarshalUsers
  cases json.parse data with
  | none => intro u hu; simp at hu
  | some v =>
    cases v with
    | array elems => exact elemsIntoUsers_wellFormed elems none
    | _ => intro u hu; simp [json.valueIntoUsers] at hu

/-! ## `Perform`: operation `add` -/

theorem arguments_index_some (args : Arguments) (key v : GoString)
    (h : args.lookup key = some v) : Arguments.index args key = (v, true) := by
  simp [Arguments.index, h]

theorem loadDB_of_absent (w : World) (path : GoString) (h : w.files path = File.absent) :
    LoadDB w path = ((∅, none), { w with trace := w.trace ++ [Event.readFile path] }) := by
  simp [LoadDB, os.ReadFile, h, Error.isNotExist]

theorem parseUser_of_decodes (args : Arguments) (item : GoString) (user : User)
    (hitem : args.lookup (lit "item") = some item)
    (hdec : json.UnmarshalUser item = (user, none)) : ParseUser args = (user, none) := by
  have hne : ¬ item.length < 1 := by
    cases item with
    | nil =>
      have : json.UnmarshalUser [] = (User.zero, some Error.jsonSyntax) := by decide
      rw [this] at hdec
      cases hdec
    | cons c t => simp
  unfold ParseUser
  simp only [arguments_index_some args _ _ hitem, not_true_eq_false, false_or, hne, if_false,
    hdec]

/-- What `Perform` does for the operation `add` once the flags are given, the
file has been loaded and the item decodes. -/
theorem perform_add_eq (args : Arguments) (rng : Users → Slice GoString) (w w1 : World)
    (path item : GoString) (user : User) (users : Users)
    (hfile : args.lookup (lit "fileName") = some path) (hpath : path ≠ [])
    (hop : args.lookup (lit "operation") = some (lit "add"))
    (hitem : args.lookup (lit "item") = some item)
    (hdec : json.UnmarshalUser item = (user, none))
    (hload : LoadDB w path = ((users, none), w1)) :
    Perform args rng w
      = (none, (SaveDB (match (Users.Add users user).2 with
          | some err => w1.Write err.message
          | none => w1) path (Users.Add users user).1 (rng (Users.Add users user).1)).2) := by
  have hlen : ¬ path.length < 1 := by
    cases path with
    | nil => exact absurd rfl hpath
    | cons c t => simp
  have hoplen : ¬ (lit "add").length < 1 := by decide
  unfold Perform
  simp only [arguments_index_some args _ _ hfile, arguments_index_some args _ _ hop,
    not_true_eq_false, false_or, hlen, hoplen, if_false, hload, if_true,
    parseUser_of_decodes args item user hitem hdec]
  try rfl

/-- Claim C9, as amended.  For every non-empty path at which no file exists and
at which the write succeeds, and every `item` argument that decodes to a record
`R`, `LoadDB` returns the empty store without error, and `Perform` with the
operation `add` returns success, writes nothing to the output sink, and leaves
at that path a file whose content decodes to exactly one record, equal to
`R`. -/
theorem perform_add_to_absent_file (args : Arguments) (rng : Users → Slice GoString)
    (w : World) (path item : GoString) (user : User)
    (hfile : args.lookup (lit "fileName") = some path) (hpath : path ≠ [])
    (hop : args.lookup (lit "operation") = some (lit "add"))
    (hitem : args.lookup (lit "item") = some item)
    (hdec : json.UnmarshalUser item = (user, none))
    (habsent : w.files path = File.absent) (hwrite : w.writeFails path = none)
    (hrng : ∀ users, (rng users).Perm users.keys) :
    (LoadDB w path).1 = (∅, none)
      ∧ (Perform args rng w).1 = none
      ∧ (Perform args rng w).2.out = w.out
      ∧ ∃ content, (Perform args rng w).2.files path = File.data content
          ∧ json.UnmarshalUsers content = ([user], none) := by
  have hload := loadDB_of_absent w path habsent
  have hadd : Users.Add ∅ user = ((∅ : Users).insert user.Id user, none) := by
    have hx := index_of_not_mem (AList.not_mem_empty user.Id : user.Id ∉ (∅ : Users))
    simp [Users.Add, hx]
  have hp := perform_add_eq args rng w _ path item user ∅ hfile hpath hop hitem hdec hload
  rw [hadd] at hp
  simp only at hp
  have hsave := saveDB_of_write_ok { w with trace := w.trace ++ [Event.readFile path] } path
    ((∅ : Users).insert user.Id user) (rng ((∅ : Users).insert user.Id user)) hwrite
    (Or.inl habsent)
  have hlist : (Users.List ((∅ : Users).insert user.Id user)
      (rng ((∅ : Users).insert user.Id user))).1 = [user] := by
    have hperm := list_perm_values _ _ (hrng ((∅ : Users).insert user.Id user))
    have hvals : Users.values ((∅ : Users).insert user.Id user) = [user] := by
      simp [Users.values, AList.insert_entries_of_neg (AList.not_mem_empty user.Id)]
    rw [hvals] at hperm
    exact List.perm_singleton.mp hperm
  have hwf : user.wellFormed := by
    have := unmarshalUser_wellFormed item
    rwa [hdec] at this
  refine ⟨by rw [hload], by rw [hp], by rw [hp]; exact hsave.2.2.2.1, ?_⟩
  refine ⟨_, by rw [hp]; exact hsave.2.1, ?_⟩
  rw [hlist]
  exact unmarshalUsers_marshalUsers [user] (by
    intro u hu
    rw [List.mem_singleton] at hu
    rw [hu]
    exact hwf)

theorem perform_add_to_absent_file_witness :
    addArgs.lookup (lit "fileName") = some (lit "t.json") ∧ lit "t.json" ≠ []
      ∧ addArgs.lookup (lit "operation") = some (lit "add")
      ∧ addArgs.lookup (lit "item") = some sampleItem
      ∧ json.UnmarshalUser sampleItem = (sampleUser, none)
      ∧ emptyWorld.files (lit "t.json") = File.absent
      ∧ emptyWorld.writeFails (lit "t.json") = none
      ∧ (∀ users, (keysOrder users).Perm users.keys)
      ∧ ((LoadDB emptyWorld (lit "t.json")).1 = (∅, none)
        ∧ (Perform addArgs keysOrder emptyWorld).1 = none
        ∧ (Perform addArgs keysOrder emptyWorld).2.out = emptyWorld.out
        ∧ ∃ content, (Perform addArgs keysOrder emptyWorld).2.files (lit "t.json")
              = File.data content
            ∧ json.UnmarshalUsers content = ([sampleUser], none)) :=
  ⟨by decide, by decide, by decide, by decide, by decide, rfl, rfl,
    fun _ => List.Perm.refl _,
    perform_add_to_absent_file addArgs keysOrder emptyWorld (lit "t.json") sampleItem
      sampleUser (by decide) (by decide) (by decide) (by decide) (by decide) rfl rfl
      (fun _ => List.Perm.refl _)⟩

/-- Claim C9, as stated, fails.  Where no file exists and the write fails (the
directory is missing or read-only), `Perform` with the operation `add` still
returns success and leaves no file at the path: the error of `SaveDB` is
dropped.  And the empty string is a path at which no file exists, for which
`Perform` returns the error of the missing `fileName` flag. -/
theorem perform_add_leaves_no_file_when_write_fails :
    (readOnlyWorld.files (lit "t.json") = File.absent
      ∧ addArgs.lookup (lit "fileName") = some (lit "t.json")
      ∧ addArgs.lookup (lit "operation") = some (lit "add")
      ∧ addArgs.lookup (lit "item") = some sampleItem
      ∧ json.UnmarshalUser sampleItem = (sampleUser, none)
      ∧ (Perform addArgs keysOrder readOnlyWorld).1 = none
      ∧ (Perform addArgs keysOrder readOnlyWorld).2.files (lit "t.json") = File.absent)
    ∧ (emptyWorld.files [] = File.absent
      ∧ addArgsEmptyPath.lookup (lit "fileName") = some []
      ∧ (Perform addArgsEmptyPath keysOrder emptyWorld).1
          = some (Error.text (lit "-fileName flag has to be specified"))) := by
  refine ⟨⟨rfl, by decide, by decide, by decide, by decide, by decide, by decide⟩,
    ⟨rfl, by decide, by decide⟩⟩

/-! ## Keys are ids -/

theorem keyed_empty : Users.keyedById (∅ : Users) := by
  intro e he
  cases he

theorem keyed_insert (users : Users) (user : User) (h : Users.keyedById users) :
    Users.keyedById (users.insert user.Id user) := by
  intro e he
  rw [AList.insert_entries, List.mem_cons] at he
  rcases he with rfl | he
  · rfl
  · exact h e ((List.kerase_sublist _ _).subset he)

theorem keyed_erase (users : Users) (id : GoString) (h : Users.keyedById users) :
    Users.keyedById (users.erase id) := by
  intro e he
  exact h e ((List.kerase_sublist _ _).subset he)

theorem keyed_fill : ∀ (slice : Slice User) (users : Users), Users.keyedById users →
    Users.keyedById (LoadDB.fill slice users) := by
  intro slice
  induction slice with
  | nil => intro users h; exact h
  | cons u us ih => intro users h; exact ih _ (keyed_insert users u h)

theorem keyed_add (users : Users) (user : User) (h : Users.keyedById users) :
    Users.keyedById (Users.Add users user).1 := by
  unfold Users.Add
  split_ifs
  · exact h
  · exact keyed_insert users user h

theorem keyed_remove (users : Users) (id : GoString) (h : Users.keyedById users) :
    Users.keyedById (Users.Remove users id).1 := by
  unfold Users.Remove
  split_ifs
  · exact keyed_erase users id h
  · exact h

/-- The store that `LoadDB` returns is the empty store or the store filled from
the decoded slice. -/
theorem loadDB_store (w : World) (path : GoString) :
    (LoadDB w path).1.1 = ∅
      ∨ ∃ content, w.files path = File.data content
          ∧ (LoadDB w path).1 = (LoadDB.fill (json.UnmarshalUsers content).1 ∅, none) := by
  cases hf : w.files path with
  | absent => left; simp [LoadDB, os.ReadFile, hf, Error.isNotExist]
  | data content => right; exact ⟨content, rfl, loadDB_of_data w path content hf⟩
  | unreadable code => left; simp [LoadDB, os.ReadFile, hf, Error.isNotExist]
  | sink => left; simp [LoadDB, os.ReadFile, hf]; rfl

theorem keyed_loadDB (w : World) (path : GoString) : Users.keyedById (LoadDB w path).1.1 := by
  rcases loadDB_store w path with h | ⟨content, _, h⟩
  · rw [h]; exact keyed_empty
  · rw [h]; exact keyed_fill _ _ keyed_empty

/-- In the store filled from a slice, an id maps to the last record of the
slice with that id, and to what it mapped to before when there is none. -/
theorem lookup_fill : ∀ (slice : Slice User) (users : Users) (id : GoString),
    (LoadDB.fill slice users).lookup id = (lastWithId slice id).or (users.lookup id) := by
  intro slice
  induction slice with
  | nil => intro users id; simp [LoadDB.fill, lastWithId]
  | cons u us ih =>
    intro users id
    have hstep : LoadDB.fill (u :: us) users = LoadDB.fill us (users.insert u.Id u) := rfl
    rw [hstep, ih]
    unfold lastWithId
    by_cases hu : u.Id = id
    · subst hu
      rw [AList.lookup_insert, List.filter_cons, if_pos (by simp), List.getLast?_cons]
      cases (List.filter (fun v => decide (v.Id = u.Id)) us).getLast? <;> simp
    · rw [AList.lookup_insert_ne (Ne.symm hu), List.filter_cons, if_neg (by simp [hu])]

/-- Claim C20.  Every key of a store is the id of the record stored under it:
this holds for the empty store and for every store that `LoadDB` returns,
whatever the file holds (an id of the file maps to the last record of the file
with that id), and `Add` and `Remove` preserve it, whether they return an
error or not. -/
theorem keys_are_ids :
    Users.keyedById (∅ : Users)
      ∧ (∀ (w : World) (path : GoString), Users.keyedById (LoadDB w path).1.1)
      ∧ (∀ (w : World) (path content : GoString) (id : GoString),
          w.files path = File.data content →
          (LoadDB w path).1.1.lookup id = lastWithId (json.UnmarshalUsers content).1 id)
      ∧ (∀ (users : Users) (user : User), Users.keyedById users →
          Users.keyedById (Users.Add users user).1)
      ∧ (∀ (users : Users) (id : GoString), Users.keyedById users →
          Users.keyedById (Users.Remove users id).1) := by
  refine ⟨keyed_empty, keyed_loadDB, ?_, keyed_add, keyed_remove⟩
  intro w path content id hf
  rw [loadDB_of_data w path content hf]
  simp only
  rw [lookup_fill, AList.lookup_empty]
  cases lastWithId (json.UnmarshalUsers content).1 id <;> rfl

theorem keys_are_ids_witness :
    Users.keyedById (Users.Add sampleStore otherUser).1
      ∧ Users.keyedById (Users.Remove twoStore sampleUser.Id).1 :=
  ⟨keys_are_ids.2.2.2.1 sampleStore otherUser (by decide),
    keys_are_ids.2.2.2.2 twoStore sampleUser.Id (by decide)⟩

/-! ## `Perform`: the operations after the load -/

theorem loadDB_world (w : World) (path : GoString) :
    (LoadDB w path).2 = { w with trace := w.trace ++ [Event.readFile path] } := by
  cases hf : w.files path <;> simp [LoadDB, os.ReadFile, hf] <;> split_ifs <;> rfl

theorem length_lt_one_of_ne_nil (s : GoString) (h : s ≠ []) : ¬ s.length < 1 := by
  cases s with
  | nil => exact absurd rfl h
  | cons c t => simp

theorem perform_load_error (args : Arguments) (rng : Users → Slice GoString) (w w1 : World)
    (path op : GoString) (users : Users) (err : Error)
    (hfile : args.lookup (lit "fileName") = some path) (hpath : path ≠ [])
    (hop : args.lookup (lit "operation") = some op) (hopne : op ≠ [])
    (hload : LoadDB w path = ((users, some err), w1)) :
    Perform args rng w = (some err, w1) := by
  unfold Perform
  simp only [arguments_index_some args _ _ hfile, arguments_index_some args _ _ hop,
    not_true_eq_false, false_or, length_lt_one_of_ne_nil path hpath,
    length_lt_one_of_ne_nil op hopne, if_false, hload]

theorem perform_remove_eq (args : Arguments) (rng : Users → Slice GoString) (w w1 : World)
    (path id : GoString) (users : Users)
    (hfile : args.lookup (lit "fileName") = some path) (hpath : path ≠ [])
    (hop : args.lookup (lit "operation") = some (lit "remove"))
    (hid : args.lookup (lit "id") = some id) (hidne : id ≠ [])
    (hload : LoadDB w path = ((users, none), w1)) :
    Perform args rng w
      = (none, (SaveDB (match (Users.Remove users id).2 with
          | some err => w1.Write err.message
          | none => w1) path (Users.Remove users id).1 (rng (Users.Remove users id).1)).2) := by
  have h1 : ¬ (lit "remove").length < 1 := by decide
  have h2 : lit "remove" ≠ lit "add" := by decide
  unfold Perform
  simp only [arguments_index_some args _ _ hfile, arguments_index_some args _ _ hop,
    arguments_index_some args _ _ hid, not_true_eq_false, false_or,
    length_lt_one_of_ne_nil path hpath, length_lt_one_of_ne_nil id hidne, h1, h2, if_false,
    hload, if_true]
  try rfl

theorem perform_missing_id (args : Arguments) (rng : Users → Slice GoString) (w w1 : World)
    (path op : GoString) (users : Users)
    (hfile : args.lookup (lit "fileName") = some path) (hpath : path ≠ [])
    (hop : args.lookup (lit "operation") = some op)
    (hwhich : op = lit "remove" ∨ op = lit "findById")
    (hid : args.lookup (lit "id") = none ∨ args.lookup (lit "id") = some [])
    (hload : LoadDB w path = ((users, none), w1)) :
    Perform args rng w = (some (Error.text (lit "-id flag has to be specified")), w1) := by
  have hmiss := arguments_index_missing args _ hid
  have h1 : ¬ (lit "remove").length < 1 := by decide
  have h2 : lit "remove" ≠ lit "add" := by decide
  have h3 : ¬ (lit "findById").length < 1 := by decide
  have h4 : lit "findById" ≠ lit "add" := by decide
  have h5 : lit "findById" ≠ lit "remove" := by decide
  have h6 : lit "findById" ≠ lit "list" := by decide
  unfold Perform
  rcases hwhich with rfl | rfl
  · simp only [arguments_index_some args _ _ hfile, arguments_index_some args _ _ hop,
      not_true_eq_false, false_or, length_lt_one_of_ne_nil path hpath, h1, h2, if_false,
      hload, if_true, hmiss]
  · simp only [arguments_index_some args _ _ hfile, arguments_index_some args _ _ hop,
      not_true_eq_false, false_or, length_lt_one_of_ne_nil path hpath, h3, h4, h5, h6,
      if_false, hload, if_true, hmiss]

theorem perform_list_eq (args : Arguments) (rng : Users → Slice GoString) (w w1 : World)
    (path : GoString) (users : Users)
    (hfile : args.lookup (lit "fileName") = some path) (hpath : path ≠ [])
    (hop : args.lookup (lit "operation") = some (lit "list"))
    (hload : LoadDB w path = ((users, none), w1)) :
    Perform args rng w = (none, w1.Write (json.MarshalUsers (Users.List users (rng users)).1).1) := by
  have h1 : ¬ (lit "list").length < 1 := by decide
  have h2 : lit "list" ≠ lit "add" := by decide
  have h3 : lit "list" ≠ lit "remove" := by decide
  unfold Perform
  simp only [arguments_index_some args _ _ hfile, arguments_index_some args _ _ hop,
    not_true_eq_false, false_or, length_lt_one_of_ne_nil path hpath, h1, h2, h3, if_false,
    hload, if_true, Users.ToString, json.MarshalUsers]

theorem toString_no_error (user : User) : (User.ToString user).2 = none := by
  unfold User.ToString
  split_ifs <;> rfl

theorem perform_find_eq (args : Arguments) (rng : Users → Slice GoString) (w w1 : World)
    (path id : GoString) (users : Users)
    (hfile : args.lookup (lit "fileName") = some path) (hpath : path ≠ [])
    (hop : args.lookup (lit "operation") = some (lit "findById"))
    (hid : args.lookup (lit "id") = some id) (hidne : id ≠ [])
    (hload : LoadDB w path = ((users, none), w1)) :
    Perform args rng w = (none, w1.Write (User.ToString (Users.Find users id)).1) := by
  have h3 : ¬ (lit "findById").length < 1 := by decide
  have h4 : lit "findById" ≠ lit "add" := by decide
  have h5 : lit "findById" ≠ lit "remove" := by decide
  have h6 : lit "findById" ≠ lit "list" := by decide
  have hts : User.ToString (Users.Find users id)
      = ((User.ToString (Users.Find users id)).1, none) :=
    Prod.ext rfl (toString_no_error _)
  unfold Perform
  simp only [arguments_index_some args _ _ hfile, arguments_index_some args _ _ hop,
    arguments_index_some args _ _ hid, not_true_eq_false, false_or,
    length_lt_one_of_ne_nil path hpath, length_lt_one_of_ne_nil id hidne, h3, h4, h5, h6,
    if_false, hload, if_true]
  rw [hts]

theorem perform_unknown (args : Arguments) (rng : Users → Slice GoString) (w w1 : World)
    (path op : GoString) (users : Users)
    (hfile : args.lookup (lit "fileName") = some path) (hpath : path ≠ [])
    (hop : args.lookup (lit "operation") = some op) (hopne : op ≠ [])
    (h1 : op ≠ lit "add") (h2 : op ≠ lit "remove") (h3 : op ≠ lit "list")
    (h4 : op ≠ lit "findById")
    (hload : LoadDB w path = ((users, none), w1)) :
    Perform args rng w
      = (some (Error.text (lit "Operation " ++ op ++ lit " not allowed!")), w1) := by
  unfold Perform
  simp only [arguments_index_some args _ _ hfile, arguments_index_some args _ _ hop,
    not_true_eq_false, false_or, length_lt_one_of_ne_nil path hpath,
    length_lt_one_of_ne_nil op hopne, h1, h2, h3, h4, if_false, hload]

theorem loadDB_eq_of_loads (w : World) (path : GoString) (h : (LoadDB w path).1.2 = none) :
    LoadDB w path = (((LoadDB w path).1.1, none),
      { w with trace := w.trace ++ [Event.readFile path] }) :=
  Prod.ext (Prod.ext rfl h) (loadDB_world w path)

/-- Claim C11.  With a non-empty `fileName` whose file loads and an operation
that is non-empty and none of `add`, `remove`, `list`, `findById`, `Perform`
returns the error "Operation <operation> not allowed!", writes nothing to the
output sink and leaves every file as it was: the only call it makes is the
read of the file. -/
theorem perform_unknown_operation (args : Arguments) (rng : Users → Slice GoString)
    (w : World) (path op : GoString)
    (hfile : args.lookup (lit "fileName") = some path) (hpath : path ≠ [])
    (hop : args.lookup (lit "operation") = some op) (hopne : op ≠ [])
    (h1 : op ≠ lit "add") (h2 : op ≠ lit "remove") (h3 : op ≠ lit "list")
    (h4 : op ≠ lit "findById") (hloads : (LoadDB w path).1.2 = none) :
    (Perform args rng w).1
        = some (Error.text (lit "Operation " ++ op ++ lit " not allowed!"))
      ∧ (Perform args rng w).2.out = w.out
      ∧ (Perform args rng w).2.files = w.files
      ∧ (Perform args rng w).2.trace = w.trace ++ [Event.readFile path] := by
  have hp := perform_unknown args rng w _ path op _ hfile hpath hop hopne h1 h2 h3 h4
    (loadDB_eq_of_loads w path hloads)
  rw [hp]
  exact ⟨rfl, rfl, rfl, rfl⟩

theorem perform_unknown_operation_witness :
    unknownArgs.lookup (lit "fileName") = some (lit "t.json") ∧ lit "t.json" ≠ []
      ∧ unknownArgs.lookup (lit "operation") = some (lit "update") ∧ lit "update" ≠ []
      ∧ lit "update" ≠ lit "add" ∧ lit "update" ≠ lit "remove" ∧ lit "update" ≠ lit "list"
      ∧ lit "update" ≠ lit "findById" ∧ (LoadDB emptyWorld (lit "t.json")).1.2 = none
      ∧ ((Perform unknownArgs keysOrder emptyWorld).1
          = some (Error.text (lit "Operation " ++ lit "update" ++ lit " not allowed!"))
        ∧ (Perform unknownArgs keysOrder emptyWorld).2.out = emptyWorld.out
        ∧ (Perform unknownArgs keysOrder emptyWorld).2.files = emptyWorld.files
        ∧ (Perform unknownArgs keysOrder emptyWorld).2.trace
            = emptyWorld.trace ++ [Event.readFile (lit "t.json")]) :=
  ⟨by decide, by decide, by decide, by decide, by decide, by decide, by decide, by decide,
    by decide,
    perform_unknown_operation unknownArgs keysOrder emptyWorld (lit "t.json") (lit "update")
      (by decide) (by decide) (by decide) (by decide) (by decide) (by decide) (by decide)
      (by decide) (by decide)⟩

theorem perform_no_fileName (args : Arguments) (rng : Users → Slice GoString) (w : World)
    (h : args.lookup (lit "fileName") = none ∨ args.lookup (lit "fileName") = some []) :
    Perform args rng w = (some (Error.text (lit "-fileName flag has to be specified")), w) := by
  have hfile := arguments_index_missing args _ h
  unfold Perform
  simp only [hfile, if_true]

/-- The worlds that `Perform` can leave for the operations `list` and
`findById`: the world it was given, that world after the read of the file, or
that world after the read and one write to the output sink. -/
theorem perform_read_only_world (args : Arguments) (rng : Users → Slice GoString) (w : World)
    (hop : args.lookup (lit "operation") = some (lit "list")
      ∨ args.lookup (lit "operation") = some (lit "findById")) :
    (Perform args rng w).2 = w
      ∨ (∃ path, (Perform args rng w).2 = { w with trace := w.trace ++ [Event.readFile path] })
      ∨ (∃ path p, (Perform args rng w).2
          = ({ w with trace := w.trace ++ [Event.readFile path] } : World).Write p) := by
  by_cases hf : args.lookup (lit "fileName") = none ∨ args.lookup (lit "fileName") = some []
  · left
    rw [perform_no_fileName args rng w hf]
  · obtain ⟨path, hfile, hpath⟩ : ∃ path, args.lookup (lit "fileName") = some path ∧ path ≠ [] := by
      cases hl : args.lookup (lit "fileName") with
      | none => exact absurd (Or.inl hl) hf
      | some v => exact ⟨v, rfl, fun hv => hf (Or.inr (by rw [hl, hv]))⟩
    have hopne : ∀ op, args.lookup (lit "operation") = some op →
        (op = lit "list" ∨ op = lit "findById") → op ≠ [] := by
      intro op _ hw
      rcases hw with rfl | rfl <;> decide
    cases hl : (LoadDB w path).1.2 with
    | some err =>
      right; left
      refine ⟨path, ?_⟩
      have hload : LoadDB w path = (((LoadDB w path).1.1, some err),
          { w with trace := w.trace ++ [Event.readFile path] }) :=
        Prod.ext (Prod.ext rfl hl) (loadDB_world w path)
      rcases hop with hop | hop
      · rw [perform_load_error args rng w _ path _ _ err hfile hpath hop (by decide) hload]
      · rw [perform_load_error args rng w _ path _ _ err hfile hpath hop (by decide) hload]
    | none =>
      have hload := loadDB_eq_of_loads w path hl
      rcases hop with hop | hop
      · right; right
        exact ⟨path, _, by rw [perform_list_eq args rng w _ path _ hfile hpath hop hload]⟩
      · by_cases hid : args.lookup (lit "id") = none ∨ args.lookup (lit "id") = some []
        · right; left
          exact ⟨path, by
            rw [perform_missing_id args rng w _ path _ _ hfile hpath hop (Or.inr rfl) hid hload]⟩
        · obtain ⟨id, hidv, hidne⟩ : ∃ id, args.lookup (lit "id") = some id ∧ id ≠ [] := by
            cases hl2 : args.lookup (lit "id") with
            | none => exact absurd (Or.inl hl2) hid
            | some v => exact ⟨v, rfl, fun hv => hid (Or.inr (by rw [hl2, hv]))⟩
          right; right
          exact ⟨path, _, by
            rw [perform_find_eq args rng w _ path id _ hfile hpath hop hidv hidne hload]⟩

/-- Claim C13.  For every arguments map and every world, `Perform` with the
operation `list` or `findById` leaves every file as it was, whether it returns
an error or not: no save is performed (it makes no call of `os.WriteFile`). -/
theorem perform_list_and_find_do_not_save (args : Arguments)
    (rng : Users → Slice GoString) (w : World)
    (hop : args.lookup (lit "operation") = some (lit "list")
      ∨ args.lookup (lit "operation") = some (lit "findById")) :
    (Perform args rng w).2.files = w.files
      ∧ ∀ name data, Event.writeFile name data ∈ (Perform args rng w).2.trace →
          Event.writeFile name data ∈ w.trace := by
  rcases perform_read_only_world args rng w hop with h | ⟨path, h⟩ | ⟨path, p, h⟩
  · rw [h]; exact ⟨rfl, fun _ _ hm => hm⟩
  · rw [h]
    refine ⟨rfl, ?_⟩
    intro name data hm
    simp only [List.mem_append, List.mem_singleton] at hm
    rcases hm with hm | hm
    · exact hm
    · cases hm
  · rw [h]
    refine ⟨rfl, ?_⟩
    intro name data hm
    simp only [World.Write, List.mem_append, List.mem_singleton] at hm
    rcases hm with (hm | hm) | hm
    · exact hm
    · cases hm
    · cases hm

theorem perform_list_and_find_do_not_save_witness :
    (listArgs.lookup (lit "operation") = some (lit "list")
      ∨ listArgs.lookup (lit "operation") = some (lit "findById"))
    ∧ ((Perform listArgs keysOrder emptyWorld).2.files = emptyWorld.files
      ∧ ∀ name data, Event.writeFile name data ∈ (Perform listArgs keysOrder emptyWorld).2.trace →
          Event.writeFile name data ∈ emptyWorld.trace) :=
  ⟨by decide, perform_list_and_find_do_not_save listArgs keysOrder emptyWorld (by decide)⟩

/-- Claim C15.  With a non-empty `fileName` whose file loads, the operation
`remove` or `findById`, and `id` absent or empty, `Perform` returns the error
"-id flag has to be specified", writes nothing to the output sink and does not
save: the only call it makes is the read of the file.  The invocation of `main`
(operation `remove`, file `test.json`, id `""`) is such a case: whatever
`test.json` holds, `main` leaves every file as it was, and it gets that error
whenever the file loads. -/
theorem perform_requires_id (args : Arguments) (rng : Users → Slice GoString) (w : World)
    (path op : GoString)
    (hfile : args.lookup (lit "fileName") = some path) (hpath : path ≠ [])
    (hop : args.lookup (lit "operation") = some op)
    (hwhich : op = lit "remove" ∨ op = lit "findById")
    (hid : args.lookup (lit "id") = none ∨ args.lookup (lit "id") = some [])
    (hloads : (LoadDB w path).1.2 = none) :
    ((Perform args rng w).1 = some (Error.text (lit "-id flag has to be specified"))
      ∧ (Perform args rng w).2.out = w.out
      ∧ (Perform args rng w).2.files = w.files
      ∧ (Perform args rng w).2.trace = w.trace ++ [Event.readFile path])
    ∧ (mainArguments.lookup (lit "fileName") = some (lit "test.json")
      ∧ mainArguments.lookup (lit "operation") = some (lit "remove")
      ∧ mainArguments.lookup (lit "id") = some []
      ∧ ∀ (rng1 : Users → Slice GoString) (w1 : World),
          (Program.main rng1 w1).2.files = w1.files
          ∧ (Program.main rng1 w1).2.out = w1.out
          ∧ ((LoadDB w1 (lit "test.json")).1.2 = none →
              (Program.main rng1 w1).1
                = some (Error.text (lit "-id flag has to be specified")))) := by
  have hp := perform_missing_id args rng w _ path op _ hfile hpath hop hwhich hid
    (loadDB_eq_of_loads w path hloads)
  refine ⟨by rw [hp]; exact ⟨rfl, rfl, rfl, rfl⟩, by decide, by decide, by decide, ?_⟩
  intro rng1 w1
  have m1 : mainArguments.lookup (lit "fileName") = some (lit "test.json") := by decide
  have m2 : mainArguments.lookup (lit "operation") = some (lit "remove") := by decide
  have m3 : mainArguments.lookup (lit "id") = some [] := by decide
  unfold Program.main
  cases hl : (LoadDB w1 (lit "test.json")).1.2 with
  | some err =>
    have hload : LoadDB w1 (lit "test.json") = (((LoadDB w1 (lit "test.json")).1.1, some err),
        { w1 with trace := w1.trace ++ [Event.readFile (lit "test.json")] }) :=
      Prod.ext (Prod.ext rfl hl) (loadDB_world w1 _)
    rw [perform_load_error mainArguments rng1 w1 _ _ _ _ err m1 (by decide) m2 (by decide)
      hload]
    exact ⟨rfl, rfl, fun h => by cases h⟩
  | none =>
    rw [perform_missing_id mainArguments rng1 w1 _ _ _ _ m1 (by decide) m2 (Or.inl rfl)
      (Or.inr m3) (loadDB_eq_of_loads w1 _ hl)]
    exact ⟨rfl, rfl, fun _ => rfl⟩

theorem perform_requires_id_witness :
    findNoIdArgs.lookup (lit "fileName") = some (lit "t.json") ∧ lit "t.json" ≠ []
      ∧ findNoIdArgs.lookup (lit "operation") = some (lit "findById")
      ∧ (lit "findById" = lit "remove" ∨ lit "findById" = lit "findById")
      ∧ (findNoIdArgs.lookup (lit "id") = none ∨ findNoIdArgs.lookup (lit "id") = some [])
      ∧ (LoadDB emptyWorld (lit "t.json")).1.2 = none
      ∧ (Perform findNoIdArgs keysOrder emptyWorld).1
          = some (Error.text (lit "-id flag has to be specified"))
      ∧ (Program.main keysOrder emptyWorld).2.files = emptyWorld.files :=
  ⟨by decide, by decide, by decide, by decide, by decide, by decide,
    (perform_requires_id findNoIdArgs keysOrder emptyWorld (lit "t.json") (lit "findById")
      (by decide) (by decide) (by decide) (by decide) (by decide) (by decide)).1.1,
    ((perform_requires_id findNoIdArgs keysOrder emptyWorld (lit "t.json") (lit "findById")
      (by decide) (by decide) (by decide) (by decide) (by decide)
      (by decide)).2.2.2.2 keysOrder emptyWorld).1⟩

/-! ## `Perform`: operation `remove` -/

theorem listStep_foldl_nil (users : Users) : ∀ (order : Slice GoString) (i : Nat),
    (order.foldl (Users.listStep users) ([], i)).1 = [] := by
  intro order
  induction order with
  | nil => intro i; rfl
  | cons key rest ih =>
    intro i
    simp only [List.foldl_cons, Users.listStep, List.set_nil]
    exact ih (i + 1)

/-- For a store without records `List` returns the empty slice, whatever the
order of `range`. -/
theorem list_of_empty (users : Users) (order : Slice GoString) (h : Users.len users = 0) :
    (Users.List users order).1 = [] := by
  simp only [Users.List, h, List.replicate_zero]
  exact listStep_foldl_nil users order 0

theorem marshalUsers_nil : (json.MarshalUsers []).1 = lit "[]" := by decide

theorem saveDB_of_write_fails (w : World) (path : GoString) (users : Users)
    (order : Slice GoString) (code : Nat)
    (hwrite : w.writeFails path = some (WriteFault.atOpen code)) :
    (SaveDB w path users order).2.files = w.files
      ∧ (SaveDB w path users order).2.out = w.out
      ∧ (SaveDB w path users order).2.trace
          = w.trace ++ [Event.writeFile path (json.MarshalUsers (Users.List users order).1).1] := by
  simp only [SaveDB, json.MarshalUsers, os.WriteFile, hwrite, and_self]

theorem saveDB_trace (w : World) (path : GoString) (users : Users) (order : Slice GoString) :
    (SaveDB w path users order).2.trace
      = w.trace ++ [Event.writeFile path (json.MarshalUsers (Users.List users order).1).1] := by
  cases hw : w.writeFails path with
  | none => simp only [SaveDB, json.MarshalUsers, os.WriteFile, hw]
  | some fault => cases fault <;> simp only [SaveDB, json.MarshalUsers, os.WriteFile, hw]

/-- Claim C14, as amended.  For every store file whose content decodes to
exactly one record, with non-empty id `X`, and at which the write succeeds,
`Perform` with the operation `remove` and the id `X` returns success, writes
nothing to the output sink, and leaves the file with the content `[]`. -/
theorem perform_remove_last_record (args : Arguments) (rng : Users → Slice GoString)
    (w : World) (path content id : GoString) (user : User)
    (hfile : args.lookup (lit "fileName") = some path) (hpath : path ≠ [])
    (hop : args.lookup (lit "operation") = some (lit "remove"))
    (hid : args.lookup (lit "id") = some id) (hidne : id ≠ [])
    (hdata : w.files path = File.data content)
    (hdec : json.UnmarshalUsers content = ([user], none)) (huser : user.Id = id)
    (hwrite : w.writeFails path = none) :
    (Perform args rng w).1 = none
      ∧ (Perform args rng w).2.out = w.out
      ∧ (Perform args rng w).2.files path = File.data (lit "[]") := by
  have hload : LoadDB w path = (((∅ : Users).insert user.Id user, none),
      { w with trace := w.trace ++ [Event.readFile path] }) := by
    refine Prod.ext ?_ (loadDB_world w path)
    rw [loadDB_of_data w path content hdata, hdec]
    rfl
  have hrem : Users.Remove ((∅ : Users).insert user.Id user) id
      = (((∅ : Users).insert user.Id user).erase id, none) := by
    have hmem : id ∈ (∅ : Users).insert user.Id user := by
      rw [AList.mem_insert]; exact Or.inl huser.symm
    unfold Users.Remove
    rw [if_neg (not_not.mpr (index_of_mem hmem))]
  have hlen : Users.len (((∅ : Users).insert user.Id user).erase id) = 0 := by
    have hmem : id ∈ (∅ : Users).insert user.Id user := by
      rw [AList.mem_insert]; exact Or.inl huser.symm
    have h1 := alist_length_erase ((∅ : Users).insert user.Id user) id hmem
    rw [AList.insert_entries_of_neg (AList.not_mem_empty user.Id)] at h1
    simp only [AList.empty_entries, List.length_singleton] at h1
    unfold Users.len
    omega
  have hp := perform_remove_eq args rng w _ path id _ hfile hpath hop hid hidne hload
  rw [hrem] at hp
  simp only at hp
  have hsave := saveDB_of_write_ok { w with trace := w.trace ++ [Event.readFile path] } path
    (((∅ : Users).insert user.Id user).erase id)
    (rng (((∅ : Users).insert user.Id user).erase id)) hwrite (Or.inr ⟨content, hdata⟩)
  rw [list_of_empty _ _ hlen, marshalUsers_nil] at hsave
  rw [hp]
  exact ⟨rfl, hsave.2.2.2.1, hsave.2.1⟩

theorem perform_remove_last_record_witness :
    removeArgs.lookup (lit "fileName") = some (lit "t.json") ∧ lit "t.json" ≠ []
      ∧ removeArgs.lookup (lit "operation") = some (lit "remove")
      ∧ removeArgs.lookup (lit "id") = some (lit "1") ∧ lit "1" ≠ []
      ∧ fileWorld.files (lit "t.json") = File.data sampleFile
      ∧ json.UnmarshalUsers sampleFile = ([sampleUser], none) ∧ sampleUser.Id = lit "1"
      ∧ fileWorld.writeFails (lit "t.json") = none
      ∧ ((Perform removeArgs keysOrder fileWorld).1 = none
        ∧ (Perform removeArgs keysOrder fileWorld).2.out = fileWorld.out
        ∧ (Perform removeArgs keysOrder fileWorld).2.files (lit "t.json")
            = File.data (lit "[]")) :=
  ⟨by decide, by decide, by decide, by decide, by decide, by decide, by decide, by decide, rfl,
    perform_remove_last_record removeArgs keysOrder fileWorld (lit "t.json") sampleFile
      (lit "1") sampleUser (by decide) (by decide) (by decide) (by decide) (by decide)
      (by decide) (by decide) (by decide) rfl⟩

/-- Claim C14, as stated, fails.  Where the file holds exactly one record and
cannot be written (it is read-only), `Perform` with the operation `remove` and
the id of the record still returns success, and the file keeps its content,
which is not `[]`: the error of `SaveDB` is dropped. -/
theorem perform_remove_keeps_file_when_write_fails :
    lockedFileWorld.files (lit "t.json") = File.data sampleFile
      ∧ json.UnmarshalUsers sampleFile = ([sampleUser], none) ∧ sampleUser.Id = lit "1"
      ∧ removeArgs.lookup (lit "fileName") = some (lit "t.json")
      ∧ removeArgs.lookup (lit "operation") = some (lit "remove")
      ∧ removeArgs.lookup (lit "id") = some (lit "1")
      ∧ (Perform removeArgs keysOrder lockedFileWorld).1 = none
      ∧ (Perform removeArgs keysOrder lockedFileWorld).2.files (lit "t.json")
          = File.data sampleFile
      ∧ File.data sampleFile ≠ File.data (lit "[]") := by
  refine ⟨by decide, by decide, by decide, by decide, by decide, by decide, by decide,
    by decide, by decide⟩

/-! ## `Perform`: errors of `Add` and `Remove` that are reported and not returned -/

theorem loadDB_congr (w1 w2 : World) (path : GoString) (h : w1.files path = w2.files path) :
    (LoadDB w1 path).1 = (LoadDB w2 path).1 := by
  cases hf : w2.files path with
  | absent => rw [hf] at h; simp [LoadDB, os.ReadFile, hf, h, Error.isNotExist]
  | data content =>
    rw [hf] at h
    rw [loadDB_of_data w1 path content h, loadDB_of_data w2 path content hf]
  | unreadable code => rw [hf] at h; simp [LoadDB, os.ReadFile, hf, h, Error.isNotExist]
  | sink => rw [hf] at h; simp [LoadDB, os.ReadFile, hf, h]

theorem keyed_ids_nodup (users : Users) (h : Users.keyedById users) :
    ((Users.values users).map User.Id).Nodup := by
  have hk : (Users.values users).map User.Id = users.keys := by
    unfold Users.values AList.keys List.keys
    rw [List.map_map]
    apply List.map_congr_left
    intro e he
    exact (h e he).symm
  rw [hk]
  exact users.keys_nodup

theorem fill_values_mem : ∀ (slice : Slice User) (users : Users) (u : User),
    u ∈ Users.values (LoadDB.fill slice users) → u ∈ slice ∨ u ∈ Users.values users := by
  intro slice
  induction slice with
  | nil => intro users u h; exact Or.inr h
  | cons v vs ih =>
    intro users u h
    have hstep : LoadDB.fill (v :: vs) users = LoadDB.fill vs (users.insert v.Id v) := rfl
    rw [hstep] at h
    rcases ih _ u h with h1 | h1
    · exact Or.inl (List.mem_cons_of_mem _ h1)
    · unfold Users.values at h1
      rw [AList.insert_entries, List.map_cons, List.mem_cons] at h1
      rcases h1 with h2 | h2
      · left; rw [h2]; exact List.mem_cons_self _ _
      · right
        obtain ⟨e, he, rfl⟩ := List.mem_map.mp h2
        exact List.mem_map_of_mem _ ((List.kerase_sublist _ _).subset he)

theorem mem_fill_of_mem (key : GoString) : ∀ (slice : Slice User) (users : Users),
    ((∃ u ∈ slice, u.Id = key) ∨ key ∈ users) → key ∈ LoadDB.fill slice users := by
  intro slice
  induction slice with
  | nil =>
    intro users h
    rcases h with ⟨u, hu, _⟩ | h
    · cases hu
    · exact h
  | cons v vs ih =>
    intro users h
    have hstep : LoadDB.fill (v :: vs) users = LoadDB.fill vs (users.insert v.Id v) := rfl
    rw [hstep]
    apply ih
    rcases h with ⟨u, hu, hk⟩ | h
    · rcases List.mem_cons.mp hu with rfl | hu1
      · right; rw [AList.mem_insert]; exact Or.inl hk.symm
      · left; exact ⟨u, hu1, hk⟩
    · right; rw [AList.mem_insert]; exact Or.inr h

/-- The records of a store that `LoadDB` returns are well formed. -/
theorem loadDB_wellFormed (w : World) (path : GoString) :
    ∀ u ∈ Users.values (LoadDB w path).1.1, u.wellFormed := by
  intro u hu
  rcases loadDB_store w path with h | ⟨content, _, h⟩
  · rw [h] at hu; cases hu
  · rw [h] at hu
    rcases fill_values_mem _ _ u hu with h1 | h1
    · exact unmarshalUsers_wellFormed content u h1
    · cases h1

/-- Saving a store of well-formed records under their ids, where the path
names no file or a regular file that can be read and the write succeeds, and
loading it again gives the same records. -/
theorem save_load_perm (w : World) (path : GoString) (users : Users)
    (order : Slice GoString)
    (hfile : w.files path = File.absent ∨ ∃ content, w.files path = File.data content)
    (hwrite : w.writeFails path = none)
    (horder : order.Perm users.keys)
    (hwf : ∀ u ∈ Users.values users, u.wellFormed)
    (hids : ((Users.values users).map User.Id).Nodup) :
    (LoadDB (SaveDB w path users order).2 path).1.2 = none
      ∧ (Users.values (LoadDB (SaveDB w path users order).2 path).1.1).Perm
          (Users.values users) := by
  have hsave := saveDB_of_write_ok w path users order hwrite hfile
  have hperm := list_perm_values users order horder
  have hwf1 : ∀ u ∈ (Users.List users order).1, u.wellFormed :=
    fun u hu => hwf u (hperm.mem_iff.mp hu)
  have hids1 : (((Users.List users order).1).map User.Id).Nodup :=
    (hperm.map User.Id).nodup_iff.mpr hids
  have hload := loadDB_of_data _ path _ hsave.2.1
  rw [unmarshalUsers_marshalUsers _ hwf1] at hload
  refine ⟨by rw [hload], ?_⟩
  rw [hload]
  simp only
  rw [fill_values _ hids1]
  exact (List.reverse_perm _).trans hperm

/-- Saving the store that was loaded from a regular file back to the file
leaves a file that holds the same records, where the write succeeds and where
it fails at the open; a write that fails after the open is excluded. -/
theorem save_loaded_store (w w2 : World) (path content : GoString) (order : Slice GoString)
    (hdata : w.files path = File.data content) (hfiles : w2.files = w.files)
    (hwrite : ∀ code kept, w2.writeFails path ≠ some (WriteFault.afterOpen code kept))
    (horder : order.Perm (LoadDB w path).1.1.keys) :
    (LoadDB (SaveDB w2 path (LoadDB w path).1.1 order).2 path).1.2 = none
      ∧ (Users.values (LoadDB (SaveDB w2 path (LoadDB w path).1.1 order).2 path).1.1).Perm
          (Users.values (LoadDB w path).1.1) := by
  have hloads : (LoadDB w path).1.2 = none := by rw [loadDB_of_data w path content hdata]
  cases hw : w2.writeFails path with
  | none =>
    exact save_load_perm w2 path _ order (Or.inr ⟨content, by rw [hfiles]; exact hdata⟩) hw
      horder (loadDB_wellFormed w path) (keyed_ids_nodup _ (keyed_loadDB w path))
  | some fault =>
    cases fault with
    | atOpen code =>
      have hsave := saveDB_of_write_fails w2 path (LoadDB w path).1.1 order code hw
      have hc := loadDB_congr (SaveDB w2 path (LoadDB w path).1.1 order).2 w path
        (by rw [hsave.1, hfiles])
      rw [hc]
      exact ⟨hloads, List.Perm.refl _⟩
    | afterOpen code kept => exact absurd hw (hwrite code kept)

theorem saveDB_out (w : World) (path : GoString) (users : Users) (order : Slice GoString) :
    (SaveDB w path users order).2.out = w.out := by
  cases hw : w.writeFails path with
  | none => simp only [SaveDB, json.MarshalUsers, os.WriteFile, hw]
  | some fault => cases fault <;> simp only [SaveDB, json.MarshalUsers, os.WriteFile, hw]

/-- What `Perform` leaves behind when `Add` or `Remove` has returned the error
with the message `msg` and the store as it was loaded from a regular file. -/
theorem perform_reported (w : World) (path content msg : GoString) (order : Slice GoString)
    (hdata : w.files path = File.data content)
    (horder : order.Perm (LoadDB w path).1.1.keys) :
    (SaveDB (World.Write { w with trace := w.trace ++ [Event.readFile path] } msg) path
        (LoadDB w path).1.1 order).2.out = w.out ++ [msg]
      ∧ (SaveDB (World.Write { w with trace := w.trace ++ [Event.readFile path] } msg) path
          (LoadDB w path).1.1 order).2.trace
          = w.trace ++ [Event.readFile path, Event.write msg, Event.writeFile path
              (json.MarshalUsers (Users.List (LoadDB w path).1.1 order).1).1]
      ∧ ((∀ code kept, w.writeFails path ≠ some (WriteFault.afterOpen code kept)) →
        (LoadDB (SaveDB (World.Write { w with trace := w.trace ++ [Event.readFile path] } msg)
            path (LoadDB w path).1.1 order).2 path).1.2 = none
          ∧ (Users.values (LoadDB (SaveDB (World.Write
              { w with trace := w.trace ++ [Event.readFile path] } msg)
              path (LoadDB w path).1.1 order).2 path).1.1).Perm
              (Users.values (LoadDB w path).1.1)) := by
  refine ⟨?_, ?_, ?_⟩
  · rw [saveDB_out]; rfl
  · rw [saveDB_trace]
    simp [World.Write]
  · intro hwrite
    exact save_loaded_store w _ path content order hdata rfl hwrite horder

/-- Claim C12, as amended.  Where the store file holds a record with the id
`X`, `Perform` with the operation `add` and an item that decodes to a record
with the id `X` returns success, writes exactly "Item with id X already
exists" to the output sink, and still calls `SaveDB` with the loaded store;
where the loaded store has no record with the non-empty id `X`, `Perform` with
the operation `remove` and the id `X` returns success, writes exactly "Item
with id X not found", and still calls `SaveDB` with the loaded store.  In both
cases, where the write does not fail after the file has been opened (it
succeeds, or it fails at the open, which changes nothing), the file afterwards
loads without error to the same records as before. -/
theorem perform_reports_and_saves (rng : Users → Slice GoString) (w : World)
    (path content X : GoString) (hpath : path ≠ [])
    (hdata : w.files path = File.data content)
    (hrng : ∀ users : Users, (rng users).Perm users.keys) :
    (∀ (args : Arguments) (item : GoString) (user : User),
      args.lookup (lit "fileName") = some path →
      args.lookup (lit "operation") = some (lit "add") →
      args.lookup (lit "item") = some item →
      json.UnmarshalUser item = (user, none) → user.Id = X →
      (∃ u ∈ (json.UnmarshalUsers content).1, u.Id = X) →
      (Perform args rng w).1 = none
        ∧ (Perform args rng w).2.out
            = w.out ++ [lit "Item with id " ++ X ++ lit " already exists"]
        ∧ (Perform args rng w).2.trace
            = w.trace ++ [Event.readFile path,
                Event.write (lit "Item with id " ++ X ++ lit " already exists"),
                Event.writeFile path (json.MarshalUsers (Users.List (LoadDB w path).1.1
                  (rng (LoadDB w path).1.1)).1).1]
        ∧ ((∀ code kept, w.writeFails path ≠ some (WriteFault.afterOpen code kept)) →
          (LoadDB (Perform args rng w).2 path).1.2 = none
            ∧ (Users.values (LoadDB (Perform args rng w).2 path).1.1).Perm
                (Users.values (LoadDB w path).1.1)))
    ∧ (∀ (args : Arguments),
      args.lookup (lit "fileName") = some path →
      args.lookup (lit "operation") = some (lit "remove") →
      args.lookup (lit "id") = some X → X ≠ [] →
      X ∉ (LoadDB w path).1.1 →
      (Perform args rng w).1 = none
        ∧ (Perform args rng w).2.out = w.out ++ [lit "Item with id " ++ X ++ lit " not found"]
        ∧ (Perform args rng w).2.trace
            = w.trace ++ [Event.readFile path,
                Event.write (lit "Item with id " ++ X ++ lit " not found"),
                Event.writeFile path (json.MarshalUsers (Users.List (LoadDB w path).1.1
                  (rng (LoadDB w path).1.1)).1).1]
        ∧ ((∀ code kept, w.writeFails path ≠ some (WriteFault.afterOpen code kept)) →
          (LoadDB (Perform args rng w).2 path).1.2 = none
            ∧ (Users.values (LoadDB (Perform args rng w).2 path).1.1).Perm
                (Users.values (LoadDB w path).1.1))) := by
  have hloads : (LoadDB w path).1.2 = none := by rw [loadDB_of_data w path content hdata]
  have hload := loadDB_eq_of_loads w path hloads
  constructor
  · intro args item user hfile hop hitem hdec hid hheld
    have hmem : user.Id ∈ (LoadDB w path).1.1 := by
      rw [loadDB_of_data w path content hdata, hid]
      exact mem_fill_of_mem X _ _ (Or.inl hheld)
    have hadd : Users.Add (LoadDB w path).1.1 user = ((LoadDB w path).1.1,
        some (.text (lit "Item with id " ++ X ++ lit " already exists"))) := by
      unfold Users.Add
      rw [if_pos (index_of_mem hmem), hid]
    have hp := perform_add_eq args rng w _ path item user _ hfile hpath hop hitem hdec hload
    rw [hadd] at hp
    simp only [Error.message] at hp
    rw [hp]
    exact ⟨rfl, perform_reported w path content _ _ hdata (hrng _)⟩
  · intro args hfile hop hid hidne hnot
    have hrem : Users.Remove (LoadDB w path).1.1 X = ((LoadDB w path).1.1,
        some (.text (lit "Item with id " ++ X ++ lit " not found"))) := by
      unfold Users.Remove
      rw [if_pos (by rw [index_of_not_mem hnot]; simp)]
    have hp := perform_remove_eq args rng w _ path X _ hfile hpath hop hid hidne hload
    rw [hrem] at hp
    simp only [Error.message] at hp
    rw [hp]
    exact ⟨rfl, perform_reported w path content _ _ hdata (hrng _)⟩

theorem perform_reports_and_saves_witness :
    (lit "t.json" ≠ [] ∧ fileWorld.files (lit "t.json") = File.data sampleFile)
      ∧ ((Perform addArgs keysOrder fileWorld).1 = none
        ∧ (Perform addArgs keysOrder fileWorld).2.out
            = fileWorld.out ++ [lit "Item with id " ++ lit "1" ++ lit " already exists"]
        ∧ (Users.values (LoadDB (Perform addArgs keysOrder fileWorld).2
            (lit "t.json")).1.1).Perm (Users.values (LoadDB fileWorld (lit "t.json")).1.1))
      ∧ ((Perform removeMissingArgs keysOrder fileWorld).1 = none
        ∧ (Perform removeMissingArgs keysOrder fileWorld).2.out
            = fileWorld.out ++ [lit "Item with id " ++ lit "2" ++ lit " not found"]
        ∧ (Users.values (LoadDB (Perform removeMissingArgs keysOrder fileWorld).2
            (lit "t.json")).1.1).Perm (Users.values (LoadDB fileWorld (lit "t.json")).1.1)) :=
  ⟨⟨by decide, by decide⟩,
    ⟨((perform_reports_and_saves keysOrder fileWorld (lit "t.json") sampleFile (lit "1")
        (by decide) (by decide) (fun _ => List.Perm.refl _)).1 addArgs sampleItem sampleUser
        (by decide) (by decide) (by decide) (by decide) (by decide)
        ⟨sampleUser, by decide, by decide⟩).1,
      ((perform_reports_and_saves keysOrder fileWorld (lit "t.json") sampleFile (lit "1")
        (by decide) (by decide) (fun _ => List.Perm.refl _)).1 addArgs sampleItem sampleUser
        (by decide) (by decide) (by decide) (by decide) (by decide)
        ⟨sampleUser, by decide, by decide⟩).2.1,
      (((perform_reports_and_saves keysOrder fileWorld (lit "t.json") sampleFile (lit "1")
        (by decide) (by decide) (fun _ => List.Perm.refl _)).1 addArgs sampleItem sampleUser
        (by decide) (by decide) (by decide) (by decide) (by decide)
        ⟨sampleUser, by decide, by decide⟩).2.2.2
        (fun _ _ h => Option.noConfusion h)).2⟩,
    ⟨((perform_reports_and_saves keysOrder fileWorld (lit "t.json") sampleFile (lit "2")
        (by decide) (by decide) (fun _ => List.Perm.refl _)).2 removeMissingArgs
        (by decide) (by decide) (by decide) (by decide) (by decide)).1,
      ((perform_reports_and_saves keysOrder fileWorld (lit "t.json") sampleFile (lit "2")
        (by decide) (by decide) (fun _ => List.Perm.refl _)).2 removeMissingArgs
        (by decide) (by decide) (by decide) (by decide) (by decide)).2.1,
      (((perform_reports_and_saves keysOrder fileWorld (lit "t.json") sampleFile (lit "2")
        (by decide) (by decide) (fun _ => List.Perm.refl _)).2 removeMissingArgs
        (by decide) (by decide) (by decide) (by decide) (by decide)).2.2.2
        (fun _ _ h => Option.noConfusion h)).2⟩⟩

/-- Claim C12, as stated, fails, in each of two ways.  Where the write fails
after the file has been opened (the disk is full), `Perform` with the
operation `add` of a record whose id the file holds still returns success and
writes the message, and the file, which held one record, is left empty: the
open has truncated it and the error of `SaveDB` is dropped.  And the empty id
is absent from the loaded store, but `Perform` with the operation `remove` and
the empty id returns the error of the missing `id` flag and writes nothing. -/
theorem perform_reports_and_loses_records :
    (tornWriteWorld.files (lit "t.json") = File.data sampleFile
      ∧ Users.values (LoadDB tornWriteWorld (lit "t.json")).1.1 = [sampleUser]
      ∧ addArgs.lookup (lit "item") = some sampleItem
      ∧ json.UnmarshalUser sampleItem = (sampleUser, none)
      ∧ (Perform addArgs keysOrder tornWriteWorld).1 = none
      ∧ (Perform addArgs keysOrder tornWriteWorld).2.out
          = [lit "Item with id 1 already exists"]
      ∧ (Perform addArgs keysOrder tornWriteWorld).2.files (lit "t.json") = File.data []
      ∧ (LoadDB (Perform addArgs keysOrder tornWriteWorld).2 (lit "t.json")).1.2 = none
      ∧ Users.values (LoadDB (Perform addArgs keysOrder tornWriteWorld).2
          (lit "t.json")).1.1 = [])
    ∧ (removeEmptyIdArgs.lookup (lit "operation") = some (lit "remove")
      ∧ removeEmptyIdArgs.lookup (lit "id") = some []
      ∧ [] ∉ (LoadDB fileWorld (lit "t.json")).1.1
      ∧ (Perform removeEmptyIdArgs keysOrder fileWorld).1
          = some (Error.text (lit "-id flag has to be specified"))
      ∧ (Perform removeEmptyIdArgs keysOrder fileWorld).2.out = []) := by
  refine ⟨⟨by decide, by decide, by decide, by decide, by decide, by decide, by decide,
    by decide, by decide⟩, ⟨by decide, by decide, by decide, by decide, by decide⟩⟩

/-! ## `parseArgs` -/

theorem getLast?_cons_or {α : Type} (a : α) (l : List α) :
    (a :: l).getLast? = (l.getLast?).or (some a) := by
  cases l with
  | nil => rfl
  | cons b t =>
    rw [List.getLast?_cons_cons]
    cases h : (b :: t).getLast? with
    | none => simp at h
    | some x => rfl

theorem specFlagValue_cons (cmd value name : GoString) (rest : Slice GoString) :
    specFlagValue (cmd :: value :: rest) name
      = if cmd = name ∧ value ≠ [] then (specFlagValue rest name).or (some value)
        else specFlagValue rest name := by
  unfold specFlagValue
  rw [specFlagPairs, List.filter_cons]
  by_cases h : cmd = name ∧ value ≠ []
  · rw [if_pos h, if_pos (by simpa using h), List.map_cons, getLast?_cons_or]
  · rw [if_neg h, if_neg (by simpa using h)]

/-- The loop of `parseArgs` on a token list of even length: it ends, and a
flag has the value of its last pair with a non-empty value, or else the value
it had before the loop. -/
theorem parseArgs_loop_even : ∀ (n : Nat) (tokens : Slice GoString) (result : Arguments),
    tokens.length = 2 * n →
    ∃ r, parseArgs.loop tokens result = some r
      ∧ ∀ name, r.lookup name = (specFlagValue tokens name).or (result.lookup name) := by
  intro n
  induction n with
  | zero =>
    intro tokens result h
    have ht : tokens = [] := List.length_eq_zero.mp (by omega)
    subst ht
    exact ⟨result, rfl, fun name => rfl⟩
  | succ n ih =>
    intro tokens result h
    match tokens, h with
    | cmd :: value :: rest, h =>
      have hrest : rest.length = 2 * n := by simp only [List.length_cons] at h; omega
      obtain ⟨r, hr, hlook⟩ := ih rest
        (if value.length > 0 then result.insert cmd value else result) hrest
      refine ⟨r, by rw [parseArgs.loop]; exact hr, ?_⟩
      intro name
      rw [hlook name, specFlagValue_cons]
      by_cases hv : value = []
      · subst hv
        simp
      · have hpos : value.length > 0 := List.length_pos.mpr hv
        rw [if_pos hpos]
        by_cases hc : cmd = name
        · subst hc
          rw [if_pos ⟨rfl, hv⟩, AList.lookup_insert]
          cases specFlagValue rest cmd <;> rfl
        · rw [if_neg (fun h => hc h.1), AList.lookup_insert_ne (fun h => hc h.symm)]

/-- The loop of `parseArgs` on a token list of odd length reads past the end
of the list. -/
theorem parseArgs_loop_odd : ∀ (n : Nat) (tokens : Slice GoString) (result : Arguments),
    tokens.length = 2 * n + 1 → parseArgs.loop tokens result = none := by
  intro n
  induction n with
  | zero =>
    intro tokens result h
    match tokens, h with
    | [_], _ => rfl
  | succ n ih =>
    intro tokens result h
    match tokens, h with
    | cmd :: value :: rest, h =>
      have hrest : rest.length = 2 * n + 1 := by simp only [List.length_cons] at h; omega
      rw [parseArgs.loop]
      exact ih rest _ hrest

theorem specFlagValue_isSome (tokens : Slice GoString) (name : GoString) :
    (specFlagValue tokens name).isSome
      ↔ ∃ value, (name, value) ∈ specFlagPairs tokens ∧ value ≠ [] := by
  unfold specFlagValue
  rw [List.getLast?_isSome]
  constructor
  · intro h
    obtain ⟨v, hv⟩ := List.exists_mem_of_ne_nil _ h
    obtain ⟨p, hp, rfl⟩ := List.mem_map.mp hv
    rw [List.mem_filter] at hp
    have hp2 : p.1 = name ∧ p.2 ≠ [] := by simpa using hp.2
    refine ⟨p.2, ?_, hp2.2⟩
    rw [← hp2.1]
    exact hp.1
  · rintro ⟨value, hmem, hne⟩
    apply List.ne_nil_of_mem
    exact List.mem_map_of_mem Prod.snd
      (List.mem_filter.mpr ⟨hmem, by simpa using hne⟩)

theorem specFlagValue_ne_empty (tokens : Slice GoString) (name : GoString) :
    specFlagValue tokens name ≠ some [] := by
  intro h
  unfold specFlagValue at h
  have hmem := List.mem_of_getLast?_eq_some h
  obtain ⟨p, hp, hnil⟩ := List.mem_map.mp hmem
  rw [List.mem_filter] at hp
  have hp2 : p.1 = name ∧ p.2 ≠ [] := by simpa using hp.2
  exact hp2.2 hnil

/-- Claim C16.  For every token list of even length `parseArgs` returns a map
that contains a flag name exactly when some pair (name, value) of the list has
that name and a non-empty value, that maps it to the value of the last such
pair, and in which no flag maps to the empty string. -/
theorem parseArgs_even_length (tokens : Slice GoString) (heven : tokens.length % 2 = 0) :
    ∃ result, parseArgs tokens = some result
      ∧ (∀ name, name ∈ result
          ↔ ∃ value, (name, value) ∈ specFlagPairs tokens ∧ value ≠ [])
      ∧ (∀ name, result.lookup name = specFlagValue tokens name)
      ∧ (∀ name, result.lookup name ≠ some []) := by
  obtain ⟨r, hr, hlook⟩ := parseArgs_loop_even (tokens.length / 2) tokens ∅ (by omega)
  have hl : ∀ name, r.lookup name = specFlagValue tokens name := by
    intro name
    rw [hlook name, AList.lookup_empty, Option.or_none]
  refine ⟨r, hr, ?_, hl, ?_⟩
  · intro name
    rw [← AList.lookup_isSome, hl name]
    exact specFlagValue_isSome tokens name
  · intro name
    rw [hl name]
    exact specFlagValue_ne_empty tokens name

theorem parseArgs_even_length_witness :
    sampleTokens.length % 2 = 0
      ∧ ∃ result, parseArgs sampleTokens = some result
        ∧ (∀ name, name ∈ result
            ↔ ∃ value, (name, value) ∈ specFlagPairs sampleTokens ∧ value ≠ [])
        ∧ (∀ name, result.lookup name = specFlagValue sampleTokens name)
        ∧ (∀ name, result.lookup name ≠ some []) :=
  ⟨by decide, parseArgs_even_length sampleTokens (by decide)⟩

/-- Claim C17, what the code does.  For every token list of odd length
`parseArgs` returns no map: the read of `args[i+1]` at the trailing flag is
out of range, which in Go is a run-time panic and not an argument error.  For
every token list of even length it returns a map. -/
theorem parseArgs_odd_length_panics (tokens : Slice GoString) :
    (tokens.length % 2 = 1 → parseArgs tokens = none)
      ∧ (tokens.length % 2 = 0 → ∃ result, parseArgs tokens = some result) := by
  constructor
  · intro h
    exact parseArgs_loop_odd (tokens.length / 2) tokens ∅ (by omega)
  · intro h
    obtain ⟨r, hr, _⟩ := parseArgs_loop_even (tokens.length / 2) tokens ∅ (by omega)
    exact ⟨r, hr⟩

theorem parseArgs_odd_length_panics_witness :
    trailingFlagTokens.length % 2 = 1 ∧ parseArgs trailingFlagTokens = none :=
  ⟨by decide, (parseArgs_odd_length_panics trailingFlagTokens).1 (by decide)⟩

/-! ## The ids of the records that `Perform` saves -/

theorem add_values_mem (users : Users) (user u : User)
    (h : u ∈ Users.values (Users.Add users user).1) : u = user ∨ u ∈ Users.values users := by
  unfold Users.Add at h
  split_ifs at h
  · exact Or.inr h
  · unfold Users.values at h
    rw [AList.insert_entries, List.map_cons, List.mem_cons] at h
    rcases h with h | h
    · exact Or.inl h
    · right
      obtain ⟨e, he, rfl⟩ := List.mem_map.mp h
      exact List.mem_map_of_mem _ ((List.kerase_sublist _ _).subset he)

theorem perform_add_trace (args : Arguments) (rng : Users → Slice GoString) (w w1 : World)
    (path item : GoString) (user : User) (users : Users)
    (hfile : args.lookup (lit "fileName") = some path) (hpath : path ≠ [])
    (hop : args.lookup (lit "operation") = some (lit "add"))
    (hitem : args.lookup (lit "item") = some item)
    (hdec : json.UnmarshalUser item = (user, none))
    (hload : LoadDB w path = ((users, none), w1)) :
    (Perform args rng w).2.trace.getLast?
      = some (Event.writeFile path (json.MarshalUsers (Users.List (Users.Add users user).1
          (rng (Users.Add users user).1)).1).1) := by
  rw [perform_add_eq args rng w w1 path item user users hfile hpath hop hitem hdec hload,
    saveDB_trace, List.getLast?_append]
  rfl

/-- Claim C18, as amended.  For every file that loads to a store in which all
records have non-empty ids, and every arguments map whose item decodes to a
record with a non-empty id, `ParseUser` returns that record, and the store
that `Perform` with the operation `add` saves, the result of `Users.Add`,
again holds only records with non-empty ids. -/
theorem perform_add_keeps_ids_nonempty (args : Arguments) (rng : Users → Slice GoString)
    (w : World) (path item : GoString) (user : User)
    (hfile : args.lookup (lit "fileName") = some path) (hpath : path ≠ [])
    (hop : args.lookup (lit "operation") = some (lit "add"))
    (hitem : args.lookup (lit "item") = some item)
    (hdec : json.UnmarshalUser item = (user, none))
    (hloads : (LoadDB w path).1.2 = none)
    (hstore : ∀ u ∈ Users.values (LoadDB w path).1.1, u.Id ≠ [])
    (hid : user.Id ≠ []) :
    ParseUser args = (user, none)
      ∧ (Perform args rng w).2.trace.getLast?
          = some (Event.writeFile path (json.MarshalUsers
              (Users.List (Users.Add (LoadDB w path).1.1 user).1
                (rng (Users.Add (LoadDB w path).1.1 user).1)).1).1)
      ∧ ∀ u ∈ Users.values (Users.Add (LoadDB w path).1.1 user).1, u.Id ≠ [] := by
  refine ⟨parseUser_of_decodes args item user hitem hdec,
    perform_add_trace args rng w _ path item user _ hfile hpath hop hitem hdec
      (loadDB_eq_of_loads w path hloads), ?_⟩
  intro u hu
  rcases add_values_mem _ _ u hu with h | h
  · rw [h]; exact hid
  · exact hstore u h

theorem perform_add_keeps_ids_nonempty_witness :
    addArgs.lookup (lit "item") = some sampleItem
      ∧ json.UnmarshalUser sampleItem = (sampleUser, none)
      ∧ sampleUser.Id ≠ []
      ∧ (ParseUser addArgs = (sampleUser, none)
        ∧ (Perform addArgs keysOrder emptyWorld).2.trace.getLast?
            = some (Event.writeFile (lit "t.json") (json.MarshalUsers
                (Users.List (Users.Add (LoadDB emptyWorld (lit "t.json")).1.1 sampleUser).1
                  (keysOrder (Users.Add (LoadDB emptyWorld (lit "t.json")).1.1
                    sampleUser).1)).1).1)
        ∧ ∀ u ∈ Users.values (Users.Add (LoadDB emptyWorld (lit "t.json")).1.1 sampleUser).1,
            u.Id ≠ []) :=
  ⟨by decide, by decide, by decide,
    perform_add_keeps_ids_nonempty addArgs keysOrder emptyWorld (lit "t.json") sampleItem
      sampleUser (by decide) (by decide) (by decide) (by decide) (by decide) (by decide)
      (by decide) (by decide)⟩

/-- Claim C18, as stated, fails.  The item `\x7b\x7d` decodes without error to
the record with the empty id; on a store without records, `Perform` with the
operation `add` returns success and saves a store that holds this record. -/
theorem perform_add_saves_empty_id :
    (∀ u ∈ Users.values (LoadDB emptyWorld (lit "t.json")).1.1, u.Id ≠ [])
      ∧ ParseUser emptyObjectArgs = (User.zero, none)
      ∧ (Perform emptyObjectArgs keysOrder emptyWorld).1 = none
      ∧ (Perform emptyObjectArgs keysOrder emptyWorld).2.files (lit "t.json")
          = File.data (lit "[\x7b\"id\":\"\",\"email\":\"\",\"age\":0\x7d]")
      ∧ ∃ u ∈ Users.values
          (Users.Add (LoadDB emptyWorld (lit "t.json")).1.1 (ParseUser emptyObjectArgs).1).1,
          u.Id = [] := by
  refine ⟨by decide, by decide, by decide, by decide, User.zero, by decide, by decide⟩

/-! ## `LoadDB`: the errors it returns -/

theorem fill_nil (users : Users) : LoadDB.fill [] users = users := rfl

/-- Claim C19, as amended.  For every path whose file exists and is readable,
`LoadDB` returns no error, and where the content is not one JSON value, or is
a JSON value other than an array, it returns the empty store; `LoadDB` returns
an error exactly when reading the file fails for a reason other than the file
not existing, and the error is that of the read.  A device that reads as empty
is such a readable file: it gives no error and the empty store. -/
theorem loadDB_error_only_when_unreadable (w : World) (path : GoString) :
    (∀ content, w.files path = File.data content →
        (LoadDB w path).1.2 = none
          ∧ ((∀ elems, json.parse content ≠ some (json.Value.array elems)) →
              (LoadDB w path).1.1 = ∅))
      ∧ (∀ err, (LoadDB w path).1.2 = some err
          ↔ ∃ code, w.files path = File.unreadable code ∧ err = Error.os code)
      ∧ (w.files path = File.sink → (LoadDB w path).1 = (∅, none)) := by
  refine ⟨?_, ?_, ?_⟩
  · intro content hdata
    rw [loadDB_of_data w path content hdata]
    refine ⟨rfl, ?_⟩
    intro hnot
    have hnil : (json.UnmarshalUsers content).1 = [] := by
      unfold json.UnmarshalUsers
      cases hp : json.parse content with
      | none => rfl
      | some v =>
        cases v with
        | array elems => exact absurd hp (hnot elems)
        | _ => rfl
    simp only [hnil]
    rfl
  · intro err
    cases hf : w.files path with
    | absent => simp [LoadDB, os.ReadFile, hf, Error.isNotExist]
    | data content => simp [LoadDB, os.ReadFile, hf]
    | unreadable code =>
      simp [LoadDB, os.ReadFile, hf, Error.isNotExist]
      exact eq_comm
    | sink => simp [LoadDB, os.ReadFile, hf]
  · intro hf
    simp only [LoadDB, os.ReadFile, hf]
    rfl

theorem loadDB_error_only_when_unreadable_witness :
    notJsonWorld.files (lit "t.json") = File.data (lit "not json")
      ∧ (LoadDB notJsonWorld (lit "t.json")).1.2 = none
      ∧ (LoadDB notJsonWorld (lit "t.json")).1.1 = ∅ :=
  ⟨by decide,
    ((loadDB_error_only_when_unreadable notJsonWorld (lit "t.json")).1 (lit "not json")
      (by decide)).1,
    ((loadDB_error_only_when_unreadable notJsonWorld (lit "t.json")).1 (lit "not json")
      (by decide)).2 (fun elems h => by
        have hp : json.parse (lit "not json") = none := rfl
        rw [hp] at h
        cases h)⟩

/-- Claim C19, as stated, fails.  The file holds a JSON array whose one element
has a number where the field `email` takes a string: `json.Unmarshal` reports
an error, which `LoadDB` ignores, and has stored the element with the fields
it could decode, so that `LoadDB` returns no error and a store that is not
empty. -/
theorem loadDB_keeps_partly_decoded_records :
    typeErrorWorld.files (lit "t.json") = File.data typeErrorFile
      ∧ json.UnmarshalUsers typeErrorFile
          = ([{ Id := lit "1", Email := [], Age := 0 }], some Error.jsonType)
      ∧ (LoadDB typeErrorWorld (lit "t.json")).1.2 = none
      ∧ Users.len (LoadDB typeErrorWorld (lit "t.json")).1.1 = 1
      ∧ Users.Find (LoadDB typeErrorWorld (lit "t.json")).1.1 (lit "1")
          = { Id := lit "1", Email := [], Age := 0 } := by
  refine ⟨by decide, by decide, by decide, by decide, by decide⟩
